import Mathlib

/-!
# A shallow embedding of libredo (src/redo.c, library version 0.8)

This file models the history-tree engine of libredo.  Pointers become
slot indices (`Nat`) into a growable arena (`List redo_position`); the
C free list of position structs is an explicit list of free slot
indices.  Freed position records persist with `inuse := false`, as in
the C arena (the C code clobbers only the `prev` field of a freed
struct, which no modelled operation reads).  Branch structs carry no
observable identity in the API, so branch lists are plain Lean lists
(most-recent first, as in the source).  The hash table is a bit set,
modelled as the list of set bit indices.  Machine integers are `Nat`;
the claims under study never approach the 16-bit wrap of `movecount`
or `solutionsize`, and the (negative) delta of `adjustmovecount` is
passed as a natural-number decrement, since grafting only ever lowers
move counts.  Unbounded C loops over `prev` chains, `better` chains
and subtrees take a fuel argument; fuel is always chosen at least one
more than the arena size, which under the structural invariants of a
session exceeds the length of any such chain.  The C code scans the
arena newest chunk first; a session never exceeding one chunk (1024
positions) is scanned in ascending slot order, which is what the model
does.  Allocation failure (malloc) is not modelled: allocation always
succeeds.
-/

namespace LibRedo

/-- Grafting behaviour constants, from redo.h: enum { redo_nograft,
redo_graft, redo_copypath, redo_graftandcopy }. -/
def redo_nograft : Nat := 0

/-- Default grafting behaviour: transplant the subtree. -/
def redo_graft : Nat := 1

/-- Copy the best solution path instead of grafting. -/
def redo_copypath : Nat := 2

/-- Graft, then copy the solution back to the old site. -/
def redo_graftandcopy : Nat := 3

/-- Equivalence-checking constants, from redo.h: enum { redo_nocheck,
redo_check, redo_checklater }. -/
def redo_nocheck : Nat := 0

/-- Check for equivalent positions at insertion time. -/
def redo_check : Nat := 1

/-- Defer the equivalence check to redo_setbetterfields(). -/
def redo_checklater : Nat := 2

/-- A labelled branch in the tree of visited states (struct
redo_branch).  The `cdr` sibling pointer is implicit in the enclosing
Lean list. -/
structure redo_branch where
  p : Nat
  move : Int
  deriving Repr, DecidableEq

/-- The information associated with a visited state (struct
redo_position).  `endpoint` is the 1-bit flag of the source struct
(`unsigned short endpoint:1`).  The inline state buffer is a byte
list.  The `inarray` marker of the source is an artifact of chunked
allocation and has no counterpart here. -/
structure redo_position where
  inuse : Bool
  prev : Option Nat
  next : List redo_branch
  better : Option Nat
  movecount : Nat
  solutionsize : Nat
  nextcount : Nat
  endpoint : Bool
  setbetter : Bool
  hashvalue : Nat
  state : List Nat
  deriving Repr, DecidableEq

/-- A redo session (struct redo_session).  `positions` is the position
arena in slot order; `freelist` is the chain of free slots headed by
`pfree`. -/
structure redo_session where
  positions : List redo_position
  freelist : List Nat
  root : Nat
  hashtable : List Nat
  positioncount : Nat
  statesize : Nat
  cmpsize : Nat
  changeflag : Bool
  grafting : Nat
  deriving Repr, DecidableEq

/-- Fetch the record stored at a slot. -/
def redo_session.pos (s : redo_session) (i : Nat) : Option redo_position :=
  s.positions[i]?

/-- Replace the record stored at a slot, if the slot exists. -/
def modifypos (s : redo_session) (i : Nat)
    (f : redo_position → redo_position) : redo_session :=
  match s.positions[i]? with
  | some p => { s with positions := s.positions.set i (f p) }
  | none => s

/-- The size, in bits, of the hash table. -/
def hashtablebitsize : Nat := 8191

/-- 2^32, the modulus of the uint32_t arithmetic in gethashvalue. -/
def u32 : Nat := 4294967296

/-- Read a little-endian 32-bit word from the first four bytes. -/
def le32 (b0 b1 b2 b3 : Nat) : Nat :=
  b0 + b1 * 256 + b2 * 65536 + b3 * 16777216

/-- One step of the Meiyan main loop: fold two 32-bit words into the
hash accumulator.  `k = rotl(k,5) ^ k2; h = (h ^ k) * m` in uint32
arithmetic. -/
def meiyanstep (h k1 k2 : Nat) : Nat :=
  let k := (((k1 * 32) % u32) ||| (k1 / 134217728)) ^^^ k2
  ((h ^^^ k) * 712679) % u32

/-- The trailing-byte loop of gethashvalue: each remaining byte is
xored in at its byte offset.  (For offsets of four or more the C shift
is undefined behaviour; the model shifts modulo 2^32, and no claim
evaluates the function on such inputs.) -/
def meiyantail (h : Nat) (bs : List Nat) : Nat :=
  (List.foldl (fun acc pr => acc ^^^ ((pr.2 * (256 ^ pr.1)) % u32)) h
    (List.zip (List.range bs.length) bs))

/-- Compute the hash value for a given state (gethashvalue in
redo.c): the Meiyan hash of the byte list, reduced to 16 bits.  The
state buffer is read as little-endian 32-bit words. -/
def gethashvalue : List Nat → Nat :=
  let rec loop : Nat → List Nat → Nat
    | h, b0 :: b1 :: b2 :: b3 :: b4 :: b5 :: b6 :: b7 :: rest =>
        loop (meiyanstep h (le32 b0 b1 b2 b3) (le32 b4 b5 b6 b7)) rest
    | h, rest =>
        let h := (meiyantail h rest * 712679) % u32
        (h ^^^ (h / 65536)) % 65536
  loop 2166136261

/-- Mark a hash value as present in the session (sethashentry). -/
def sethashentry (s : redo_session) (v : Nat) : redo_session :=
  { s with hashtable := (v % hashtablebitsize) :: s.hashtable }

/-- True when the hash table rules the value out (notintable).  The
model always carries a table, corresponding to a session whose table
allocation succeeded. -/
def notintable (s : redo_session) (v : Nat) : Bool :=
  ! s.hashtable.contains (v % hashtablebitsize)

/-- Empty the hash table and repopulate it from the live positions
(recalchashtable). -/
def recalchashtable (s : redo_session) : redo_session :=
  let t := List.map (fun p => p.hashvalue % hashtablebitsize)
    (List.filter (fun p => p.inuse) s.positions)
  { s with hashtable := t }

/-- Test whether a position's stored state matches the given state on
the comparing portion (comparestatedata: memcmp over cmpsize
bytes). -/
def comparestatedata (s : redo_session) (p : redo_position)
    (state : List Nat) : Bool :=
  p.state.take s.cmpsize == state.take s.cmpsize

/-- Follow a better chain to its end (the `while (equiv->better)` loop
inside checkforequiv). -/
def followbetter : Nat → redo_session → Nat → Nat
  | 0, _, i => i
  | f + 1, s, i =>
      match s.pos i with
      | some p =>
          match p.better with
          | some j => followbetter f s j
          | none => i
      | none => i

/-- Compare the given state with all states in the session
(checkforequiv).  Skips positions whose `setbetter` flag is raised,
and follows the better chain of the first match.  The arena is
scanned in ascending slot order. -/
def checkforequiv (s : redo_session) (state : List Nat) : Option Nat :=
  let hv := gethashvalue (state.take s.cmpsize)
  if notintable s hv then none
  else
    match (List.range s.positions.length).find? (fun i =>
        match s.pos i with
        | some p =>
            p.inuse && ! p.setbetter && p.hashvalue == hv &&
              comparestatedata s p state
        | none => false) with
    | some i => some (followbetter (s.positions.length + 1) s i)
    | none => none

/-- Find the first branch bearing a given move label. -/
def findbranch (move : Int) : List redo_branch → Option redo_branch
  | [] => none
  | b :: r => if b.move = move then some b else findbranch move r

/-- Remove the first branch bearing a given move label. -/
def removebranchmove (move : Int) : List redo_branch → List redo_branch
  | [] => []
  | b :: r => if b.move = move then r else b :: removebranchmove move r

/-- Remove the first branch leading to a given position. -/
def removebranchto (tid : Nat) : List redo_branch → List redo_branch
  | [] => []
  | b :: r => if b.p = tid then r else b :: removebranchto tid r

/-- Return the target of the branch labelled with this move, splicing
a non-head match to the head of the list (redo_getnextposition). -/
def redo_getnextposition (s : redo_session) (i : Nat) (move : Int) :
    redo_session × Option Nat :=
  match s.pos i with
  | none => (s, none)
  | some p =>
      match p.next with
      | [] => (s, none)
      | b :: rest =>
          if b.move = move then (s, some b.p)
          else
            match findbranch move rest with
            | some c =>
                (modifypos s i (fun q =>
                    { q with next := c :: b :: removebranchmove move rest }),
                 some c.p)
            | none => (s, none)

/-- Create a branch from a position via a move unless one with that
label already exists (insertmoveto). -/
def insertmoveto (s : redo_session) (fromid toid : Nat) (move : Int) :
    redo_session :=
  match s.pos fromid with
  | none => s
  | some p =>
      match findbranch move p.next with
      | some _ => s
      | none =>
          modifypos s fromid (fun q =>
            { q with next := { p := toid, move := move } :: q.next,
                     nextcount := q.nextcount + 1 })

/-- Delete the branch between two positions, if present (dropmoveto).
Returns whether a branch was removed. -/
def dropmoveto (s : redo_session) (fromid toid : Nat) :
    redo_session × Bool :=
  match s.pos fromid with
  | none => (s, false)
  | some p =>
      if p.next.any (fun b => b.p = toid) then
        (modifypos s fromid (fun q =>
            { q with next := removebranchto toid q.next,
                     nextcount := q.nextcount - 1 }), true)
      else (s, false)

/-- The record that getpositionstruct + savestatedata write into a
fresh slot.  The 1-bit `endpoint` field keeps the low bit of the
argument, as the C bit-field assignment does. -/
def freshposition (s : redo_session) (state : List Nat)
    (endpoint : Nat) : redo_position :=
  { inuse := true, prev := none, next := [], better := none,
    movecount := 0, solutionsize := 0, nextcount := 0,
    endpoint := endpoint % 2 = 1, setbetter := false,
    hashvalue := gethashvalue (state.take s.cmpsize),
    state := state.take s.statesize }

/-- Grab an unused position record and initialise it with the given
state (getpositionstruct + savestatedata).  Returns the new slot
index. -/
def getpositionstruct (s : redo_session) (state : List Nat)
    (endpoint : Nat) : redo_session × Nat :=
  let newp : redo_position := freshposition s state endpoint
  match s.freelist with
  | i :: rest =>
      ({ s with positions := s.positions.set i newp, freelist := rest,
                positioncount := s.positioncount + 1 }, i)
  | [] =>
      ({ s with positions := s.positions ++ [newp],
                positioncount := s.positioncount + 1 },
       s.positions.length)

/-- Mark a position record as unused (droppositionstruct). -/
def droppositionstruct (s : redo_session) (i : Nat) : redo_session :=
  { modifypos s i (fun q => { q with inuse := false }) with
      freelist := i :: s.freelist,
      positioncount := s.positioncount - 1 }

/-- The ancestor walk performed when an endpoint position is added
(redo_addposition lines 670-674): raise each ancestor's solutionsize
to the new path length until an ancestor already holds a value that is
non-zero and no larger. -/
def solwalk : Nat → redo_session → Option Nat → Nat → redo_session
  | 0, s, _, _ => s
  | _, s, none, _ => s
  | f + 1, s, some j, size =>
      match s.pos j with
      | none => s
      | some p =>
          if p.solutionsize ≠ 0 ∧ p.solutionsize ≤ size then s
          else solwalk f (modifypos s j
            (fun q => { q with solutionsize := size })) p.prev size

/-- The allocation-and-initialisation core of redo_addposition (lines
647-675): allocate the position, link the branch from `prev`, set the
hash table bit, initialise every field, and propagate solutionsize if
the new position is an endpoint. -/
def addposition_core (s : redo_session) (prev : Option Nat) (move : Int)
    (state : List Nat) (endpoint : Nat) (setbetterFlag : Bool) :
    redo_session × Nat :=
  let alloc := getpositionstruct s state endpoint
  let i := alloc.2
  let s2 := match prev with
            | some pr => insertmoveto alloc.1 pr i move
            | none => alloc.1
  let s3 := sethashentry s2 (gethashvalue (state.take s.cmpsize))
  let mc := match prev with
            | some pr => match s3.pos pr with
                         | some pp => pp.movecount + 1
                         | none => 0
            | none => 0
  let s4 := modifypos s3 i (fun q =>
    { q with better := none, setbetter := setbetterFlag, prev := prev,
             next := [], nextcount := 0, movecount := mc,
             solutionsize := if endpoint ≠ 0 then mc else 0 })
  let s5 := if endpoint ≠ 0 then
              solwalk (s4.positions.length + 1) s4 prev mc
            else s4
  (s5, i)

/-- redo_addposition restricted to checkequiv = redo_nocheck: the
early return for an existing branch, then the core, then the change
flag.  redo_duplicatepath always calls redo_addposition in this
mode. -/
def addposition_nocheck (s : redo_session) (prev : Option Nat)
    (move : Int) (state : List Nat) (endpoint : Nat) :
    redo_session × Nat :=
  let early : redo_session × Option Nat :=
    match prev with
    | some pr => redo_getnextposition s pr move
    | none => (s, none)
  match early.2 with
  | some t => (early.1, t)
  | none =>
      let core := addposition_core s prev move state endpoint false
      ({ core.1 with changeflag := true }, core.2)

/-- Change the movecount of the subtree rooted at a position by the
given (downward) delta (adjustmovecount).  Non-zero solutionsize
fields shift alongside; a better link whose target is now deeper than
the position is inverted.  The C delta is a negative int; the model
passes its magnitude and subtracts. -/
def adjustmovecount : Nat → redo_session → Nat → Nat → redo_session
  | 0, s, _, _ => s
  | f + 1, s, i, delta =>
      match s.pos i with
      | none => s
      | some p =>
          let mc := p.movecount - delta
          let s1 := modifypos s i (fun q =>
            { q with movecount := q.movecount - delta,
                     solutionsize := if q.solutionsize = 0 then 0
                                     else q.solutionsize - delta })
          let s2 := match p.better with
            | none => s1
            | some b =>
                match s1.pos b with
                | none => s1
                | some pb =>
                    if pb.movecount > mc then
                      modifypos (modifypos s1 b
                          (fun q => { q with better := some i })) i
                        (fun q => { q with better := none })
                    else s1
          p.next.foldl (fun acc br => adjustmovecount f acc br.p delta) s2

/-- The upward solutionsize merge at the end of graftbranch (lines
482-487): push the grafted solution size to every ancestor holding
zero or a larger value.  Unlike solwalk this loop has no early
exit. -/
def solmerge : Nat → redo_session → Option Nat → Nat → redo_session
  | 0, s, _, _ => s
  | _, s, none, _ => s
  | f + 1, s, some j, n =>
      match s.pos j with
      | none => s
      | some p =>
          solmerge f
            (if p.solutionsize = 0 ∨ p.solutionsize > n then
               modifypos s j (fun q => { q with solutionsize := n })
             else s) p.prev n

/-- Move the entire subtree rooted at src to dest, leaving src a leaf
(graftbranch). -/
def graftbranch (s : redo_session) (dest src : Nat) : redo_session :=
  match s.pos dest, s.pos src with
  | some dp, some sp =>
      let s1 := modifypos s dest (fun q =>
        { q with next := sp.next, nextcount := sp.nextcount })
      let s2 := modifypos s1 src (fun q =>
        { q with next := [], nextcount := 0 })
      let s3 := sp.next.foldl (fun acc br =>
        modifypos acc br.p (fun q => { q with prev := some dest })) s2
      let delta := sp.movecount - dp.movecount
      let s4 := modifypos s3 dest (fun q =>
        { q with movecount := sp.movecount,
                 solutionsize := sp.solutionsize })
      let s5 := adjustmovecount (s4.positions.length + 1) s4 dest delta
      match s5.pos dest with
      | some dp5 =>
          if dp5.solutionsize ≠ 0 then
            solmerge (s5.positions.length + 1) s5 dp5.prev dp5.solutionsize
          else s5
      | none => s5
  | _, _ => s

/-- Compute the minimum non-zero solutionsize among branch targets
(the inner loop of recalcsolutionsize), zero if there is none. -/
def branchsolmin (s : redo_session) (branches : List redo_branch) : Nat :=
  branches.foldl (fun size br =>
    match s.pos br.p with
    | some q =>
        if q.solutionsize ≠ 0 ∧ (size = 0 ∨ size > q.solutionsize) then
          q.solutionsize
        else size
    | none => size) 0

/-- Refresh solutionsize along the path from a position to the root
(recalcsolutionsize). -/
def recalcsolutionsize : Nat → redo_session → Option Nat → redo_session
  | 0, s, _ => s
  | _, s, none => s
  | f + 1, s, some i =>
      match s.pos i with
      | none => s
      | some p =>
          recalcsolutionsize f
            (modifypos s i (fun q =>
              { q with solutionsize := branchsolmin s p.next })) p.prev

/-- The deletion loop of prunebranch: delete positions from the leaf
upwards until the branchpoint, a position with an outgoing branch, or
(in a malformed session) a missing parent.  Returns the session, the
"done" flag of the source, and whether anything was deleted. -/
def prunebranch_loop : Nat → redo_session → Nat → Nat →
    redo_session × Bool × Bool
  | 0, s, _, _ => (s, true, false)
  | f + 1, s, posid, bp =>
      if posid = bp then (s, true, false)
      else
        match s.pos posid with
        | none => (s, true, false)
        | some p =>
            if p.next ≠ [] then (s, false, false)
            else
              match p.prev with
              | none => (s, true, false)
              | some pr =>
                  let s1 := (dropmoveto s pr posid).1
                  let s2 := droppositionstruct s1 posid
                  let s3 := { s2 with changeflag := true }
                  let r := prunebranch_loop f s3 pr bp
                  (r.1, r.2.1, true)

/-- Delete the path leading from branchpoint down to leaf
(prunebranch).  The hash table is rebuilt when at least one position
was deleted.  Returns true if all positions between leaf and
branchpoint were deleted. -/
def prunebranch (s : redo_session) (leaf bp : Nat) :
    redo_session × Bool :=
  let r := prunebranch_loop (s.positions.length + 1) s leaf bp
  (if r.2.2 then recalchashtable r.1 else r.1, r.2.1)

/-- The ancestor scan of redo_suppresscycle: find the first ancestor
(starting from the position itself) whose comparing bytes equal the
candidate state, together with its hop distance. -/
def findcycle : Nat → redo_session → Option Nat → Nat → List Nat →
    Option (Nat × Nat)
  | 0, _, _, _, _ => none
  | _, _, none, _, _ => none
  | f + 1, s, some i, n, st =>
      match s.pos i with
      | none => none
      | some p =>
          if comparestatedata s p st then some (i, n)
          else findcycle f s p.prev (n + 1) st

/-- Check whether the given state revisits a state seen on the path
ending at the given position (redo_suppresscycle).  Returns the new
session, the (possibly redirected) current position, and whether a
cycle was found.  The chain from the current position to the match is
pruned when its hop distance is strictly below prunelimit. -/
def redo_suppresscycle (s : redo_session) (posid : Nat)
    (state : List Nat) (prunelimit : Int) :
    redo_session × Nat × Bool :=
  match findcycle (s.positions.length + 1) s (some posid) 0 state with
  | none => (s, posid, false)
  | some (a, n) =>
      let s1 := if (n : Int) < prunelimit then (prunebranch s posid a).1
                else s
      (s1, a, true)

/-- Delete a leaf position from the session (redo_dropposition).
Returns the parent, or the original position if it cannot be
deleted. -/
def redo_dropposition (s : redo_session) (i : Nat) :
    redo_session × Nat :=
  match s.pos i with
  | none => (s, i)
  | some p =>
      match p.prev with
      | none => (s, i)
      | some pr =>
          if p.next ≠ [] then (s, i)
          else
            let dm := dropmoveto s pr i
            if ! dm.2 then (s, i)
            else
              let s1 := dm.1
              let better := p.better
              let rewritten := s1.positions.map
                (fun q => if q.inuse && q.better = some i then
                            { q with better := better }
                          else q)
              let s2 := { s1 with positions := rewritten }
              let s3 := droppositionstruct s2 i
              let s4 := recalcsolutionsize (s3.positions.length + 1) s3
                          (some pr)
              let s5 := recalchashtable s4
              ({ s5 with changeflag := true }, pr)

/-- The copying loop of redo_duplicatepath: follow the branch whose
target carries the source's solutionsize, re-adding each move under
dest with redo_nocheck, and set dest's better pointer once its
movecount has caught up with the source's. -/
def duppath_loop : Nat → redo_session → Nat → Nat →
    redo_session × Bool
  | 0, s, _, _ => (s, true)
  | f + 1, s, dest, src =>
      match s.pos src with
      | none => (s, true)
      | some sp =>
          if sp.solutionsize = 0 then (s, true)
          else
            match sp.next.find? (fun b =>
                match s.pos b.p with
                | some q => q.solutionsize == sp.solutionsize
                | none => false) with
            | none => (s, true)
            | some br =>
                match s.pos br.p with
                | none => (s, true)
                | some bq =>
                    let r1 := addposition_nocheck s (some dest)
                      br.move bq.state (if bq.endpoint then 1 else 0)
                    let s1 := r1.1
                    let nxt := r1.2
                    let s2 :=
                      match s1.pos dest, s1.pos src with
                      | some dp, some sp1 =>
                          if dp.better = none ∧ dp.movecount ≥ sp1.movecount
                          then
                            modifypos s1 dest (fun q =>
                              { q with better := some (sp1.better.getD src) })
                          else s1
                      | _, _ => s1
                    duppath_loop f s2 nxt br.p

/-- Copy the best solution path emanating from src to dest
(redo_duplicatepath).  Returns false if src lies on no solution
path. -/
def redo_duplicatepath (s : redo_session) (dest src : Nat) :
    redo_session × Bool :=
  match s.pos src with
  | none => (s, true)
  | some sp =>
      if sp.solutionsize = 0 then (s, false)
      else duppath_loop (s.positions.length + s.positioncount + 1) s
             dest src

/-- Add a new position to the session (redo_addposition).  Mirrors the
source: early return when the branch already exists; equivalence
lookup when requested and the position is not an endpoint; allocation
and initialisation; better linking and grafting policy. -/
def redo_addposition (s : redo_session) (prev : Option Nat)
    (move : Int) (state : List Nat) (endpoint : Nat)
    (checkequiv : Nat) : redo_session × Nat :=
  let early : redo_session × Option Nat :=
    match prev with
    | some pr => redo_getnextposition s pr move
    | none => (s, none)
  match early.2 with
  | some t => (early.1, t)
  | none =>
      let equiv := if checkequiv = redo_check ∧ endpoint = 0 then
                     checkforequiv s state
                   else none
      let core := addposition_core s prev move state endpoint
                    (checkequiv = redo_checklater)
      let s1 := core.1
      let i := core.2
      let s2 :=
        match equiv with
        | none => s1
        | some e =>
            match s1.pos i, s1.pos e with
            | some pi, some pe =>
                if pi.movecount ≥ pe.movecount then
                  modifypos s1 i (fun q => { q with better := some e })
                else
                  let sA := modifypos s1 e
                    (fun q => { q with better := some i })
                  if sA.grafting = redo_copypath then
                    (redo_duplicatepath sA i e).1
                  else if sA.grafting ≠ redo_nograft then
                    let sB := graftbranch sA i e
                    let sC := recalcsolutionsize
                      (sB.positions.length + 1) sB (some e)
                    if sC.grafting = redo_graftandcopy then
                      (redo_duplicatepath sC e i).1
                    else sC
                  else sA
            | _, _ => s1
      ({ s2 with changeflag := true }, i)

/-- Examine every position, resolving the better field of those with
setbetter raised (redo_setbetterfields).  Returns the count the
source returns: the number of positions whose equivalence lookup
found a match. -/
def redo_setbetterfields (s : redo_session) : redo_session × Nat :=
  (List.range s.positions.length).foldl (fun acc i =>
    match acc.1.pos i with
    | none => acc
    | some p =>
        if p.inuse && p.setbetter then
          let other := checkforequiv acc.1 p.state
          let s1 := modifypos acc.1 i (fun q => { q with better := other })
          let c1 := if other.isSome then acc.2 + 1 else acc.2
          let s2 :=
            match other with
            | none => s1
            | some o =>
                match s1.pos o with
                | none => s1
                | some po =>
                    if po.movecount > p.movecount then
                      let sA := modifypos s1 i
                        (fun q => { q with better := none })
                      if po.better = none then
                        modifypos sA o (fun q =>
                          { q with better := some i, setbetter := false })
                      else sA
                    else s1
          (modifypos s2 i (fun q => { q with setbetter := false }), c1)
        else acc) (s, 0)

/-- A fresh session record before the root is added
(redo_beginsession lines 527-539, with the arena initially empty). -/
def emptysession (size cmpsize : Nat) : redo_session :=
  { positions := [], freelist := [], root := 0, hashtable := [],
    positioncount := 0, statesize := size,
    cmpsize := if cmpsize = 0 then size else cmpsize,
    changeflag := false, grafting := redo_graft }

/-- Create a new session with a single root position
(redo_beginsession).  The source's element-size/alignment guard is a
memory-layout concern and is not modelled; the argument guards
are. -/
def redo_beginsession (state : List Nat) (size cmpsize : Nat) :
    Option redo_session :=
  if size = 0 ∨ cmpsize > size then none
  else
    let s0 := emptysession size cmpsize
    let r := redo_addposition s0 none 0 state 0 redo_nocheck
    some { r.1 with root := r.2, changeflag := false }

/-- Change the grafting behaviour option (redo_setgraftbehavior). -/
def redo_setgraftbehavior (s : redo_session) (grafting : Nat) :
    redo_session × Nat :=
  ({ s with grafting := grafting }, s.grafting)

/-- Return the session's root position (redo_getfirstposition). -/
def redo_getfirstposition (s : redo_session) : Nat :=
  s.root

/-- Return the session's population count (redo_getsessionsize). -/
def redo_getsessionsize (s : redo_session) : Nat :=
  s.positioncount

/-- Return the change flag (redo_hassessionchanged). -/
def redo_hassessionchanged (s : redo_session) : Bool :=
  s.changeflag

/-- Reset the change flag, returning its prior value
(redo_clearsessionchanged). -/
def redo_clearsessionchanged (s : redo_session) : redo_session × Bool :=
  ({ s with changeflag := false }, s.changeflag)

/-!
## Equation lemmas for the fuelled recursions
-/

theorem solwalk_none (f : Nat) (s : redo_session) (size : Nat) :
    solwalk f s none size = s := by
  cases f <;> rfl

theorem solwalk_some (f : Nat) (s : redo_session) (j size : Nat)
    (p : redo_position) (hp : s.pos j = some p) :
    solwalk (f + 1) s (some j) size =
      if p.solutionsize ≠ 0 ∧ p.solutionsize ≤ size then s
      else solwalk f
        (modifypos s j (fun q => { q with solutionsize := size }))
        p.prev size := by
  conv_lhs => unfold solwalk
  rw [hp]

theorem solwalk_dead (f : Nat) (s : redo_session) (j size : Nat)
    (hp : s.pos j = none) : solwalk (f + 1) s (some j) size = s := by
  conv_lhs => unfold solwalk
  rw [hp]

theorem solmerge_none (f : Nat) (s : redo_session) (n : Nat) :
    solmerge f s none n = s := by
  cases f <;> rfl

theorem solmerge_some (f : Nat) (s : redo_session) (j n : Nat)
    (p : redo_position) (hp : s.pos j = some p) :
    solmerge (f + 1) s (some j) n =
      solmerge f
        (if p.solutionsize = 0 ∨ p.solutionsize > n then
           modifypos s j (fun q => { q with solutionsize := n })
         else s) p.prev n := by
  conv_lhs => unfold solmerge
  rw [hp]

theorem solmerge_dead (f : Nat) (s : redo_session) (j n : Nat)
    (hp : s.pos j = none) : solmerge (f + 1) s (some j) n = s := by
  conv_lhs => unfold solmerge
  rw [hp]

theorem recalcsolutionsize_none (f : Nat) (s : redo_session) :
    recalcsolutionsize f s none = s := by
  cases f <;> rfl

theorem recalcsolutionsize_some (f : Nat) (s : redo_session) (j : Nat)
    (p : redo_position) (hp : s.pos j = some p) :
    recalcsolutionsize (f + 1) s (some j) =
      recalcsolutionsize f
        (modifypos s j (fun q =>
          { q with solutionsize := branchsolmin s p.next })) p.prev := by
  conv_lhs => unfold recalcsolutionsize
  rw [hp]

theorem recalcsolutionsize_dead (f : Nat) (s : redo_session) (j : Nat)
    (hp : s.pos j = none) : recalcsolutionsize (f + 1) s (some j) = s := by
  conv_lhs => unfold recalcsolutionsize
  rw [hp]

theorem adjustmovecount_some (f : Nat) (s : redo_session) (i delta : Nat)
    (p : redo_position) (hp : s.pos i = some p) :
    adjustmovecount (f + 1) s i delta =
      (let mc := p.movecount - delta
       let s1 := modifypos s i (fun q =>
         { q with movecount := q.movecount - delta,
                  solutionsize := if q.solutionsize = 0 then 0
                                  else q.solutionsize - delta })
       let s2 := match p.better with
         | none => s1
         | some b =>
             match s1.pos b with
             | none => s1
             | some pb =>
                 if pb.movecount > mc then
                   modifypos (modifypos s1 b
                       (fun q => { q with better := some i })) i
                     (fun q => { q with better := none })
                 else s1
       p.next.foldl (fun acc br => adjustmovecount f acc br.p delta) s2) := by
  conv_lhs => unfold adjustmovecount
  rw [hp]

theorem adjustmovecount_dead (f : Nat) (s : redo_session) (i delta : Nat)
    (hp : s.pos i = none) : adjustmovecount (f + 1) s i delta = s := by
  conv_lhs => unfold adjustmovecount
  rw [hp]

theorem followbetter_some (f : Nat) (s : redo_session) (i : Nat)
    (p : redo_position) (hp : s.pos i = some p) :
    followbetter (f + 1) s i =
      match p.better with
      | some j => followbetter f s j
      | none => i := by
  conv_lhs => unfold followbetter
  rw [hp]

theorem findcycle_none (f : Nat) (s : redo_session) (n : Nat)
    (st : List Nat) : findcycle f s none n st = none := by
  cases f <;> rfl

theorem findcycle_some (f : Nat) (s : redo_session) (i n : Nat)
    (st : List Nat) (p : redo_position) (hp : s.pos i = some p) :
    findcycle (f + 1) s (some i) n st =
      (if comparestatedata s p st then some (i, n)
       else findcycle f s p.prev (n + 1) st) := by
  conv_lhs => unfold findcycle
  rw [hp]

theorem prunebranch_loop_bp (f : Nat) (s : redo_session) (bp : Nat) :
    prunebranch_loop (f + 1) s bp bp = (s, true, false) := by
  conv_lhs => unfold prunebranch_loop
  rw [if_pos rfl]

theorem prunebranch_loop_step (f : Nat) (s : redo_session)
    (posid bp : Nat) (hne : posid ≠ bp) (p : redo_position)
    (hp : s.pos posid = some p) :
    prunebranch_loop (f + 1) s posid bp =
      (if p.next ≠ [] then (s, false, false)
       else
         match p.prev with
         | none => (s, true, false)
         | some pr =>
             let s1 := (dropmoveto s pr posid).1
             let s2 := droppositionstruct s1 posid
             let s3 := { s2 with changeflag := true }
             let r := prunebranch_loop f s3 pr bp
             (r.1, r.2.1, true)) := by
  conv_lhs => unfold prunebranch_loop
  rw [if_neg hne, hp]

/-!
## Frame lemmas

`modifypos` touches a single arena slot and nothing else; the fuelled
walks `solwalk`, `solmerge`, `recalcsolutionsize` and
`adjustmovecount` touch only the solution-accounting fields (and, for
the last, `movecount` and `better`).
-/

theorem pos_modifypos_ne (s : redo_session) (i : Nat)
    (f : redo_position → redo_position) (j : Nat) (h : j ≠ i) :
    (modifypos s i f).pos j = s.pos j := by
  unfold modifypos
  cases hi : s.positions[i]? with
  | none => rfl
  | some p =>
      simp only [redo_session.pos]
      exact List.getElem?_set_ne (Ne.symm h)

theorem pos_modifypos_self (s : redo_session) (i : Nat)
    (f : redo_position → redo_position) (p : redo_position)
    (h : s.pos i = some p) :
    (modifypos s i f).pos i = some (f p) := by
  unfold modifypos
  simp only [redo_session.pos] at h
  rw [h]
  simp only [redo_session.pos]
  rw [List.getElem?_set_self']
  rw [h]
  rfl

theorem modifypos_root (s : redo_session) (i : Nat)
    (f : redo_position → redo_position) :
    (modifypos s i f).root = s.root := by
  unfold modifypos; cases s.positions[i]? <;> rfl

theorem modifypos_positioncount (s : redo_session) (i : Nat)
    (f : redo_position → redo_position) :
    (modifypos s i f).positioncount = s.positioncount := by
  unfold modifypos; cases s.positions[i]? <;> rfl

theorem modifypos_freelist (s : redo_session) (i : Nat)
    (f : redo_position → redo_position) :
    (modifypos s i f).freelist = s.freelist := by
  unfold modifypos; cases s.positions[i]? <;> rfl

theorem modifypos_grafting (s : redo_session) (i : Nat)
    (f : redo_position → redo_position) :
    (modifypos s i f).grafting = s.grafting := by
  unfold modifypos; cases s.positions[i]? <;> rfl

theorem modifypos_changeflag (s : redo_session) (i : Nat)
    (f : redo_position → redo_position) :
    (modifypos s i f).changeflag = s.changeflag := by
  unfold modifypos; cases s.positions[i]? <;> rfl

theorem modifypos_length (s : redo_session) (i : Nat)
    (f : redo_position → redo_position) :
    (modifypos s i f).positions.length = s.positions.length := by
  unfold modifypos; cases s.positions[i]? <;> simp

/-- The session fields never touched by the solution walks and the
subtree adjustment: everything except `positions`. -/
def sessSkel (s : redo_session) :
    Nat × Nat × List Nat × Nat × Bool × List Nat × Nat :=
  (s.root, s.positioncount, s.freelist, s.grafting, s.changeflag,
   s.hashtable, s.positions.length)

theorem modifypos_sessSkel (s : redo_session) (i : Nat)
    (f : redo_position → redo_position) :
    sessSkel (modifypos s i f) = sessSkel s := by
  unfold modifypos sessSkel
  cases s.positions[i]? <;> simp

/-- Sessions are preserved along a fold whenever each step preserves
the relation. -/
theorem foldl_rel {α : Type} (R : redo_session → redo_session → Prop)
    (htrans : ∀ a b c, R a b → R b c → R a c)
    (step : redo_session → α → redo_session)
    (l : List α) (s : redo_session)
    (hrefl : ∀ s, R s s)
    (hstep : ∀ s x, x ∈ l → R s (step s x)) :
    R s (List.foldl step s l) := by
  induction l generalizing s with
  | nil => exact hrefl s
  | cons x xs ih =>
      exact htrans _ _ _ (hstep s x (by simp))
        (ih (step s x) (fun t y hy => hstep t y (by simp [hy])))

/-- The per-position fields never touched by `solwalk`, `solmerge` and
`recalcsolutionsize`. -/
def solskel (p : redo_position) :
    Option Nat × List redo_branch × Bool × Nat × Bool × Bool × Nat ×
      List Nat × Nat × Option Nat :=
  (p.prev, p.next, p.inuse, p.nextcount, p.endpoint, p.setbetter,
   p.hashvalue, p.state, p.movecount, p.better)

/-- A session transformation that can only rewrite `solutionsize`
fields. -/
def SolOnly (s s' : redo_session) : Prop :=
  sessSkel s' = sessSkel s ∧
  ∀ j, (s'.pos j).map solskel = (s.pos j).map solskel

theorem SolOnly.refl (s : redo_session) : SolOnly s s :=
  ⟨rfl, fun _ => rfl⟩

theorem SolOnly.trans {a b c : redo_session} (h1 : SolOnly a b)
    (h2 : SolOnly b c) : SolOnly a c :=
  ⟨h1.1 ▸ h2.1, fun j => (h2.2 j).trans (h1.2 j)⟩

theorem SolOnly.modify (s : redo_session) (i : Nat)
    (f : redo_position → redo_position)
    (hf : ∀ p, solskel (f p) = solskel p) :
    SolOnly s (modifypos s i f) := by
  refine ⟨modifypos_sessSkel s i f, fun j => ?_⟩
  by_cases hj : j = i
  · subst hj
    cases hp : s.pos j with
    | none =>
        have : modifypos s j f = s := by
          unfold modifypos
          simp only [redo_session.pos] at hp
          rw [hp]
        rw [this, hp]
    | some p => rw [pos_modifypos_self s j f p hp]; simp [hf]
  · rw [pos_modifypos_ne s i f j hj]

theorem solwalk_SolOnly (f : Nat) (s : redo_session) (o : Option Nat)
    (size : Nat) : SolOnly s (solwalk f s o size) := by
  induction f generalizing s o with
  | zero => cases o <;> exact SolOnly.refl s
  | succ f ih =>
      cases o with
      | none => rw [solwalk_none]; exact SolOnly.refl s
      | some j =>
          cases hp : s.pos j with
          | none => rw [solwalk_dead f s j size hp]; exact SolOnly.refl s
          | some p =>
              rw [solwalk_some f s j size p hp]
              by_cases hc : p.solutionsize ≠ 0 ∧ p.solutionsize ≤ size
              · rw [if_pos hc]; exact SolOnly.refl s
              · rw [if_neg hc]
                exact (SolOnly.modify s j
                  (fun q => { q with solutionsize := size })
                  (fun q => rfl)).trans (ih _ _)

theorem solmerge_SolOnly (f : Nat) (s : redo_session) (o : Option Nat)
    (n : Nat) : SolOnly s (solmerge f s o n) := by
  induction f generalizing s o with
  | zero => cases o <;> exact SolOnly.refl s
  | succ f ih =>
      cases o with
      | none => rw [solmerge_none]; exact SolOnly.refl s
      | some j =>
          cases hp : s.pos j with
          | none => rw [solmerge_dead f s j n hp]; exact SolOnly.refl s
          | some p =>
              rw [solmerge_some f s j n p hp]
              refine SolOnly.trans ?_ (ih _ _)
              by_cases hc : p.solutionsize = 0 ∨ p.solutionsize > n
              · rw [if_pos hc]
                exact SolOnly.modify s j
                  (fun q => { q with solutionsize := n }) (fun q => rfl)
              · rw [if_neg hc]; exact SolOnly.refl s

theorem recalcsolutionsize_SolOnly (f : Nat) (s : redo_session)
    (o : Option Nat) : SolOnly s (recalcsolutionsize f s o) := by
  induction f generalizing s o with
  | zero => cases o <;> exact SolOnly.refl s
  | succ f ih =>
      cases o with
      | none => rw [recalcsolutionsize_none]; exact SolOnly.refl s
      | some j =>
          cases hp : s.pos j with
          | none =>
              rw [recalcsolutionsize_dead f s j hp]; exact SolOnly.refl s
          | some p =>
              rw [recalcsolutionsize_some f s j p hp]
              exact (SolOnly.modify s j
                (fun q => { q with solutionsize := branchsolmin s p.next })
                (fun q => rfl)).trans (ih _ _)

theorem adjustmovecount_sessSkel (f : Nat) (s : redo_session)
    (i delta : Nat) :
    sessSkel (adjustmovecount f s i delta) = sessSkel s := by
  induction f generalizing s i with
  | zero => rfl
  | succ f ih =>
      cases hp : s.pos i with
      | none => rw [adjustmovecount_dead f s i delta hp]
      | some p =>
          rw [adjustmovecount_some f s i delta p hp]
          have h2 : ∀ s' : redo_session,
              sessSkel (p.next.foldl
                (fun acc br => adjustmovecount f acc br.p delta) s') =
              sessSkel s' := fun s' =>
            foldl_rel (fun a b => sessSkel b = sessSkel a)
              (fun a b c hab hbc => hbc.trans hab)
              (fun acc br => adjustmovecount f acc br.p delta) p.next s'
              (fun _ => rfl) (fun u x _ => ih u x.p)
          rw [h2]
          split
          · exact modifypos_sessSkel s i _
          · split
            · exact modifypos_sessSkel s i _
            · split
              · rw [modifypos_sessSkel, modifypos_sessSkel,
                  modifypos_sessSkel]
              · exact modifypos_sessSkel s i _

set_option maxHeartbeats 1000000 in
/-- The (prev, movecount, inuse) projection of a slot whose movecount
is zero survives `adjustmovecount`: the walk only rewrites movecount
(by a truncated subtraction, which fixes zero), solutionsize and
better fields. -/
theorem adjustmovecount_keeps_zero (f : Nat) (s : redo_session)
    (i delta j : Nat) (pr : Option Nat) (iu : Bool)
    (h : (s.pos j).map (fun p => (p.prev, p.movecount, p.inuse)) =
         some (pr, 0, iu)) :
    ((adjustmovecount f s i delta).pos j).map
        (fun p => (p.prev, p.movecount, p.inuse)) = some (pr, 0, iu) := by
  induction f generalizing s i with
  | zero => exact h
  | succ f ih =>
      cases hp : s.pos i with
      | none => rw [adjustmovecount_dead f s i delta hp]; exact h
      | some p =>
          rw [adjustmovecount_some f s i delta p hp]
          have hmod : ∀ (t : redo_session) (k : Nat)
              (g : redo_position → redo_position),
              (∀ q, (g q).prev = q.prev ∧ (g q).inuse = q.inuse ∧
                (q.movecount = 0 → (g q).movecount = 0)) →
              (t.pos j).map (fun p => (p.prev, p.movecount, p.inuse)) =
                some (pr, 0, iu) →
              ((modifypos t k g).pos j).map
                (fun p => (p.prev, p.movecount, p.inuse)) =
                some (pr, 0, iu) := by
            intro t k g hg ht
            by_cases hj : j = k
            · subst hj
              cases htj : t.pos j with
              | none => rw [htj] at ht; simp at ht
              | some q =>
                  rw [pos_modifypos_self t j g q htj]
                  rw [htj] at ht
                  simp only [Option.map_some', Option.some.injEq,
                    Prod.mk.injEq] at ht ⊢
                  obtain ⟨h1, h2, h3⟩ := ht
                  exact ⟨(hg q).1.trans h1, (hg q).2.2 h2,
                    (hg q).2.1.trans h3⟩
            · rw [pos_modifypos_ne t k g j hj]; exact ht
          have hs1 : ((modifypos s i (fun q =>
              { q with movecount := q.movecount - delta,
                       solutionsize := if q.solutionsize = 0 then 0
                                       else q.solutionsize - delta })).pos
                j).map (fun p => (p.prev, p.movecount, p.inuse)) =
              some (pr, 0, iu) :=
            hmod s i _ (fun q => ⟨rfl, rfl, fun h0 => by simp [h0]⟩) h
          have h2 : ∀ (t : redo_session),
              (t.pos j).map (fun r => (r.prev, r.movecount, r.inuse)) =
                some (pr, 0, iu) →
              (((match p.better with
                | none => t
                | some b =>
                    match t.pos b with
                    | none => t
                    | some pb =>
                        if pb.movecount > p.movecount - delta then
                          modifypos (modifypos t b
                              (fun q => { q with better := some i })) i
                            (fun q => { q with better := none })
                        else t : redo_session)).pos j).map
                  (fun r => (r.prev, r.movecount, r.inuse)) =
                some (pr, 0, iu) := by
            intro t ht
            split
            · exact ht
            · split
              · exact ht
              · split
                · exact hmod _ i _ (fun q => ⟨rfl, rfl, fun h0 => h0⟩)
                    (hmod _ _ _ (fun q => ⟨rfl, rfl, fun h0 => h0⟩) ht)
                · exact ht
          exact foldl_rel (fun a b =>
              (a.pos j).map (fun p => (p.prev, p.movecount, p.inuse)) =
                some (pr, 0, iu) →
              (b.pos j).map (fun p => (p.prev, p.movecount, p.inuse)) =
                some (pr, 0, iu))
            (fun a b c hab hbc hx => hbc (hab hx))
            (fun acc br => adjustmovecount f acc br.p delta) p.next _
            (fun _ hx => hx) (fun u x _ hx => ih u x.p hx) (h2 _ hs1)

theorem graftbranch_sessSkel (s : redo_session) (dest src : Nat) :
    sessSkel (graftbranch s dest src) = sessSkel s := by
  have hfold : ∀ (l : List redo_branch) (t : redo_session),
      sessSkel (l.foldl (fun acc br =>
        modifypos acc br.p (fun q => { q with prev := some dest })) t) =
      sessSkel t := fun l t =>
    foldl_rel (fun a b => sessSkel b = sessSkel a)
      (fun a b c hab hbc => hbc.trans hab) _ l t (fun _ => rfl)
      (fun u x _ => modifypos_sessSkel u x.p _)
  unfold graftbranch
  split
  · dsimp only
    split
    · split
      · rw [(solmerge_SolOnly _ _ _ _).1, adjustmovecount_sessSkel,
          modifypos_sessSkel, hfold, modifypos_sessSkel, modifypos_sessSkel]
      · rw [adjustmovecount_sessSkel, modifypos_sessSkel, hfold,
          modifypos_sessSkel, modifypos_sessSkel]
    · rw [adjustmovecount_sessSkel, modifypos_sessSkel, hfold,
        modifypos_sessSkel, modifypos_sessSkel]
  · rfl

theorem followbetter_live (f : Nat) (s : redo_session)
    (hbet : ∀ j q, s.pos j = some q → q.inuse = true →
      ∀ bb, q.better = some bb →
        ∃ q', s.pos bb = some q' ∧ q'.inuse = true)
    (i : Nat) (q : redo_position) (hi : s.pos i = some q)
    (hq : q.inuse = true) :
    ∃ q', s.pos (followbetter f s i) = some q' ∧ q'.inuse = true := by
  induction f generalizing i q with
  | zero => exact ⟨q, hi, hq⟩
  | succ f ih =>
      rw [followbetter_some f s i q hi]
      cases hb : q.better with
      | none => exact ⟨q, hi, hq⟩
      | some b =>
          obtain ⟨q', hb', hq'⟩ := hbet i q hi hq b hb
          exact ih b q' hb' hq'

theorem checkforequiv_live (s : redo_session) (st : List Nat)
    (hbet : ∀ j q, s.pos j = some q → q.inuse = true →
      ∀ bb, q.better = some bb →
        ∃ q', s.pos bb = some q' ∧ q'.inuse = true)
    (e : Nat) (he : checkforequiv s st = some e) :
    ∃ q', s.pos e = some q' ∧ q'.inuse = true := by
  unfold checkforequiv at he
  by_cases hnit : notintable s (gethashvalue (st.take s.cmpsize)) = true
  · rw [if_pos hnit] at he; exact absurd he (by simp)
  · rw [if_neg hnit] at he
    cases hfind : (List.range s.positions.length).find? (fun i =>
        match s.pos i with
        | some p =>
            p.inuse && ! p.setbetter &&
              p.hashvalue == gethashvalue (st.take s.cmpsize) &&
              comparestatedata s p st
        | none => false) with
    | none => rw [hfind] at he; exact absurd he (by simp)
    | some i =>
        rw [hfind] at he
        have hpred := List.find?_some hfind
        cases hp : s.pos i with
        | none => rw [hp] at hpred; simp at hpred
        | some p =>
            rw [hp] at hpred
            simp only [Bool.and_eq_true] at hpred
            have hiu : p.inuse = true := hpred.1.1.1
            have he' : e = followbetter (s.positions.length + 1) s i := by
              exact (Option.some.inj he).symm
            rw [he']
            exact followbetter_live _ s hbet i p hp hiu

theorem addposition_core_none (s : redo_session) (move : Int)
    (st : List Nat) (ep : Nat) (flag : Bool)
    (hfl : ∀ j ∈ s.freelist, j < s.positions.length) :
    (addposition_core s none move st ep flag).1.pos
        (addposition_core s none move st ep flag).2 = some
      { freshposition s st ep with setbetter := flag } ∧
    (addposition_core s none move st ep flag).1.positioncount =
      s.positioncount + 1 ∧
    (addposition_core s none move st ep flag).1.root = s.root ∧
    (addposition_core s none move st ep flag).1.grafting = s.grafting ∧
    (∀ j, j ≠ (addposition_core s none move st ep flag).2 →
      (addposition_core s none move st ep flag).1.pos j = s.pos j) ∧
    (s.pos (addposition_core s none move st ep flag).2 = none ∨
      (addposition_core s none move st ep flag).2 ∈ s.freelist) := by
  unfold addposition_core getpositionstruct
  cases hfl' : s.freelist with
  | nil =>
      dsimp only
      simp only [solwalk_none, ite_self]
      refine ⟨?_, ?_, ?_, ?_, ?_, ?_⟩
      · refine (pos_modifypos_self _ _ _ (freshposition s st ep)
          ?_).trans ?_
        · show (s.positions ++ [freshposition s st ep])[
            s.positions.length]? = some (freshposition s st ep)
          exact List.getElem?_concat_length _ _
        · simp [freshposition]
      · rw [modifypos_positioncount]; rfl
      · rw [modifypos_root]; rfl
      · rw [modifypos_grafting]; rfl
      · intro j hj
        rw [pos_modifypos_ne _ _ _ _ hj]
        show (s.positions ++ [freshposition s st ep])[j]? =
          s.positions[j]?
        rcases Nat.lt_or_ge j s.positions.length with hlt | hge
        · rw [List.getElem?_append]
          rw [if_pos hlt]
        · have h2 : (s.positions ++ [freshposition s st ep]).length ≤ j := by
            simp only [List.length_append, List.length_cons,
              List.length_nil]
            omega
          rw [List.getElem?_eq_none h2, List.getElem?_eq_none hge]
      · left
        exact List.getElem?_eq_none (le_refl _)
  | cons w rest =>
      have hw : w < s.positions.length := hfl w (by rw [hfl']; simp)
      dsimp only
      simp only [solwalk_none, ite_self]
      refine ⟨?_, ?_, ?_, ?_, ?_, ?_⟩
      · refine (pos_modifypos_self _ _ _ (freshposition s st ep)
          ?_).trans ?_
        · show (s.positions.set w (freshposition s st ep))[w]? =
            some (freshposition s st ep)
          rw [List.getElem?_set_self']
          rw [List.getElem?_eq_getElem hw]
          rfl
        · simp [freshposition]
      · rw [modifypos_positioncount]; rfl
      · rw [modifypos_root]; rfl
      · rw [modifypos_grafting]; rfl
      · intro j hj
        rw [pos_modifypos_ne _ _ _ _ hj]
        show (s.positions.set w (freshposition s st ep))[j]? =
          s.positions[j]?
        exact List.getElem?_set_ne (Ne.symm hj)
      · right
        exact List.mem_cons_self _ _

theorem sessSkel_root {a b : redo_session}
    (h : sessSkel a = sessSkel b) : a.root = b.root :=
  congrArg Prod.fst h

theorem sessSkel_positioncount {a b : redo_session}
    (h : sessSkel a = sessSkel b) : a.positioncount = b.positioncount :=
  congrArg (fun x => x.2.1) h

theorem sessSkel_grafting {a b : redo_session}
    (h : sessSkel a = sessSkel b) : a.grafting = b.grafting :=
  congrArg (fun x => x.2.2.2.1) h

theorem SolOnly_proj {a b : redo_session} (h : SolOnly a b) (j : Nat) :
    (b.pos j).map (fun p => (p.prev, p.movecount, p.inuse)) =
    (a.pos j).map (fun p => (p.prev, p.movecount, p.inuse)) := by
  have h2 := h.2 j
  cases ha : a.pos j with
  | none =>
      rw [ha] at h2
      cases hb : b.pos j with
      | none => rfl
      | some q => rw [hb] at h2; simp at h2
  | some p =>
      rw [ha] at h2
      cases hb : b.pos j with
      | none => rw [hb] at h2; simp at h2
      | some q =>
          rw [hb] at h2
          simp only [Option.map_some', Option.some.injEq] at h2 ⊢
          unfold solskel at h2
          have hprev : q.prev = p.prev :=
            congrArg (fun x => x.1) h2
          have hmc : q.movecount = p.movecount :=
            congrArg (fun x => x.2.2.2.2.2.2.2.2.1) h2
          have hiu : q.inuse = p.inuse :=
            congrArg (fun x => x.2.2.1) h2
          rw [hprev, hmc, hiu]

/-- Grafting onto a freshly allocated parentless position leaves that
position parentless with movecount zero: the movecount is first set to
the source's count and then lowered by exactly that delta, and every
later visit subtracts from zero. -/
theorem graftbranch_keeps_fresh (s : redo_session) (dest src : Nat)
    (hne : src ≠ dest) (rec sp : redo_position)
    (hdest : s.pos dest = some rec) (hmc : rec.movecount = 0)
    (hprev : rec.prev = none) (hiu : rec.inuse = true)
    (hbet : rec.better = none)
    (hsrc : s.pos src = some sp)
    (htargets : ∀ b ∈ sp.next, b.p ≠ dest) :
    ((graftbranch s dest src).pos dest).map
      (fun p => (p.prev, p.movecount, p.inuse)) = some (none, 0, true) := by
  unfold graftbranch
  rw [hdest, hsrc]
  dsimp only
  set g1 : redo_position → redo_position := fun q =>
    { q with next := sp.next, nextcount := sp.nextcount } with hg1
  have h1 : (modifypos s dest g1).pos dest = some (g1 rec) :=
    pos_modifypos_self s dest g1 rec hdest
  set s1 := modifypos s dest g1 with hs1
  have h2 : (modifypos s1 src (fun q =>
      { q with next := [], nextcount := 0 })).pos dest = some (g1 rec) := by
    rw [pos_modifypos_ne _ _ _ _ (Ne.symm hne)]; exact h1
  set s2 := modifypos s1 src (fun q =>
    { q with next := [], nextcount := 0 }) with hs2
  have h3 : (sp.next.foldl (fun acc br =>
      modifypos acc br.p (fun q => { q with prev := some dest }))
        s2).pos dest = some (g1 rec) := by
    refine foldl_rel (fun a b =>
        a.pos dest = some (g1 rec) → b.pos dest = some (g1 rec))
      (fun a b c hab hbc hx => hbc (hab hx)) _ sp.next s2
      (fun _ hx => hx) ?_ h2
    intro u x hx hpos
    rw [pos_modifypos_ne _ _ _ _ (fun hh => htargets x hx hh.symm)]
    exact hpos
  set s3 := sp.next.foldl (fun acc br =>
    modifypos acc br.p (fun q => { q with prev := some dest })) s2 with hs3
  set g4 : redo_position → redo_position := fun q =>
    { q with movecount := sp.movecount,
             solutionsize := sp.solutionsize } with hg4
  have h4 : (modifypos s3 dest g4).pos dest = some (g4 (g1 rec)) :=
    pos_modifypos_self s3 dest g4 (g1 rec) h3
  set s4 := modifypos s3 dest g4 with hs4
  have h5 : ((adjustmovecount (s4.positions.length + 1) s4 dest
      (sp.movecount - rec.movecount)).pos dest).map
      (fun p => (p.prev, p.movecount, p.inuse)) = some (none, 0, true) := by
    rw [adjustmovecount_some _ _ _ _ (g4 (g1 rec)) h4]
    dsimp only
    have hmovecount : (g4 (g1 rec)).movecount -
        (sp.movecount - rec.movecount) = 0 := by
      simp only [hg4, hg1, hmc]
      omega
    have hbet2 : (g4 (g1 rec)).better = none := hbet
    rw [hbet2]
    have hstep : ((modifypos s4 dest (fun q =>
        { q with movecount := q.movecount - (sp.movecount - rec.movecount),
                 solutionsize := if q.solutionsize = 0 then 0
                   else q.solutionsize - (sp.movecount - rec.movecount)
        })).pos dest).map
        (fun p => (p.prev, p.movecount, p.inuse)) = some (none, 0, true) := by
      rw [pos_modifypos_self _ _ _ _ h4]
      simp only [Option.map_some', Option.some.injEq]
      refine Prod.ext ?_ (Prod.ext ?_ ?_)
      · exact hprev
      · exact hmovecount
      · exact hiu
    refine foldl_rel (fun a b =>
        (a.pos dest).map (fun p => (p.prev, p.movecount, p.inuse)) =
          some (none, 0, true) →
        (b.pos dest).map (fun p => (p.prev, p.movecount, p.inuse)) =
          some (none, 0, true))
      (fun a b c hab hbc hx => hbc (hab hx)) _ (g4 (g1 rec)).next _
      (fun _ hx => hx)
      (fun u x _ hx => adjustmovecount_keeps_zero _ u x.p _ dest none
        true hx) hstep
  set s5 := adjustmovecount (s4.positions.length + 1) s4 dest
    (sp.movecount - rec.movecount) with hs5
  cases h6 : s5.pos dest with
  | none => rw [h6] at h5; simp at h5
  | some dp5 =>
      rw [h6] at h5
      dsimp only
      by_cases hsol : dp5.solutionsize ≠ 0
      · rw [if_pos hsol]
        rw [SolOnly_proj (solmerge_SolOnly _ _ _ _) dest, h6]
        exact h5
      · rw [if_neg hsol]
        rw [h6]
        exact h5

theorem pos_some_lt {s : redo_session} {j : Nat} {q : redo_position}
    (h : s.pos j = some q) : j < s.positions.length := by
  unfold redo_session.pos at h
  exact (List.getElem?_eq_some.mp h).1

theorem pos_setflag (X : redo_session) (j : Nat) :
    ({ X with changeflag := true } : redo_session).pos j = X.pos j := rfl

/-!
## Concrete claim scenarios

Sessions built through the public operations, with one-byte states
(`statesize = cmpsize = 1`).
-/

/-- Shorthand: the session after an add with checkequiv = redo_nocheck. -/
def addNC (s : redo_session) (pr : Option Nat) (m : Int) (st : List Nat)
    (e : Nat) : redo_session :=
  (redo_addposition s pr m st e redo_nocheck).1

/-- A fresh session over one-byte states whose root (slot 0) holds
state byte 0. -/
def base0 : redo_session :=
  (redo_beginsession [0] 1 0).getD (emptysession 1 1)

/-- The endpoint-preference scenario of the spec: one solution of
length 5 added with endpoint argument 3 (slots 1-5), another of
length 4 added with endpoint argument 2 (slots 6-9). -/
def c1sess : redo_session :=
  addNC (addNC (addNC (addNC
    (addNC (addNC (addNC (addNC (addNC base0
      (some 0) 1 [1] 0) (some 1) 2 [2] 0) (some 2) 3 [3] 0)
      (some 3) 4 [4] 0) (some 4) 5 [5] 3)
    (some 0) 11 [6] 0) (some 6) 12 [7] 0) (some 7) 13 [8] 0)
    (some 8) 14 [9] 2

/-- A linear chain of three positions below the root: slots 1, 2, 3
with states 1, 2, 3; the root keeps state 0. -/
def c7sess : redo_session :=
  addNC (addNC (addNC base0
    (some 0) 1 [1] 0) (some 1) 2 [2] 0) (some 2) 3 [3] 0

/-- The root record of the prune scenario session. -/
def c5root : redo_position :=
  (c7sess.pos 0).getD (freshposition base0 [0] 0)

/-- The leaf record (slot 3) of the prune scenario session. -/
def c5leaf : redo_position :=
  (c7sess.pos 3).getD (freshposition base0 [0] 0)

/-- The leaf's parent record (slot 2) of the prune scenario session. -/
def c5parent : redo_position :=
  (c7sess.pos 2).getD (freshposition base0 [0] 0)

/-- Slot 1 of the prune scenario session (graft destination in the
transplant witness). -/
def c4dest : redo_position :=
  (c7sess.pos 1).getD (freshposition base0 [0] 0)

/-- C1.  The claim reads the spec's endpoint-value selection rule: in
the two-solution scenario the root should get solutionend 3 and
solutionsize 5.  The code of src/redo.h stores `endpoint` as a single
bit and has no solutionend field at all; redo_addposition (lines
666-675) propagates the plain minimum path length.  Evaluating the
code at the failing input: the root's solutionsize is 4, not 5; the
endpoint argument 2 is truncated to a false endpoint bit, while the
endpoint argument 3 becomes a plain true bit. -/
theorem C1_endpoint_value_not_tracked :
    (c1sess.pos (redo_getfirstposition c1sess)).map
        redo_position.solutionsize = some 4 ∧
    ¬ (c1sess.pos (redo_getfirstposition c1sess)).map
        redo_position.solutionsize = some 5 ∧
    (c1sess.pos 5).map redo_position.endpoint = some true ∧
    (c1sess.pos 5).map redo_position.movecount = some 5 ∧
    (c1sess.pos 9).map redo_position.endpoint = some false ∧
    (c1sess.pos 9).map redo_position.movecount = some 4 := by
  decide

/-- C7 counterexample.  The claim expects the prune-limit-3 call on a
hop distance of 3 to free the three intermediate positions and shrink
the session by 3.  In the source (redo_suppresscycle line 739) pruning
requires the hop count to be strictly below the limit, so the call
returns the root and true but leaves the session — including its size
of 4 — completely unchanged. -/
theorem C7_prunelimit_3_does_not_prune :
    redo_suppresscycle c7sess 3 [0] 3 =
      (c7sess, redo_getfirstposition c7sess, true) ∧
    redo_getsessionsize c7sess = 4 := by
  decide

/-- C7 amended: with prune-limit 3 the current-position pointer is
reset to the root and true is returned, but the hop distance 3 is not
strictly below the limit, so nothing is freed and the session is
unchanged; with prune-limit 4 the same call frees all three
intermediate positions and the session size drops from 4 to 1. -/
theorem C7_prune_scenario :
    redo_suppresscycle c7sess 3 [0] 3 =
      (c7sess, redo_getfirstposition c7sess, true) ∧
    (redo_suppresscycle c7sess 3 [0] 4).2 =
      (redo_getfirstposition c7sess, true) ∧
    redo_getsessionsize (redo_suppresscycle c7sess 3 [0] 4).1 = 1 ∧
    ((redo_suppresscycle c7sess 3 [0] 4).1.pos 1).map
        redo_position.inuse = some false ∧
    ((redo_suppresscycle c7sess 3 [0] 4).1.pos 2).map
        redo_position.inuse = some false ∧
    ((redo_suppresscycle c7sess 3 [0] 4).1.pos 3).map
        redo_position.inuse = some false := by
  decide

/-- A session holding a two-move solution (root, slot 1, endpoint slot
2) whose grafting behaviour has been switched to redo_copypath. -/
def c10sess : redo_session :=
  (redo_setgraftbehavior
    (addNC (addNC base0 (some 0) 1 [1] 0) (some 1) 2 [2] 1)
    redo_copypath).1

/-- C10 counterexample.  Under the redo_copypath grafting policy an
add-position call with no parent that matches an existing position
with a solution duplicates that solution path under the new position:
the live position count grows by 2, not by 1 as the claim states.
The returned position does have prev absent and movecount 0, and the
root is unchanged. -/
theorem C10_copypath_adds_two :
    redo_getsessionsize c10sess = 3 ∧
    (redo_addposition c10sess none 0 [1] 0 redo_check).2 = 3 ∧
    ((redo_addposition c10sess none 0 [1] 0 redo_check).1.pos 3).map
      (fun p => (p.prev, p.movecount)) = some (none, 0) ∧
    redo_getsessionsize (redo_addposition c10sess none 0 [1] 0
      redo_check).1 = 5 ∧
    redo_getfirstposition (redo_addposition c10sess none 0 [1] 0
      redo_check).1 = redo_getfirstposition c10sess := by
  decide

set_option maxHeartbeats 2000000 in
/-- C10 amended: in a session whose grafting behaviour is redo_nograft
or redo_graft (the default), calling add-position with no parent
creates and returns a fresh position (one that was not live before)
whose prev is absent and whose movecount is 0; get-root still returns
the original root and the live position count increases by exactly
one.  (Under redo_copypath or redo_graftandcopy additional solution
path copies may be created.)  The hypotheses state that free-list
slots are dead and that live positions reference live branch targets
and live better targets. -/
theorem C10_parentless_add (s : redo_session) (move : Int)
    (st : List Nat) (ep mode : Nat)
    (hg : s.grafting = redo_nograft ∨ s.grafting = redo_graft)
    (hfl : ∀ j ∈ s.freelist, j < s.positions.length ∧
      ∀ q, s.pos j = some q → q.inuse = false)
    (hbr : ∀ j < s.positions.length, ∀ q, s.pos j = some q →
      q.inuse = true → ∀ b ∈ q.next,
        ∃ q', s.pos b.p = some q' ∧ q'.inuse = true)
    (hbet : ∀ j < s.positions.length, ∀ q, s.pos j = some q →
      q.inuse = true → ∀ bb, q.better = some bb →
        ∃ q', s.pos bb = some q' ∧ q'.inuse = true) :
    (redo_addposition s none move st ep mode).1.root = s.root ∧
    (redo_addposition s none move st ep mode).1.positioncount =
      s.positioncount + 1 ∧
    (∀ q, s.pos (redo_addposition s none move st ep mode).2 = some q →
      q.inuse = false) ∧
    ((redo_addposition s none move st ep mode).1.pos
        (redo_addposition s none move st ep mode).2).map
      (fun p => (p.prev, p.movecount, p.inuse)) = some (none, 0, true) := by
  have hbr' : ∀ j q, s.pos j = some q → q.inuse = true →
      ∀ b ∈ q.next, ∃ q', s.pos b.p = some q' ∧ q'.inuse = true :=
    fun j q h => hbr j (pos_some_lt h) q h
  have hbet' : ∀ j q, s.pos j = some q → q.inuse = true →
      ∀ bb, q.better = some bb →
        ∃ q', s.pos bb = some q' ∧ q'.inuse = true :=
    fun j q h => hbet j (pos_some_lt h) q h
  have hcore := addposition_core_none s move st ep
    (decide (mode = redo_checklater)) (fun j hj => (hfl j hj).1)
  obtain ⟨hrec, hcount, hroot, hgraft, hframe, hfresh⟩ := hcore
  have hfreshq : ∀ q,
      s.pos (addposition_core s none move st ep
        (decide (mode = redo_checklater))).2 = some q →
      q.inuse = false := by
    intro q hq
    rcases hfresh with hnone | hmem
    · rw [hnone] at hq; cases hq
    · exact (hfl _ hmem).2 q hq
  unfold redo_addposition
  dsimp only
  cases hequiv : (if mode = redo_check ∧ ep = 0 then
      checkforequiv s st else none) with
  | none =>
      dsimp only
      refine ⟨hroot, hcount, hfreshq, ?_⟩
      rw [pos_setflag, hrec]
      rfl
  | some e =>
      set i := (addposition_core s none move st ep
        (decide (mode = redo_checklater))).2 with hi
      set s1 := (addposition_core s none move st ep
        (decide (mode = redo_checklater))).1 with hs1
      have hcfe : checkforequiv s st = some e := by
        by_cases hmode : mode = redo_check ∧ ep = 0
        · rw [if_pos hmode] at hequiv; exact hequiv
        · rw [if_neg hmode] at hequiv; cases hequiv
      obtain ⟨qe, hqe, hqeiu⟩ := checkforequiv_live s st hbet' e hcfe
      have hei : e ≠ i := by
        intro hh
        rw [hh] at hqe
        have := hfreshq qe hqe
        rw [this] at hqeiu
        cases hqeiu
      have hframee : s1.pos e = some qe := by
        rw [hframe e hei]; exact hqe
      dsimp only
      rw [hrec, hframee]
      dsimp only
      have hrecmc : ({ freshposition s st ep with
          setbetter := decide (mode = redo_checklater) } :
            redo_position).movecount = 0 := rfl
      by_cases hge : ({ freshposition s st ep with
          setbetter := decide (mode = redo_checklater) } :
            redo_position).movecount ≥ qe.movecount
      · rw [if_pos hge]
        refine ⟨?_, ?_, hfreshq, ?_⟩
        · rw [modifypos_root]; exact hroot
        · rw [modifypos_positioncount]; exact hcount
        · rw [pos_setflag, pos_modifypos_self _ _ _ _ hrec]
          rfl
      · rw [if_neg hge]
        set gA : redo_position → redo_position := fun q =>
          { q with better := some i } with hgA
        have hgraftA : (modifypos s1 e gA).grafting = s.grafting := by
          rw [modifypos_grafting]; exact hgraft
        have hApos : (modifypos s1 e gA).pos i = some
            { freshposition s st ep with
              setbetter := decide (mode = redo_checklater) } := by
          rw [pos_modifypos_ne _ _ _ _ (Ne.symm hei)]; exact hrec
        have hAe : (modifypos s1 e gA).pos e = some (gA qe) :=
          pos_modifypos_self s1 e gA qe hframee
        have htargets : ∀ b ∈ (gA qe).next, b.p ≠ i := by
          intro b hb hbp
          obtain ⟨q', hq', hq'iu⟩ := hbr' e qe hqe hqeiu b hb
          rw [hbp] at hq'
          have := hfreshq q' hq'
          rw [this] at hq'iu
          cases hq'iu
        rcases hg with h0 | h1
        · rw [hgraftA, h0]
          rw [if_neg (by decide : ¬ redo_nograft = redo_copypath)]
          rw [if_neg (by simp : ¬ redo_nograft ≠ redo_nograft)]
          refine ⟨?_, ?_, hfreshq, ?_⟩
          · rw [modifypos_root]; exact hroot
          · rw [modifypos_positioncount]; exact hcount
          · rw [pos_setflag, hApos]; rfl
        · rw [hgraftA, h1]
          rw [if_neg (by decide : ¬ redo_graft = redo_copypath)]
          rw [if_pos (by decide : redo_graft ≠ redo_nograft)]
          have hgC : (recalcsolutionsize
              ((graftbranch (modifypos s1 e gA) i e).positions.length + 1)
              (graftbranch (modifypos s1 e gA) i e) (some e)).grafting =
              s.grafting := by
            rw [sessSkel_grafting (recalcsolutionsize_SolOnly _ _ _).1,
              sessSkel_grafting (graftbranch_sessSkel _ _ _), hgraftA]
          rw [hgC, h1]
          rw [if_neg (by decide : ¬ redo_graft = redo_graftandcopy)]
          have hskB := graftbranch_sessSkel (modifypos s1 e gA) i e
          have hskC := (recalcsolutionsize_SolOnly
            ((graftbranch (modifypos s1 e gA) i e).positions.length + 1)
            (graftbranch (modifypos s1 e gA) i e) (some e)).1
          refine ⟨?_, ?_, hfreshq, ?_⟩
          · rw [sessSkel_root hskC, sessSkel_root hskB, modifypos_root]
            exact hroot
          · rw [sessSkel_positioncount hskC, sessSkel_positioncount hskB,
              modifypos_positioncount]
            exact hcount
          · rw [pos_setflag]
            rw [SolOnly_proj (recalcsolutionsize_SolOnly _ _ _) i]
            exact graftbranch_keeps_fresh (modifypos s1 e gA) i e hei
              _ (gA qe) hApos rfl rfl rfl rfl hAe htargets

/-- Witness for C10: the amended statement instantiated on the
concrete chain session (default graft policy), with every hypothesis
discharged by computation. -/
theorem C10_parentless_add_witness :
    (c7sess.grafting = redo_nograft ∨ c7sess.grafting = redo_graft) ∧
    ((redo_addposition c7sess none 9 [7] 0 redo_check).1.root =
        c7sess.root ∧
      (redo_addposition c7sess none 9 [7] 0 redo_check).1.positioncount =
        c7sess.positioncount + 1 ∧
      (∀ q, c7sess.pos
          (redo_addposition c7sess none 9 [7] 0 redo_check).2 = some q →
        q.inuse = false) ∧
      ((redo_addposition c7sess none 9 [7] 0 redo_check).1.pos
          (redo_addposition c7sess none 9 [7] 0 redo_check).2).map
        (fun p => (p.prev, p.movecount, p.inuse)) =
          some (none, 0, true)) :=
  ⟨Or.inr (by decide),
   C10_parentless_add c7sess 9 [7] 0 redo_check (Or.inr (by decide))
     (by decide) (by decide) (by decide)⟩

theorem removebranchmove_cons (m : Int) (b0 : redo_branch)
    (rest : List redo_branch) :
    removebranchmove m (b0 :: rest) =
      if b0.move = m then rest else b0 :: removebranchmove m rest := rfl

theorem findbranch_cons (m : Int) (b0 : redo_branch)
    (rest : List redo_branch) :
    findbranch m (b0 :: rest) =
      if b0.move = m then some b0 else findbranch m rest := rfl

/-- When the position has a branch labelled with the move,
redo_getnextposition returns its target and the branch list becomes
that branch followed by the rest in order: the head stays in place,
and a deeper match is spliced out and prepended. -/
theorem getnext_found (s : redo_session) (pr : Nat) (p : redo_position)
    (m : Int) (b : redo_branch)
    (hp : s.pos pr = some p) (hf : findbranch m p.next = some b) :
    (redo_getnextposition s pr m).2 = some b.p ∧
    sessSkel (redo_getnextposition s pr m).1 = sessSkel s ∧
    (∀ j, j ≠ pr → (redo_getnextposition s pr m).1.pos j = s.pos j) ∧
    (redo_getnextposition s pr m).1.pos pr =
      some { p with next := b :: removebranchmove m p.next } := by
  unfold redo_getnextposition
  rw [hp]
  dsimp only
  cases hnext : p.next with
  | nil => rw [hnext] at hf; cases hf
  | cons b0 rest =>
      rw [hnext] at hf
      dsimp only
      unfold findbranch at hf
      by_cases hb0 : b0.move = m
      · rw [if_pos hb0] at hf
        have hb : b0 = b := Option.some.inj hf
        rw [if_pos hb0]
        subst hb
        refine ⟨rfl, rfl, fun j hj => rfl, ?_⟩
        rw [hp]
        rw [removebranchmove_cons, if_pos hb0, ← hnext]
      · rw [if_neg hb0] at hf
        rw [if_neg hb0]
        rw [hf]
        dsimp only
        refine ⟨rfl, modifypos_sessSkel _ _ _,
          fun j hj => pos_modifypos_ne _ _ _ _ hj, ?_⟩
        rw [pos_modifypos_self _ _ _ _ hp]
        rw [removebranchmove_cons, if_neg hb0]

/-- The root record of c1sess, used to witness C8. -/
def c8root : redo_position :=
  (c1sess.pos 0).getD (freshposition base0 [0] 0)

/-- C8: when the parent already has an outgoing branch labelled with
the move, add-position returns that branch's target, performs no
allocation, leaves the change flag, the position count, the arena
size and every position other than the parent unchanged, and the
parent changes only in the order of its branch list: the first branch
labelled with the move is promoted to the head. -/
theorem C8_readd_existing_move (s : redo_session) (pr : Nat)
    (p : redo_position) (m : Int) (st : List Nat) (ep mode : Nat)
    (b : redo_branch)
    (hp : s.pos pr = some p) (hf : findbranch m p.next = some b) :
    (redo_addposition s (some pr) m st ep mode).2 = b.p ∧
    (redo_addposition s (some pr) m st ep mode).1.positioncount =
      s.positioncount ∧
    (redo_addposition s (some pr) m st ep mode).1.changeflag =
      s.changeflag ∧
    (redo_addposition s (some pr) m st ep mode).1.positions.length =
      s.positions.length ∧
    (∀ j, j ≠ pr →
      (redo_addposition s (some pr) m st ep mode).1.pos j = s.pos j) ∧
    (redo_addposition s (some pr) m st ep mode).1.pos pr =
      some { p with next := b :: removebranchmove m p.next } := by
  obtain ⟨h1, h2, h3, h4⟩ := getnext_found s pr p m b hp hf
  unfold redo_addposition
  dsimp only
  rw [h1]
  dsimp only
  exact ⟨rfl, (congrArg (fun x => x.2.1) h2 :),
    congrArg (fun x => x.2.2.2.2.1) h2,
    congrArg (fun x => x.2.2.2.2.2.2) h2, h3, h4⟩

/-- Witness for C8: re-adding move 1 at the root of the two-solution
session returns the existing child in slot 1 and splices its branch to
the head of the root's branch list. -/
theorem C8_readd_existing_move_witness :
    c1sess.pos 0 = some c8root ∧
    findbranch 1 c8root.next = some { p := 1, move := 1 } ∧
    ((redo_addposition c1sess (some 0) 1 [9] 0 redo_check).2 =
        ({ p := 1, move := 1 } : redo_branch).p ∧
      (redo_addposition c1sess (some 0) 1 [9] 0
        redo_check).1.positioncount = c1sess.positioncount ∧
      (redo_addposition c1sess (some 0) 1 [9] 0 redo_check).1.changeflag =
        c1sess.changeflag ∧
      (redo_addposition c1sess (some 0) 1 [9] 0
        redo_check).1.positions.length = c1sess.positions.length ∧
      (∀ j, j ≠ 0 →
        (redo_addposition c1sess (some 0) 1 [9] 0 redo_check).1.pos j =
          c1sess.pos j) ∧
      (redo_addposition c1sess (some 0) 1 [9] 0 redo_check).1.pos 0 =
        some { c8root with next :=
          { p := 1, move := 1 } :: removebranchmove 1 c8root.next }) :=
  ⟨by decide, by decide,
   C8_readd_existing_move c1sess 0 c8root 1 [9] 0 redo_check
     { p := 1, move := 1 } (by decide) (by decide)⟩

/-!
## The ancestor chain walked by recalcsolutionsize
-/

/-- The slots recalcsolutionsize visits: the prev chain from the given
position, stopping at a missing parent or a dead slot, within fuel. -/
def prevchain : Nat → redo_session → Option Nat → List Nat
  | 0, _, _ => []
  | _, _, none => []
  | f + 1, s, some j =>
      match s.pos j with
      | none => []
      | some p => j :: prevchain f s p.prev

theorem prevchain_none (f : Nat) (s : redo_session) :
    prevchain f s none = [] := by
  cases f <;> rfl

theorem prevchain_some (f : Nat) (s : redo_session) (j : Nat)
    (p : redo_position) (hp : s.pos j = some p) :
    prevchain (f + 1) s (some j) = j :: prevchain f s p.prev := by
  conv_lhs => unfold prevchain
  rw [hp]

theorem prevchain_dead (f : Nat) (s : redo_session) (j : Nat)
    (hp : s.pos j = none) : prevchain (f + 1) s (some j) = [] := by
  conv_lhs => unfold prevchain
  rw [hp]

/-- prevchain only looks at the prev fields (and slot occupancy). -/
theorem prevchain_congr (f : Nat) (s s' : redo_session) (o : Option Nat)
    (h : ∀ j, (s'.pos j).map (fun p => p.prev) =
      (s.pos j).map (fun p => p.prev)) :
    prevchain f s' o = prevchain f s o := by
  induction f generalizing o with
  | zero => cases o <;> rfl
  | succ f ih =>
      cases o with
      | none => rw [prevchain_none, prevchain_none]
      | some j =>
          have hj := h j
          cases hp : s.pos j with
          | none =>
              rw [hp] at hj
              cases hp' : s'.pos j with
              | none => rw [prevchain_dead f s j hp, prevchain_dead f s' j hp']
              | some q => rw [hp'] at hj; simp at hj
          | some p =>
              rw [hp] at hj
              cases hp' : s'.pos j with
              | none => rw [hp'] at hj; simp at hj
              | some q =>
                  rw [hp'] at hj
                  simp only [Option.map_some', Option.some.injEq] at hj
                  rw [prevchain_some f s j p hp,
                    prevchain_some f s' j q hp', hj, ih]

/-- Branch targets of each chain member avoid the chain suffix from
that member on (in particular a member never points back at itself or
at a not-yet-recalculated ancestor). -/
def chainsafe (s : redo_session) : List Nat → Bool
  | [] => true
  | j :: rest =>
      (match s.pos j with
       | none => true
       | some q => q.next.all (fun b => ! (j :: rest).contains b.p)) &&
      chainsafe s rest

/-- branchsolmin only looks at the solutionsize of the targets. -/
theorem branchsolmin_congr (s1 s2 : redo_session)
    (l : List redo_branch)
    (h : ∀ b ∈ l, (s1.pos b.p).map (fun p => p.solutionsize) =
      (s2.pos b.p).map (fun p => p.solutionsize)) :
    branchsolmin s1 l = branchsolmin s2 l := by
  unfold branchsolmin
  suffices hgen : ∀ (acc : Nat),
      l.foldl (fun size br =>
        match s1.pos br.p with
        | some q =>
            if q.solutionsize ≠ 0 ∧ (size = 0 ∨ size > q.solutionsize)
            then q.solutionsize else size
        | none => size) acc =
      l.foldl (fun size br =>
        match s2.pos br.p with
        | some q =>
            if q.solutionsize ≠ 0 ∧ (size = 0 ∨ size > q.solutionsize)
            then q.solutionsize else size
        | none => size) acc by
    exact hgen 0
  induction l with
  | nil => intro acc; rfl
  | cons b bs ih =>
      intro acc
      have hb := h b (by simp)
      have hstep : (match s1.pos b.p with
          | some q =>
              if q.solutionsize ≠ 0 ∧ (acc = 0 ∨ acc > q.solutionsize)
              then q.solutionsize else acc
          | none => acc) =
          (match s2.pos b.p with
          | some q =>
              if q.solutionsize ≠ 0 ∧ (acc = 0 ∨ acc > q.solutionsize)
              then q.solutionsize else acc
          | none => acc) := by
        cases h1 : s1.pos b.p with
        | none =>
            rw [h1] at hb
            cases h2 : s2.pos b.p with
            | none => rfl
            | some q2 => rw [h2] at hb; simp at hb
        | some q1 =>
            rw [h1] at hb
            cases h2 : s2.pos b.p with
            | none => rw [h2] at hb; simp at hb
            | some q2 =>
                rw [h2] at hb
                simp only [Option.map_some', Option.some.injEq] at hb
                dsimp only
                rw [hb]
      simp only [List.foldl_cons]
      rw [hstep]
      exact ih (fun b hbmem => h b (by simp [hbmem])) _

theorem prevchain_zero (s : redo_session) (o : Option Nat) :
    prevchain 0 s o = [] := by
  cases o <;> rfl

theorem recalcsolutionsize_zero (s : redo_session) (o : Option Nat) :
    recalcsolutionsize 0 s o = s := by
  cases o <;> rfl

/-- chainsafe only looks at the next fields (and slot occupancy). -/
theorem chainsafe_congr (s s' : redo_session) (L : List Nat)
    (h : ∀ j, (s'.pos j).map (fun p => p.next) =
      (s.pos j).map (fun p => p.next)) :
    chainsafe s' L = chainsafe s L := by
  induction L with
  | nil => rfl
  | cons j rest ih =>
      unfold chainsafe
      rw [ih]
      have hj := h j
      cases hp : s.pos j with
      | none =>
          rw [hp] at hj
          cases hp' : s'.pos j with
          | none => rfl
          | some q => rw [hp'] at hj; simp at hj
      | some p =>
          rw [hp] at hj
          cases hp' : s'.pos j with
          | none => rw [hp'] at hj; simp at hj
          | some q =>
              rw [hp'] at hj
              simp only [Option.map_some', Option.some.injEq] at hj
              dsimp only
              rw [hj]

/-- Slots off the ancestor chain are completely untouched by
recalcsolutionsize. -/
theorem recalc_offchain (f : Nat) (s : redo_session) (o : Option Nat)
    (j : Nat) (h : j ∉ prevchain f s o) :
    (recalcsolutionsize f s o).pos j = s.pos j := by
  induction f generalizing s o with
  | zero => rw [recalcsolutionsize_zero]
  | succ f ih =>
      cases o with
      | none => rw [recalcsolutionsize_none]
      | some jj =>
          cases hp : s.pos jj with
          | none => rw [recalcsolutionsize_dead f s jj hp]
          | some p =>
              rw [prevchain_some f s jj p hp] at h
              simp only [List.mem_cons, not_or] at h
              rw [recalcsolutionsize_some f s jj p hp]
              have hprevmap : ∀ k,
                  ((modifypos s jj (fun q =>
                    { q with solutionsize := branchsolmin s p.next })).pos
                      k).map (fun q => q.prev) =
                  (s.pos k).map (fun q => q.prev) := by
                intro k
                by_cases hk : k = jj
                · subst hk
                  rw [pos_modifypos_self s k _ p hp, hp]
                  rfl
                · rw [pos_modifypos_ne s jj _ k hk]
              have hchain :
                  prevchain f (modifypos s jj (fun q =>
                    { q with solutionsize := branchsolmin s p.next }))
                    p.prev = prevchain f s p.prev :=
                prevchain_congr f s _ p.prev hprevmap
              rw [ih _ _ (by rw [hchain]; exact h.2)]
              exact pos_modifypos_ne s jj _ j h.1

/-- Each chain member ends up with solutionsize equal to the minimum
non-zero solutionsize of its branch targets, evaluated in the final
session, provided the chain has no duplicates and no member points a
branch at itself or at an ancestor still awaiting recalculation. -/
theorem recalc_chain (f : Nat) (s : redo_session) (o : Option Nat)
    (hnd : (prevchain f s o).Nodup)
    (hcs : chainsafe s (prevchain f s o) = true) :
    ∀ j ∈ prevchain f s o, ∃ q,
      (recalcsolutionsize f s o).pos j = some q ∧
      q.solutionsize = branchsolmin (recalcsolutionsize f s o) q.next := by
  induction f generalizing s o with
  | zero => rw [prevchain_zero]; intro j hj; exact absurd hj (by simp)
  | succ f ih =>
      cases o with
      | none => rw [prevchain_none]; intro j hj; exact absurd hj (by simp)
      | some jj =>
          cases hp : s.pos jj with
          | none =>
              rw [prevchain_dead f s jj hp]
              intro j hj; exact absurd hj (by simp)
          | some p =>
              rw [prevchain_some f s jj p hp] at hnd hcs ⊢
              rw [recalcsolutionsize_some f s jj p hp]
              have hnd' := hnd
              rw [List.nodup_cons] at hnd'
              unfold chainsafe at hcs
              rw [hp] at hcs
              rw [Bool.and_eq_true] at hcs
              have hhead := hcs.1
              have htail := hcs.2
              have hprevmap : ∀ k,
                  ((modifypos s jj (fun q =>
                    { q with solutionsize := branchsolmin s p.next })).pos
                      k).map (fun q => q.prev) =
                  (s.pos k).map (fun q => q.prev) := by
                intro k
                by_cases hk : k = jj
                · subst hk
                  rw [pos_modifypos_self s k _ p hp, hp]
                  rfl
                · rw [pos_modifypos_ne s jj _ k hk]
              have hnextmap : ∀ k,
                  ((modifypos s jj (fun q =>
                    { q with solutionsize := branchsolmin s p.next })).pos
                      k).map (fun q => q.next) =
                  (s.pos k).map (fun q => q.next) := by
                intro k
                by_cases hk : k = jj
                · subst hk
                  rw [pos_modifypos_self s k _ p hp, hp]
                  rfl
                · rw [pos_modifypos_ne s jj _ k hk]
              have hchain :
                  prevchain f (modifypos s jj (fun q =>
                    { q with solutionsize := branchsolmin s p.next }))
                    p.prev = prevchain f s p.prev :=
                prevchain_congr f s _ p.prev hprevmap
              have hcs' : chainsafe (modifypos s jj (fun q =>
                  { q with solutionsize := branchsolmin s p.next }))
                  (prevchain f (modifypos s jj (fun q =>
                    { q with solutionsize := branchsolmin s p.next }))
                    p.prev) = true := by
                rw [hchain, chainsafe_congr s _ _ hnextmap]
                exact htail
              have hres := ih (modifypos s jj (fun q =>
                  { q with solutionsize := branchsolmin s p.next })) p.prev
                (by rw [hchain]; exact hnd'.2) hcs'
              rw [hchain] at hres
              intro j hj
              rcases List.mem_cons.mp hj with hjeq | hjtail
              · subst hjeq
                have hoff : (recalcsolutionsize f (modifypos s j (fun q =>
                    { q with solutionsize := branchsolmin s p.next }))
                    p.prev).pos j =
                    (modifypos s j (fun q =>
                      { q with solutionsize := branchsolmin s p.next })).pos
                      j :=
                  recalc_offchain f _ p.prev j (by rw [hchain]; exact hnd'.1)
                rw [hoff, pos_modifypos_self s j _ p hp]
                refine ⟨_, rfl, ?_⟩
                dsimp only
                refine branchsolmin_congr s _ p.next (fun b hb => ?_)
                have hbnot := List.all_eq_true.mp hhead b hb
                have hbmem : b.p ∉ j :: prevchain f s p.prev := by
                  simpa using hbnot
                rw [List.mem_cons, not_or] at hbmem
                rw [recalc_offchain f _ p.prev b.p
                  (by rw [hchain]; exact hbmem.2),
                  pos_modifypos_ne s j _ b.p hbmem.1]
              · exact hres j hjtail

/-!
## Characterization of redo_dropposition
-/

theorem dropmoveto_found (s : redo_session) (fr tid : Nat)
    (p : redo_position) (hp : s.pos fr = some p)
    (hany : p.next.any (fun b => b.p = tid) = true) :
    dropmoveto s fr tid =
      (modifypos s fr (fun q =>
        { q with next := removebranchto tid q.next,
                 nextcount := q.nextcount - 1 }), true) := by
  unfold dropmoveto
  rw [hp]
  dsimp only
  rw [if_pos hany]

theorem pos_mapped (s : redo_session)
    (g : redo_position → redo_position) (j : Nat) :
    ({ s with positions := s.positions.map g } : redo_session).pos j =
      (s.pos j).map g := by
  simp only [redo_session.pos]
  exact List.getElem?_map g s.positions j

theorem droppositionstruct_pos_ne (s : redo_session) (i j : Nat)
    (h : j ≠ i) : (droppositionstruct s i).pos j = s.pos j := by
  unfold droppositionstruct
  show (modifypos s i _).pos j = s.pos j
  exact pos_modifypos_ne s i _ j h

theorem droppositionstruct_pos_self (s : redo_session) (i : Nat)
    (q : redo_position) (hq : s.pos i = some q) :
    (droppositionstruct s i).pos i = some { q with inuse := false } := by
  unfold droppositionstruct
  show (modifypos s i _).pos i = _
  exact pos_modifypos_self s i _ q hq

theorem droppositionstruct_positioncount (s : redo_session) (i : Nat) :
    (droppositionstruct s i).positioncount = s.positioncount - 1 := rfl

theorem droppositionstruct_length (s : redo_session) (i : Nat) :
    (droppositionstruct s i).positions.length = s.positions.length := by
  unfold droppositionstruct
  show (modifypos s i _).positions.length = _
  exact modifypos_length s i _

theorem removebranchto_sub (tid : Nat) (l : List redo_branch)
    (b : redo_branch) (h : b ∈ removebranchto tid l) : b ∈ l := by
  induction l with
  | nil => exact absurd h (by simp [removebranchto])
  | cons c r ih =>
      unfold removebranchto at h
      by_cases hc : c.p = tid
      · rw [if_pos hc] at h
        exact List.mem_cons_of_mem c h
      · rw [if_neg hc] at h
        rcases List.mem_cons.mp h with h1 | h2
        · exact h1 ▸ List.mem_cons_self c r
        · exact List.mem_cons_of_mem c (ih h2)

/-- chainsafe survives shrinking the branch lists. -/
theorem chainsafe_of_sub (s s' : redo_session) (L : List Nat)
    (h : ∀ j q', s'.pos j = some q' → ∃ q, s.pos j = some q ∧
      ∀ b ∈ q'.next, b ∈ q.next)
    (hcs : chainsafe s L = true) : chainsafe s' L = true := by
  induction L with
  | nil => rfl
  | cons j rest ih =>
      unfold chainsafe at hcs ⊢
      rw [Bool.and_eq_true] at hcs ⊢
      refine ⟨?_, ih hcs.2⟩
      cases hp' : s'.pos j with
      | none => rfl
      | some q' =>
          obtain ⟨q, hq, hsub⟩ := h j q' hp'
          have hhead := hcs.1
          rw [hq] at hhead
          exact List.all_eq_true.mpr (fun b hb =>
            List.all_eq_true.mp hhead b (hsub b hb))

theorem solskel_eq_fields {q q' : redo_position}
    (h : solskel q' = solskel q) :
    q'.prev = q.prev ∧ q'.next = q.next ∧ q'.inuse = q.inuse ∧
    q'.nextcount = q.nextcount ∧ q'.endpoint = q.endpoint ∧
    q'.setbetter = q.setbetter ∧ q'.hashvalue = q.hashvalue ∧
    q'.state = q.state ∧ q'.movecount = q.movecount ∧
    q'.better = q.better := by
  unfold solskel at h
  simp only [Prod.mk.injEq] at h
  exact ⟨h.1, h.2.1, h.2.2.1, h.2.2.2.1, h.2.2.2.2.1, h.2.2.2.2.2.1,
    h.2.2.2.2.2.2.1, h.2.2.2.2.2.2.2.1, h.2.2.2.2.2.2.2.2.1,
    h.2.2.2.2.2.2.2.2.2⟩

theorem SolOnly_pos_some {a b : redo_session} (h : SolOnly a b) (j : Nat)
    (q : redo_position) (hq : a.pos j = some q) :
    ∃ q', b.pos j = some q' ∧ solskel q' = solskel q := by
  have h2 := h.2 j
  rw [hq] at h2
  cases hb : b.pos j with
  | none => rw [hb] at h2; simp at h2
  | some q' =>
      rw [hb] at h2
      simp only [Option.map_some', Option.some.injEq] at h2
      exact ⟨q', rfl, h2⟩

theorem recalchashtable_pos (s : redo_session) (j : Nat) :
    (recalchashtable s).pos j = s.pos j := rfl

/-- The overall shape of a successful drop: remove the parent's branch,
rewrite better pointers, free the record, recalculate solution sizes
along the parent's ancestor chain, rebuild the hash table, raise the
change flag. -/
theorem dropposition_eq (s : redo_session) (i pr : Nat)
    (p pp : redo_position)
    (hp : s.pos i = some p) (hprev : p.prev = some pr)
    (hnext : p.next = []) (hpr : s.pos pr = some pp)
    (hbr : pp.next.any (fun b => b.p = i) = true) :
    redo_dropposition s i =
      (let s1 := modifypos s pr (fun q =>
          { q with next := removebranchto i q.next,
                   nextcount := q.nextcount - 1 });
       let s2 := { s1 with positions := s1.positions.map (fun q =>
          if q.inuse && q.better = some i then { q with better := p.better }
          else q) };
       let s3 := droppositionstruct s2 i;
       let s4 := recalcsolutionsize (s3.positions.length + 1) s3 (some pr);
       ({ recalchashtable s4 with changeflag := true }, pr)) := by
  unfold redo_dropposition
  rw [hp]
  dsimp only
  rw [hprev]
  dsimp only
  rw [hnext]
  rw [if_neg (show ¬(([] : List redo_branch) ≠ []) by simp)]
  rw [dropmoveto_found s pr i pp hpr hbr]
  rfl

set_option maxHeartbeats 1000000 in
/-- C5: dropping the root or a position with outgoing branches is a
no-op returning the same position (session untouched, change flag not
raised); dropping a leaf with a parent removes the parent's branch to
it, rewrites every live better reference to the dropped position to
the dropped position's own better, frees the record, decrements the
live count, recalculates solutionsize along the parent's ancestor
chain (everything off that chain keeps its solutionsize), raises the
change flag and returns the parent. -/
theorem C5_dropposition :
    (∀ (s : redo_session) (i : Nat) (p : redo_position),
        s.pos i = some p → (p.prev = none ∨ p.next ≠ []) →
        redo_dropposition s i = (s, i)) ∧
    (∀ (s : redo_session) (i pr : Nat) (p pp : redo_position),
        s.pos i = some p → p.prev = some pr → p.next = [] →
        s.pos pr = some pp →
        pp.next.any (fun b => b.p = i) = true →
        (prevchain (s.positions.length + 1) s (some pr)).Nodup →
        chainsafe s (prevchain (s.positions.length + 1) s (some pr)) =
          true →
        (redo_dropposition s i).2 = pr ∧
        (redo_dropposition s i).1.changeflag = true ∧
        (redo_dropposition s i).1.positioncount = s.positioncount - 1 ∧
        (∃ q, (redo_dropposition s i).1.pos i = some q ∧
          q.inuse = false) ∧
        (∃ q, (redo_dropposition s i).1.pos pr = some q ∧
          q.next = removebranchto i pp.next ∧
          q.nextcount = pp.nextcount - 1) ∧
        (∀ j q, s.pos j = some q → q.inuse = true → j ≠ i →
          ∃ q', (redo_dropposition s i).1.pos j = some q' ∧
            q'.better =
              (if q.better = some i then p.better else q.better)) ∧
        (∀ j ∈ prevchain (s.positions.length + 1) s (some pr),
          ∃ q', (redo_dropposition s i).1.pos j = some q' ∧
            q'.solutionsize =
              branchsolmin (redo_dropposition s i).1 q'.next) ∧
        (∀ j q, s.pos j = some q → j ≠ i → j ≠ pr →
          j ∉ prevchain (s.positions.length + 1) s (some pr) →
          ∃ q', (redo_dropposition s i).1.pos j = some q' ∧
            q'.prev = q.prev ∧ q'.next = q.next ∧ q'.inuse = q.inuse ∧
            q'.movecount = q.movecount ∧
            q'.solutionsize = q.solutionsize ∧ q'.state = q.state)) := by
  constructor
  · intro s i p hp hor
    unfold redo_dropposition
    rw [hp]
    dsimp only
    rcases hor with hroot | hbranches
    · rw [hroot]
    · cases hprevcase : p.prev with
      | none => rfl
      | some pr =>
          dsimp only
          rw [if_pos hbranches]
  · intro s i pr p pp hp hprev hnext hpr hbr hnd hcs
    have hpri : pr ≠ i := by
      intro h
      rw [h, hp] at hpr
      injection hpr with hpe
      rw [← hpe, hnext] at hbr
      simp at hbr
    obtain ⟨s1, hs1⟩ : ∃ t, t = modifypos s pr (fun q =>
        { q with next := removebranchto i q.next,
                 nextcount := q.nextcount - 1 }) := ⟨_, rfl⟩
    obtain ⟨s2, hs2⟩ : ∃ t : redo_session, t = ({ s1 with
        positions := s1.positions.map (fun q =>
          if q.inuse && q.better = some i then
            { q with better := p.better } else q) } : redo_session) :=
      ⟨_, rfl⟩
    obtain ⟨s3, hs3⟩ : ∃ t, t = droppositionstruct s2 i := ⟨_, rfl⟩
    obtain ⟨s4, hs4⟩ : ∃ t, t = recalcsolutionsize
        (s3.positions.length + 1) s3 (some pr) := ⟨_, rfl⟩
    have hdrop' : redo_dropposition s i =
        ({ recalchashtable s4 with changeflag := true }, pr) := by
      rw [dropposition_eq s i pr p pp hp hprev hnext hpr hbr]
      dsimp only
      rw [← hs1, ← hs2, ← hs3, ← hs4]
    -- facts about the better-rewriting map
    have hGprev : ∀ r : redo_position,
        (if r.inuse && r.better = some i then { r with better := p.better }
         else r).prev = r.prev := by
      intro r; split <;> rfl
    have hGnext : ∀ r : redo_position,
        (if r.inuse && r.better = some i then { r with better := p.better }
         else r).next = r.next := by
      intro r; split <;> rfl
    have hGnextc : ∀ r : redo_position,
        (if r.inuse && r.better = some i then { r with better := p.better }
         else r).nextcount = r.nextcount := by
      intro r; split <;> rfl
    have hGinuse : ∀ r : redo_position,
        (if r.inuse && r.better = some i then { r with better := p.better }
         else r).inuse = r.inuse := by
      intro r; split <;> rfl
    have hGmc : ∀ r : redo_position,
        (if r.inuse && r.better = some i then { r with better := p.better }
         else r).movecount = r.movecount := by
      intro r; split <;> rfl
    have hGsol : ∀ r : redo_position,
        (if r.inuse && r.better = some i then { r with better := p.better }
         else r).solutionsize = r.solutionsize := by
      intro r; split <;> rfl
    have hGstate : ∀ r : redo_position,
        (if r.inuse && r.better = some i then { r with better := p.better }
         else r).state = r.state := by
      intro r; split <;> rfl
    have hGbetter : ∀ r : redo_position,
        (if r.inuse && r.better = some i then { r with better := p.better }
         else r).better =
        (if r.inuse && r.better = some i then p.better else r.better) := by
      intro r; split <;> rfl
    have hGp : (if p.inuse && p.better = some i then
        { p with better := p.better } else p) = p := by
      split <;> rfl
    have hGfwd : ∀ (o : Option redo_position) (r : redo_position),
        o = some r →
        ∃ q', o.map (fun q =>
            if q.inuse && q.better = some i then
              { q with better := p.better } else q) = some q' ∧
          q'.next = r.next ∧ q'.prev = r.prev ∧ q'.inuse = r.inuse ∧
          q'.movecount = r.movecount ∧
          q'.solutionsize = r.solutionsize ∧ q'.state = r.state ∧
          q'.nextcount = r.nextcount ∧
          q'.better = (if r.inuse && r.better = some i then p.better
            else r.better) := by
      intro o r h
      subst h
      exact ⟨_, by simp only [Option.map_some'], hGnext r, hGprev r,
        hGinuse r, hGmc r, hGsol r, hGstate r, hGnextc r, hGbetter r⟩
    have hGprevo : ∀ o : Option redo_position,
        (o.map (fun q =>
            if q.inuse && q.better = some i then
              { q with better := p.better } else q)).map
          (fun q => q.prev) = o.map (fun q => q.prev) := by
      intro o
      cases o with
      | none => rfl
      | some r =>
          simp only [Option.map_some']
          rw [hGprev]
    -- positions through the intermediate sessions
    have hS1pr : s1.pos pr = some { pp with
        next := removebranchto i pp.next,
        nextcount := pp.nextcount - 1 } := by
      rw [hs1]; exact pos_modifypos_self s pr _ pp hpr
    have hS1ne : ∀ j, j ≠ pr → s1.pos j = s.pos j := by
      intro j hj; rw [hs1]; exact pos_modifypos_ne s pr _ j hj
    have hS2pos : ∀ j, s2.pos j = (s1.pos j).map (fun q =>
        if q.inuse && q.better = some i then
          { q with better := p.better } else q) := by
      intro j; rw [hs2]; exact pos_mapped s1 _ j
    have hS3ne : ∀ j, j ≠ i → s3.pos j = s2.pos j := by
      intro j hj; rw [hs3]; exact droppositionstruct_pos_ne s2 i j hj
    have hs2i : s2.pos i = some p := by
      rw [hS2pos i, hS1ne i (Ne.symm hpri), hp]
      simp only [Option.map_some']
      rw [hGp]
    have hS3i : s3.pos i = some { p with inuse := false } := by
      rw [hs3]; exact droppositionstruct_pos_self s2 i p hs2i
    have hlen3 : s3.positions.length = s.positions.length := by
      rw [hs3, droppositionstruct_length, hs2]
      show (s1.positions.map _).length = _
      rw [List.length_map, hs1, modifypos_length]
    have hprevmap : ∀ k, (s3.pos k).map (fun q => q.prev) =
        (s.pos k).map (fun q => q.prev) := by
      intro k
      by_cases hki : k = i
      · subst hki
        rw [hS3i, hp]
        rfl
      · rw [hS3ne k hki, hS2pos k, hGprevo]
        by_cases hkpr : k = pr
        · subst hkpr
          rw [hS1pr, hpr]
          rfl
        · rw [hS1ne k hkpr]
    have hPC : prevchain (s3.positions.length + 1) s3 (some pr) =
        prevchain (s.positions.length + 1) s (some pr) := by
      rw [hlen3]
      exact prevchain_congr _ s s3 (some pr) hprevmap
    have hsub : ∀ j q', s3.pos j = some q' → ∃ q, s.pos j = some q ∧
        ∀ b ∈ q'.next, b ∈ q.next := by
      intro j q' hq'
      by_cases hji : j = i
      · subst hji
        rw [hS3i] at hq'
        injection hq' with hq'e
        refine ⟨p, hp, fun b hb => ?_⟩
        rw [← hq'e] at hb
        exact hb
      · rw [hS3ne j hji, hS2pos j] at hq'
        by_cases hjpr : j = pr
        · obtain ⟨q'', hq'', hfn, _⟩ := hGfwd (s1.pos pr) _ hS1pr
          rw [hjpr, hq''] at hq'
          injection hq' with hq'e
          refine ⟨pp, by rw [hjpr]; exact hpr, fun b hb => ?_⟩
          rw [← hq'e, hfn] at hb
          exact removebranchto_sub i pp.next b hb
        · rw [hS1ne j hjpr] at hq'
          cases hk : s.pos j with
          | none => rw [hk] at hq'; simp at hq'
          | some q =>
              rw [hk] at hq'
              obtain ⟨q'', hq'', hfn, _⟩ := hGfwd (some q) q rfl
              rw [hq''] at hq'
              injection hq' with hq'e
              refine ⟨q, rfl, fun b hb => ?_⟩
              rw [← hq'e, hfn] at hb
              exact hb
    have hND3 : (prevchain (s3.positions.length + 1) s3 (some pr)).Nodup :=
      by rw [hPC]; exact hnd
    have hCS3 : chainsafe s3
        (prevchain (s3.positions.length + 1) s3 (some pr)) = true := by
      rw [hPC]
      exact chainsafe_of_sub s s3 _ hsub hcs
    have hSol : SolOnly s3 s4 := by
      rw [hs4]; exact recalcsolutionsize_SolOnly _ _ _
    have hchainres := recalc_chain (s3.positions.length + 1) s3 (some pr)
      hND3 hCS3
    rw [← hs4, hPC] at hchainres
    have hfpos : ∀ j, ({ recalchashtable s4 with changeflag := true } :
        redo_session).pos j = s4.pos j := fun _ => rfl
    have hbfin : ∀ l, branchsolmin
        ({ recalchashtable s4 with changeflag := true } : redo_session) l =
        branchsolmin s4 l := by
      intro l
      exact branchsolmin_congr _ s4 l (fun b _ => by rw [hfpos])
    rw [hdrop']
    refine ⟨rfl, rfl, ?_, ?_, ?_, ?_, ?_, ?_⟩
    · show (recalchashtable s4).positioncount = s.positioncount - 1
      have h4 : (recalchashtable s4).positioncount = s4.positioncount := rfl
      rw [h4, sessSkel_positioncount hSol.1, hs3,
        droppositionstruct_positioncount]
      have h2 : s2.positioncount = s1.positioncount := by rw [hs2]
      rw [h2, hs1, modifypos_positioncount]
    · obtain ⟨q', hq', hsk⟩ := SolOnly_pos_some hSol i _ hS3i
      refine ⟨q', by rw [hfpos]; exact hq', ?_⟩
      rw [(solskel_eq_fields hsk).2.2.1]
    · obtain ⟨q'', hq'', hfn, _, _, _, _, _, hfnc, _⟩ :=
        hGfwd (s1.pos pr) _ hS1pr
      have hS3pr : s3.pos pr = some q'' := by
        rw [hS3ne pr hpri, hS2pos pr]
        exact hq''
      obtain ⟨q', hq', hsk⟩ := SolOnly_pos_some hSol pr q'' hS3pr
      have hf := solskel_eq_fields hsk
      refine ⟨q', by rw [hfpos]; exact hq', ?_, ?_⟩
      · rw [hf.2.1, hfn]
      · rw [hf.2.2.2.1, hfnc]
    · intro j q hq hqin hji
      by_cases hjpr : j = pr
      · have hpe : q = pp := by
          rw [hjpr, hpr] at hq
          injection hq with h
          exact h.symm
        obtain ⟨q'', hq'', _, _, _, _, _, _, _, hfb⟩ :=
          hGfwd (s1.pos pr) _ hS1pr
        have hS3j : s3.pos j = some q'' := by
          rw [hjpr, hS3ne pr hpri, hS2pos pr]
          exact hq''
        obtain ⟨q', hq', hsk⟩ := SolOnly_pos_some hSol j q'' hS3j
        refine ⟨q', by rw [hfpos]; exact hq', ?_⟩
        rw [(solskel_eq_fields hsk).2.2.2.2.2.2.2.2.2, hfb, hpe]
        have hppin : pp.inuse = true := by rw [← hpe]; exact hqin
        show (if pp.inuse && pp.better = some i then p.better
          else pp.better) = _
        rw [hppin]
        by_cases hb : pp.better = some i <;> simp [hb]
      · obtain ⟨q'', hq'', _, _, _, _, _, _, _, hfb⟩ :=
          hGfwd (some q) q rfl
        have hS3j : s3.pos j = some q'' := by
          rw [hS3ne j hji, hS2pos j, hS1ne j hjpr, hq]
          exact hq''
        obtain ⟨q', hq', hsk⟩ := SolOnly_pos_some hSol j q'' hS3j
        refine ⟨q', by rw [hfpos]; exact hq', ?_⟩
        rw [(solskel_eq_fields hsk).2.2.2.2.2.2.2.2.2, hfb, hqin]
        by_cases hb : q.better = some i <;> simp [hb]
    · intro j hj
      obtain ⟨q', hq', hbs⟩ := hchainres j hj
      refine ⟨q', by rw [hfpos]; exact hq', ?_⟩
      rw [hbfin, hbs]
    · intro j q hq hji hjpr hjchain
      have hS4j : s4.pos j = s3.pos j := by
        rw [hs4]
        exact recalc_offchain _ s3 (some pr) j (by rw [hPC]; exact hjchain)
      obtain ⟨q'', hq'', hfn, hfprev, hfinuse, hfmc, hfsol, hfstate, _, _⟩ :=
        hGfwd (some q) q rfl
      have hS3j : s3.pos j = some q'' := by
        rw [hS3ne j hji, hS2pos j, hS1ne j hjpr, hq]
        exact hq''
      refine ⟨q'', by rw [hfpos, hS4j, hS3j], hfprev, hfn, hfinuse,
        hfmc, hfsol, hfstate⟩
/-!
## Characterization of the ancestor scan of redo_suppresscycle
-/

theorem findcycle_zero (s : redo_session) (o : Option Nat) (n : Nat)
    (st : List Nat) : findcycle 0 s o n st = none := by
  cases o <;> rfl

theorem findcycle_dead (f : Nat) (s : redo_session) (i n : Nat)
    (st : List Nat) (hp : s.pos i = none) :
    findcycle (f + 1) s (some i) n st = none := by
  conv_lhs => unfold findcycle
  rw [hp]

/-- If no position on the ancestor chain matches the candidate state,
the scan finds nothing. -/
theorem findcycle_eq_none (f : Nat) (s : redo_session) (o : Option Nat)
    (st : List Nat) (n0 : Nat)
    (h : ∀ j ∈ prevchain f s o, ∀ p, s.pos j = some p →
      comparestatedata s p st = false) :
    findcycle f s o n0 st = none := by
  induction f generalizing o n0 with
  | zero => rw [findcycle_zero]
  | succ f ih =>
      cases o with
      | none => rw [findcycle_none]
      | some i =>
          cases hp : s.pos i with
          | none => rw [findcycle_dead f s i n0 st hp]
          | some p =>
              rw [findcycle_some f s i n0 st p hp]
              rw [prevchain_some f s i p hp] at h
              have hip := h i (by simp) p hp
              rw [hip, if_neg (by simp)]
              exact ih p.prev (n0 + 1) (fun j hj => h j (by simp [hj]))

/-- A successful scan returns the first ancestor (in hop order,
starting from the position itself) whose comparing bytes equal the
candidate state, together with its hop distance. -/
theorem findcycle_eq_some (f : Nat) (s : redo_session) (o : Option Nat)
    (st : List Nat) (n0 a m : Nat)
    (h : findcycle f s o n0 st = some (a, m)) :
    ∃ k, m = n0 + k ∧
      (prevchain f s o)[k]? = some a ∧
      (∃ p, s.pos a = some p ∧ comparestatedata s p st = true) ∧
      (∀ l, l < k → ∀ j, (prevchain f s o)[l]? = some j →
        ∀ p, s.pos j = some p → comparestatedata s p st = false) := by
  induction f generalizing o n0 with
  | zero => rw [findcycle_zero] at h; simp at h
  | succ f ih =>
      cases o with
      | none => rw [findcycle_none] at h; simp at h
      | some i =>
          cases hp : s.pos i with
          | none => rw [findcycle_dead f s i n0 st hp] at h; simp at h
          | some p =>
              rw [findcycle_some f s i n0 st p hp] at h
              rw [prevchain_some f s i p hp]
              by_cases hc : comparestatedata s p st = true
              · rw [if_pos hc] at h
                injection h with hpair
                injection hpair with ha hm
                refine ⟨0, by omega, ?_, ⟨p, ?_, hc⟩, ?_⟩
                · simp [← ha]
                · rw [← ha]; exact hp
                · intro l hl; omega
              · rw [if_neg hc] at h
                have hc' : comparestatedata s p st = false := by
                  revert hc; cases comparestatedata s p st <;> simp
                obtain ⟨k, hm, hget, hmatch, hprevs⟩ := ih p.prev (n0 + 1) h
                refine ⟨k + 1, by omega, ?_, hmatch, ?_⟩
                · simpa using hget
                · intro l hl j hj q hq
                  cases l with
                  | zero =>
                      simp at hj
                      rw [← hj] at hq
                      rw [hq] at hp
                      injection hp with hpe
                      rw [hpe]
                      exact hc'
                  | succ l =>
                      simp at hj
                      exact hprevs l (by omega) j (by simpa using hj) q hq

set_option maxHeartbeats 2000000 in
/-- Witness for C5: in the four-position chain session, dropping the
root is a no-op returning the root, while dropping the leaf (slot 3)
returns its parent (slot 2), raises the change flag and drops the live
count by one. -/
theorem C5_dropposition_witness :
    redo_dropposition c7sess 0 = (c7sess, 0) ∧
    (redo_dropposition c7sess 3).2 = 2 ∧
    (redo_dropposition c7sess 3).1.changeflag = true ∧
    (redo_dropposition c7sess 3).1.positioncount =
      c7sess.positioncount - 1 := by
  have hA := C5_dropposition.1 c7sess 0 c5root (by decide)
    (Or.inl (by decide))
  have hB := C5_dropposition.2 c7sess 3 2 c5leaf c5parent (by decide)
    (by decide) (by decide) (by decide) (by decide) (by decide) (by decide)
  exact ⟨hA, hB.1, hB.2.1, hB.2.2.1⟩

/-- C6: suppress-cycle scans the ancestors of the current position
(itself included).  If nothing on the chain matches the candidate
state it returns false with the session and position unchanged.  If
the scan finds a match, the match is the nearest matching ancestor (at
hop distance n, every strictly closer ancestor failing the
comparison); the caller's pointer is redirected to it and true is
returned; the session is left untouched unless n is strictly below
prunelimit, in which case the chain is pruned via prunebranch; the
deletion loop stops as soon as it reaches a position that still has an
outgoing branch, deleting nothing from there on. -/
theorem C6_suppresscycle :
    (∀ (s : redo_session) (posid : Nat) (st : List Nat) (pl : Int),
      (∀ j ∈ prevchain (s.positions.length + 1) s (some posid),
        ∀ p, s.pos j = some p → comparestatedata s p st = false) →
      redo_suppresscycle s posid st pl = (s, posid, false)) ∧
    (∀ (s : redo_session) (posid : Nat) (st : List Nat) (pl : Int)
        (a n : Nat),
      findcycle (s.positions.length + 1) s (some posid) 0 st =
        some (a, n) →
      ((prevchain (s.positions.length + 1) s (some posid))[n]? =
          some a ∧
        (∃ p, s.pos a = some p ∧ comparestatedata s p st = true) ∧
        (∀ l, l < n → ∀ j,
          (prevchain (s.positions.length + 1) s (some posid))[l]? =
            some j →
          ∀ p, s.pos j = some p → comparestatedata s p st = false)) ∧
      (redo_suppresscycle s posid st pl).2.1 = a ∧
      (redo_suppresscycle s posid st pl).2.2 = true ∧
      (¬((n : Int) < pl) → (redo_suppresscycle s posid st pl).1 = s) ∧
      (((n : Int) < pl) →
        (redo_suppresscycle s posid st pl).1 =
          (prunebranch s posid a).1)) ∧
    (∀ (s : redo_session) (f leaf bp : Nat) (p : redo_position),
      s.pos leaf = some p → leaf ≠ bp → p.next ≠ [] →
      prunebranch_loop (f + 1) s leaf bp = (s, false, false)) := by
  refine ⟨?_, ?_, ?_⟩
  · intro s posid st pl h
    unfold redo_suppresscycle
    rw [findcycle_eq_none _ s (some posid) st 0 h]
  · intro s posid st pl a n h
    obtain ⟨k, hm, hget, hmatch, hprevs⟩ :=
      findcycle_eq_some _ s (some posid) st 0 a n h
    have hk : k = n := by omega
    subst hk
    refine ⟨⟨hget, hmatch, hprevs⟩, ?_, ?_, ?_, ?_⟩
    · unfold redo_suppresscycle
      rw [h]
    · unfold redo_suppresscycle
      rw [h]
    · intro hnp
      unfold redo_suppresscycle
      rw [h]
      dsimp only
      rw [if_neg hnp]
    · intro hnp
      unfold redo_suppresscycle
      rw [h]
      dsimp only
      rw [if_pos hnp]
  · intro s f leaf bp p hp hne hbranch
    rw [prunebranch_loop_step f s leaf bp hne p hp]
    rw [if_pos hbranch]

set_option maxHeartbeats 2000000 in
/-- Witness for C6: in the four-position chain session, suppressing
with an unseen state changes nothing and reports false; suppressing
from the leaf with the root's state redirects to the root, reports
true, and with prunelimit 4 prunes via prunebranch; the deletion loop
refuses to delete a position that still has an outgoing branch. -/
theorem C6_suppresscycle_witness :
    redo_suppresscycle c7sess 3 [9] 5 = (c7sess, 3, false) ∧
    (redo_suppresscycle c7sess 3 [0] 4).2.1 = 0 ∧
    (redo_suppresscycle c7sess 3 [0] 4).2.2 = true ∧
    (redo_suppresscycle c7sess 3 [0] 4).1 = (prunebranch c7sess 3 0).1 ∧
    prunebranch_loop (c7sess.positions.length + 1) c7sess 2 0 =
      (c7sess, false, false) := by
  have h1 := C6_suppresscycle.1 c7sess 3 [9] 5 (by decide)
  have h2 := C6_suppresscycle.2.1 c7sess 3 [0] 4 0 3 (by decide)
  have h3 := C6_suppresscycle.2.2 c7sess c7sess.positions.length 2 0
    c5parent (by decide) (by decide) (by decide)
  exact ⟨h1, h2.2.1, h2.2.2.1, h2.2.2.2.2 (by decide), h3⟩

/-!
## Shadow trees for the graft transplant

A `ptree` mirrors the pointer structure of a subtree of the position
graph: `spans` checks that a tree's nodes line up with the arena's
branch lists, so that theorems about `adjustmovecount` can follow the
same recursion as the code.
-/

mutual
inductive ptree : Type where
  | node : Nat → ptreelist → ptree
inductive ptreelist : Type where
  | pnil : ptreelist
  | pcons : ptree → ptreelist → ptreelist
end

def ptree.root : ptree → Nat
  | .node j _ => j

mutual
def ptree.flat : ptree → List Nat
  | .node j ts => j :: ptreelist.flat ts
def ptreelist.flat : ptreelist → List Nat
  | .pnil => []
  | .pcons t ts => ptree.flat t ++ ptreelist.flat ts
end

mutual
def ptree.depth : ptree → Nat
  | .node _ ts => ptreelist.depth ts + 1
def ptreelist.depth : ptreelist → Nat
  | .pnil => 0
  | .pcons t ts => max (ptree.depth t) (ptreelist.depth ts)
end

mutual
/-- The tree records exactly the subtree hanging off its root: node j
is a live arena record and the subtrees pair off with its branches. -/
def spans (s : redo_session) : ptree → Bool
  | .node j ts =>
      match s.pos j with
      | none => false
      | some p => branchspans s p.next ts
/-- Each subtree is rooted at the target of the matching branch. -/
def branchspans (s : redo_session) : List redo_branch → ptreelist → Bool
  | [], .pnil => true
  | b :: bs, .pcons t ts =>
      (ptree.root t == b.p) && spans s t && branchspans s bs ts
  | [], .pcons _ _ => false
  | _ :: _, .pnil => false
end

/-- Every per-position field except `better` (the fields whose
preservation matters outside the subtree `adjustmovecount` walks). -/
def mbSkel (p : redo_position) :
    Option Nat × List redo_branch × Bool × Nat × Bool × Bool × Nat ×
      List Nat × Nat × Nat :=
  (p.prev, p.next, p.inuse, p.nextcount, p.endpoint, p.setbetter,
   p.hashvalue, p.state, p.movecount, p.solutionsize)

theorem mbSkel_eq_fields {q q' : redo_position}
    (h : mbSkel q' = mbSkel q) :
    q'.prev = q.prev ∧ q'.next = q.next ∧ q'.inuse = q.inuse ∧
    q'.nextcount = q.nextcount ∧ q'.endpoint = q.endpoint ∧
    q'.setbetter = q.setbetter ∧ q'.hashvalue = q.hashvalue ∧
    q'.state = q.state ∧ q'.movecount = q.movecount ∧
    q'.solutionsize = q.solutionsize := by
  unfold mbSkel at h
  simp only [Prod.mk.injEq] at h
  exact ⟨h.1, h.2.1, h.2.2.1, h.2.2.2.1, h.2.2.2.2.1, h.2.2.2.2.2.1,
    h.2.2.2.2.2.2.1, h.2.2.2.2.2.2.2.1, h.2.2.2.2.2.2.2.2.1,
    h.2.2.2.2.2.2.2.2.2⟩

theorem map_mbSkel_some {o : Option redo_position} {q0 : redo_position}
    (h : o.map mbSkel = some (mbSkel q0)) :
    ∃ q, o = some q ∧ mbSkel q = mbSkel q0 := by
  cases o with
  | none => simp at h
  | some q =>
      simp only [Option.map_some', Option.some.injEq] at h
      exact ⟨q, rfl, h⟩

theorem next_of_mbSkel {o o' : Option redo_position}
    (h : o'.map mbSkel = o.map mbSkel) :
    o'.map (fun p => p.next) = o.map (fun p => p.next) := by
  cases ho : o with
  | none =>
      rw [ho] at h
      cases ho' : o' with
      | none => rfl
      | some q => rw [ho'] at h; simp at h
  | some q =>
      rw [ho] at h
      cases ho' : o' with
      | none => rw [ho'] at h; simp at h
      | some q' =>
          rw [ho'] at h
          simp only [Option.map_some', Option.some.injEq] at h
          simp only [Option.map_some', Option.some.injEq]
          exact (mbSkel_eq_fields h).2.1

/-- Pointwise mbSkel preservation for a modification that only changes
the `better` field. -/
theorem mbSkel_modify (t : redo_session) (k : Nat)
    (g : redo_position → redo_position)
    (hg : ∀ q, mbSkel (g q) = mbSkel q) (m : Nat) :
    ((modifypos t k g).pos m).map mbSkel = (t.pos m).map mbSkel := by
  by_cases hm : m = k
  · subst hm
    cases ht : t.pos m with
    | none =>
        have : modifypos t m g = t := by
          unfold modifypos
          simp only [redo_session.pos] at ht
          rw [ht]
        rw [this, ht]
    | some q =>
        rw [pos_modifypos_self t m g q ht]
        simp only [Option.map_some']
        exact congrArg some (hg q)
  · rw [pos_modifypos_ne t k g m hm]

mutual
/-- spans only looks at the next fields of the tree's own members. -/
theorem spans_congr_on (s s' : redo_session) (t : ptree)
    (h : ∀ j ∈ ptree.flat t, (s'.pos j).map (fun p => p.next) =
      (s.pos j).map (fun p => p.next)) :
    spans s' t = spans s t := by
  cases t with
  | node j ts =>
      have hj := h j (by rw [ptree.flat]; simp)
      show (match s'.pos j with
            | none => false
            | some p => branchspans s' p.next ts) =
           (match s.pos j with
            | none => false
            | some p => branchspans s p.next ts)
      cases hp : s.pos j with
      | none =>
          rw [hp] at hj
          cases hp' : s'.pos j with
          | none => rfl
          | some q => rw [hp'] at hj; simp at hj
      | some p =>
          rw [hp] at hj
          cases hp' : s'.pos j with
          | none => rw [hp'] at hj; simp at hj
          | some q =>
              rw [hp'] at hj
              simp only [Option.map_some', Option.some.injEq] at hj
              dsimp only
              rw [hj]
              exact branchspans_congr_on s s' p.next ts
                (fun m hm => h m (by rw [ptree.flat]; simp [hm]))
theorem branchspans_congr_on (s s' : redo_session)
    (bs : List redo_branch) (ts : ptreelist)
    (h : ∀ j ∈ ptreelist.flat ts, (s'.pos j).map (fun p => p.next) =
      (s.pos j).map (fun p => p.next)) :
    branchspans s' bs ts = branchspans s bs ts := by
  cases ts with
  | pnil => cases bs <;> rfl
  | pcons t ts =>
      cases bs with
      | nil => rfl
      | cons b bs =>
          show ((ptree.root t == b.p) && spans s' t &&
              branchspans s' bs ts) =
            ((ptree.root t == b.p) && spans s t && branchspans s bs ts)
          rw [spans_congr_on s s' t (fun m hm => h m
              (by rw [ptreelist.flat]; simp [hm])),
            branchspans_congr_on s s' bs ts (fun m hm => h m
              (by rw [ptreelist.flat]; simp [hm]))]
end

mutual
/-- Every member of a spanned tree is a live arena slot. -/
theorem spans_flat_some (s : redo_session) (t : ptree)
    (h : spans s t = true) :
    ∀ j ∈ ptree.flat t, ∃ p, s.pos j = some p := by
  cases t with
  | node j ts =>
      intro m hm
      rw [ptree.flat] at hm
      have h' : (match s.pos j with
          | none => false
          | some p => branchspans s p.next ts) = true := h
      cases hp : s.pos j with
      | none => rw [hp] at h'; simp at h'
      | some p =>
          rw [hp] at h'
          rcases List.mem_cons.mp hm with hm1 | hm2
          · exact ⟨p, hm1 ▸ hp⟩
          · exact branchspans_flat_some s p.next ts h' m hm2
theorem branchspans_flat_some (s : redo_session) (bs : List redo_branch)
    (ts : ptreelist) (h : branchspans s bs ts = true) :
    ∀ j ∈ ptreelist.flat ts, ∃ p, s.pos j = some p := by
  cases ts with
  | pnil => intro m hm; rw [ptreelist.flat] at hm; simp at hm
  | pcons t ts =>
      cases bs with
      | nil => intro m hm; simp [branchspans] at h
      | cons b bs =>
          intro m hm
          rw [ptreelist.flat] at hm
          have h' : ((ptree.root t == b.p) && spans s t &&
              branchspans s bs ts) = true := h
          simp only [Bool.and_eq_true] at h'
          rcases List.mem_append.mp hm with hm1 | hm2
          · exact spans_flat_some s t h'.1.2 m hm1
          · exact branchspans_flat_some s bs ts h'.2 m hm2
end

/-- The branch targets of a spanned branch list are the roots of the
trees, hence members of the flattened tree list. -/
theorem branchspans_targets (s : redo_session) (bs : List redo_branch)
    (ts : ptreelist) (h : branchspans s bs ts = true) :
    ∀ b ∈ bs, b.p ∈ ptreelist.flat ts := by
  induction bs generalizing ts with
  | nil => intro b hb; simp at hb
  | cons b0 bs ih =>
      cases ts with
      | pnil => intro b hb; simp [branchspans] at h
      | pcons t ts =>
          have h' : ((ptree.root t == b0.p) && spans s t &&
              branchspans s bs ts) = true := h
          simp only [Bool.and_eq_true, beq_iff_eq] at h'
          intro b hb
          rw [ptreelist.flat]
          rcases List.mem_cons.mp hb with hb1 | hb2
          · subst hb1
            cases t with
            | node r ts2 =>
                have : r = b.p := h'.1.1
                rw [List.mem_append]
                left
                rw [ptree.flat, ← this]
                simp
          · exact List.mem_append.mpr (Or.inr (ih ts h'.2 b hb2))

/-- One unfolding of adjustmovecount: the node's movecount and
solutionsize are shifted (and possibly some better fields rewritten,
which mbSkel ignores), then the children are folded over. -/
theorem adjust_unfold (f : Nat) (s : redo_session) (i delta : Nat)
    (p : redo_position) (hp : s.pos i = some p) :
    ∃ s2, adjustmovecount (f + 1) s i delta =
        p.next.foldl (fun acc br => adjustmovecount f acc br.p delta) s2 ∧
      (∀ k, k ≠ i → (s2.pos k).map mbSkel = (s.pos k).map mbSkel) ∧
      (s2.pos i).map mbSkel = some (mbSkel
        { p with movecount := p.movecount - delta,
                 solutionsize := if p.solutionsize = 0 then 0
                                 else p.solutionsize - delta }) := by
  have hs1ne : ∀ k, k ≠ i →
      ((modifypos s i (fun q =>
        { q with movecount := q.movecount - delta,
                 solutionsize := if q.solutionsize = 0 then 0
                                 else q.solutionsize - delta })).pos k).map
        mbSkel = (s.pos k).map mbSkel := by
    intro k hk
    rw [pos_modifypos_ne s i _ k hk]
  have hs1i : ((modifypos s i (fun q =>
      { q with movecount := q.movecount - delta,
               solutionsize := if q.solutionsize = 0 then 0
                               else q.solutionsize - delta })).pos i).map
      mbSkel = some (mbSkel
        { p with movecount := p.movecount - delta,
                 solutionsize := if p.solutionsize = 0 then 0
                                 else p.solutionsize - delta }) := by
    rw [pos_modifypos_self s i _ p hp]
    rfl
  cases hob : p.better with
  | none =>
      refine ⟨modifypos s i (fun q =>
        { q with movecount := q.movecount - delta,
                 solutionsize := if q.solutionsize = 0 then 0
                                 else q.solutionsize - delta }),
        ?_, hs1ne, hs1i⟩
      rw [adjustmovecount_some f s i delta p hp]
      dsimp only
      rw [hob]
  | some b =>
      cases hpb : (modifypos s i (fun q =>
          { q with movecount := q.movecount - delta,
                   solutionsize := if q.solutionsize = 0 then 0
                                   else q.solutionsize - delta })).pos b with
      | none =>
          refine ⟨modifypos s i (fun q =>
            { q with movecount := q.movecount - delta,
                     solutionsize := if q.solutionsize = 0 then 0
                                     else q.solutionsize - delta }),
            ?_, hs1ne, hs1i⟩
          rw [adjustmovecount_some f s i delta p hp]
          dsimp only
          rw [hob]
          dsimp only
          rw [hpb]
      | some pb =>
          by_cases hgt : pb.movecount > p.movecount - delta
          · refine ⟨modifypos (modifypos (modifypos s i (fun q =>
                { q with movecount := q.movecount - delta,
                         solutionsize := if q.solutionsize = 0 then 0
                                         else q.solutionsize - delta })) b
                (fun q => { q with better := some i })) i
                (fun q => { q with better := none }), ?_, ?_, ?_⟩
            · rw [adjustmovecount_some f s i delta p hp]
              dsimp only
              rw [hob]
              dsimp only
              rw [hpb]
              dsimp only
              rw [if_pos hgt]
            · intro k hk
              rw [mbSkel_modify _ i (fun q => { q with better := none })
                  (fun q => rfl) k,
                mbSkel_modify _ b (fun q => { q with better := some i })
                  (fun q => rfl) k]
              exact hs1ne k hk
            · rw [mbSkel_modify _ i (fun q => { q with better := none })
                  (fun q => rfl) i,
                mbSkel_modify _ b (fun q => { q with better := some i })
                  (fun q => rfl) i]
              exact hs1i
          · refine ⟨modifypos s i (fun q =>
              { q with movecount := q.movecount - delta,
                       solutionsize := if q.solutionsize = 0 then 0
                                       else q.solutionsize - delta }),
              ?_, hs1ne, hs1i⟩
            rw [adjustmovecount_some f s i delta p hp]
            dsimp only
            rw [hob]
            dsimp only
            rw [hpb]
            dsimp only
            rw [if_neg hgt]

mutual
/-- adjustmovecount on a spanned duplicate-free subtree shifts every
member's movecount (and non-zero solutionsize) down by delta, keeps
all their other non-better fields, and leaves every slot outside the
subtree untouched except possibly for better fields. -/
theorem adjust_tree (f : Nat) (t : ptree) (s : redo_session)
    (delta : Nat) (hspan : spans s t = true)
    (hnd : (ptree.flat t).Nodup) (hdepth : ptree.depth t ≤ f + 1) :
    (∀ k, ((adjustmovecount (f + 1) s (ptree.root t) delta).pos k).map
        (fun q => q.next) = (s.pos k).map (fun q => q.next)) ∧
    (∀ k, k ∉ ptree.flat t →
      ((adjustmovecount (f + 1) s (ptree.root t) delta).pos k).map
        mbSkel = (s.pos k).map mbSkel) ∧
    (∀ m ∈ ptree.flat t, ∃ q0 q, s.pos m = some q0 ∧
      (adjustmovecount (f + 1) s (ptree.root t) delta).pos m = some q ∧
      q.movecount = q0.movecount - delta ∧
      q.solutionsize = (if q0.solutionsize = 0 then 0
        else q0.solutionsize - delta) ∧
      q.prev = q0.prev ∧ q.next = q0.next ∧ q.inuse = q0.inuse ∧
      q.nextcount = q0.nextcount ∧ q.state = q0.state) := by
  cases t with
  | node j ts =>
      simp only [ptree.root]
      have hsp : (match s.pos j with
          | none => false
          | some p => branchspans s p.next ts) = true := hspan
      cases hp : s.pos j with
      | none => rw [hp] at hsp; simp at hsp
      | some p =>
          rw [hp] at hsp
          have hbs : branchspans s p.next ts = true := hsp
          obtain ⟨s2, heq, hs2ne, hs2i⟩ := adjust_unfold f s j delta p hp
          rw [heq]
          rw [ptree.flat, List.nodup_cons] at hnd
          have hs2next : ∀ k, (s2.pos k).map (fun q => q.next) =
              (s.pos k).map (fun q => q.next) := by
            intro k
            by_cases hk : k = j
            · subst hk
              obtain ⟨q, hq, hmb⟩ := map_mbSkel_some hs2i
              rw [hq, hp]
              simp only [Option.map_some']
              exact congrArg some ((mbSkel_eq_fields hmb).2.1)
            · exact next_of_mbSkel (hs2ne k hk)
          have hbs2 : branchspans s2 p.next ts = true := by
            rw [branchspans_congr_on s s2 p.next ts
              (fun m _ => hs2next m)]
            exact hbs
          have hdts : ptreelist.depth ts ≤ f := by
            rw [ptree.depth] at hdepth; omega
          obtain ⟨hLnext, hLout, hLin⟩ :=
            adjust_list f ts p.next s2 delta hbs2 hnd.2 hdts
          refine ⟨?_, ?_, ?_⟩
          · intro k
            rw [hLnext k, hs2next k]
          · intro k hk
            rw [ptree.flat, List.mem_cons, not_or] at hk
            rw [hLout k hk.2, hs2ne k hk.1]
          · intro m hm
            rw [ptree.flat, List.mem_cons] at hm
            rcases hm with hmj | hmts
            · subst hmj
              have hout := hLout m hnd.1
              obtain ⟨q, hq, hmb⟩ :=
                map_mbSkel_some (hout.trans hs2i)
              have hf := mbSkel_eq_fields hmb
              refine ⟨p, q, hp, hq, hf.2.2.2.2.2.2.2.2.1,
                hf.2.2.2.2.2.2.2.2.2, hf.1, hf.2.1, hf.2.2.1,
                hf.2.2.2.1, hf.2.2.2.2.2.2.2.1⟩
            · obtain ⟨q0', q, hq0', hq, hfl⟩ := hLin m hmts
              have hmne : m ≠ j := fun hc => hnd.1 (hc ▸ hmts)
              have hmb := hs2ne m hmne
              rw [hq0'] at hmb
              obtain ⟨q0, hq0, hmb0⟩ := map_mbSkel_some hmb.symm
              have hf0 := mbSkel_eq_fields hmb0
              refine ⟨q0, q, hq0, hq, ?_, ?_, ?_, ?_, ?_, ?_, ?_⟩
              · rw [hf0.2.2.2.2.2.2.2.2.1]; exact hfl.1
              · rw [hf0.2.2.2.2.2.2.2.2.2]; exact hfl.2.1
              · rw [hf0.1]; exact hfl.2.2.1
              · rw [hf0.2.1]; exact hfl.2.2.2.1
              · rw [hf0.2.2.1]; exact hfl.2.2.2.2.1
              · rw [hf0.2.2.2.1]; exact hfl.2.2.2.2.2.1
              · rw [hf0.2.2.2.2.2.2.2.1]; exact hfl.2.2.2.2.2.2

theorem adjust_list (f : Nat) (ts : ptreelist) (bs : List redo_branch)
    (s : redo_session) (delta : Nat)
    (hspan : branchspans s bs ts = true)
    (hnd : (ptreelist.flat ts).Nodup)
    (hdepth : ptreelist.depth ts ≤ f) :
    (∀ k, ((bs.foldl (fun acc br => adjustmovecount f acc br.p delta)
        s).pos k).map (fun q => q.next) =
      (s.pos k).map (fun q => q.next)) ∧
    (∀ k, k ∉ ptreelist.flat ts →
      ((bs.foldl (fun acc br => adjustmovecount f acc br.p delta)
        s).pos k).map mbSkel = (s.pos k).map mbSkel) ∧
    (∀ m ∈ ptreelist.flat ts, ∃ q0 q, s.pos m = some q0 ∧
      (bs.foldl (fun acc br => adjustmovecount f acc br.p delta)
        s).pos m = some q ∧
      q.movecount = q0.movecount - delta ∧
      q.solutionsize = (if q0.solutionsize = 0 then 0
        else q0.solutionsize - delta) ∧
      q.prev = q0.prev ∧ q.next = q0.next ∧ q.inuse = q0.inuse ∧
      q.nextcount = q0.nextcount ∧ q.state = q0.state) := by
  cases ts with
  | pnil =>
      cases bs with
      | nil =>
          refine ⟨fun k => rfl, fun k _ => rfl, ?_⟩
          intro m hm
          rw [ptreelist.flat] at hm
          simp at hm
      | cons b bs => simp [branchspans] at hspan
  | pcons t ts' =>
      cases bs with
      | nil => simp [branchspans] at hspan
      | cons b bs' =>
          have hsp : ((ptree.root t == b.p) && spans s t &&
              branchspans s bs' ts') = true := hspan
          simp only [Bool.and_eq_true, beq_iff_eq] at hsp
          obtain ⟨⟨hroot, hspt⟩, hspl⟩ := hsp
          rw [ptreelist.flat, List.nodup_append] at hnd
          rw [ptreelist.depth] at hdepth
          cases f with
          | zero =>
              exfalso
              cases t with
              | node r ts2 => rw [ptree.depth] at hdepth; omega
          | succ f0 =>
              rw [List.foldl_cons, ← hroot]
              have hdt : ptree.depth t ≤ f0 + 1 :=
                le_trans (le_max_left _ _) hdepth
              obtain ⟨hTnext, hTout, hTin⟩ :=
                adjust_tree f0 t s delta hspt hnd.1 hdt
              have hbs2 : branchspans
                  (adjustmovecount (f0 + 1) s (ptree.root t) delta)
                  bs' ts' = true := by
                rw [branchspans_congr_on s _ bs' ts'
                  (fun m _ => hTnext m)]
                exact hspl
              have hdts' : ptreelist.depth ts' ≤ f0 + 1 :=
                le_trans (le_max_right _ _) hdepth
              obtain ⟨hLnext, hLout, hLin⟩ := adjust_list (f0 + 1) ts'
                bs' (adjustmovecount (f0 + 1) s (ptree.root t) delta)
                delta hbs2 hnd.2.1 hdts'
              refine ⟨?_, ?_, ?_⟩
              · intro k
                rw [hLnext k, hTnext k]
              · intro k hk
                rw [ptreelist.flat, List.mem_append, not_or] at hk
                rw [hLout k hk.2, hTout k hk.1]
              · intro m hm
                rw [ptreelist.flat, List.mem_append] at hm
                rcases hm with hm1 | hm2
                · obtain ⟨q0, qA, hq0, hqA, hfl⟩ := hTin m hm1
                  have hout := hLout m (hnd.2.2 hm1)
                  rw [hqA] at hout
                  obtain ⟨q, hq, hmb⟩ := map_mbSkel_some hout
                  have hf := mbSkel_eq_fields hmb
                  refine ⟨q0, q, hq0, hq, ?_, ?_, ?_, ?_, ?_, ?_, ?_⟩
                  · rw [hf.2.2.2.2.2.2.2.2.1]; exact hfl.1
                  · rw [hf.2.2.2.2.2.2.2.2.2]; exact hfl.2.1
                  · rw [hf.1]; exact hfl.2.2.1
                  · rw [hf.2.1]; exact hfl.2.2.2.1
                  · rw [hf.2.2.1]; exact hfl.2.2.2.2.1
                  · rw [hf.2.2.2.1]; exact hfl.2.2.2.2.2.1
                  · rw [hf.2.2.2.2.2.2.2.1]; exact hfl.2.2.2.2.2.2
                · obtain ⟨q0', q, hq0', hq, hfl⟩ := hLin m hm2
                  have hout := hTout m (fun hc => (hnd.2.2 hc) hm2)
                  rw [hq0'] at hout
                  obtain ⟨q0, hq0, hmb0⟩ := map_mbSkel_some hout.symm
                  have hf0 := mbSkel_eq_fields hmb0
                  refine ⟨q0, q, hq0, hq, ?_, ?_, ?_, ?_, ?_, ?_, ?_⟩
                  · rw [hf0.2.2.2.2.2.2.2.2.1]; exact hfl.1
                  · rw [hf0.2.2.2.2.2.2.2.2.2]; exact hfl.2.1
                  · rw [hf0.1]; exact hfl.2.2.1
                  · rw [hf0.2.1]; exact hfl.2.2.2.1
                  · rw [hf0.2.2.1]; exact hfl.2.2.2.2.1
                  · rw [hf0.2.2.2.1]; exact hfl.2.2.2.2.2.1
                  · rw [hf0.2.2.2.2.2.2.2.1]; exact hfl.2.2.2.2.2.2
end

/-- prevchain agrees between two sessions that agree on slot occupancy
everywhere and on prev fields outside a set M the chain avoids. -/
theorem prevchain_congr_on (f : Nat) (s s' : redo_session)
    (o : Option Nat) (M : List Nat)
    (hsome : ∀ j, (s'.pos j).isSome = (s.pos j).isSome)
    (hprev : ∀ j, j ∉ M → (s'.pos j).map (fun p => p.prev) =
      (s.pos j).map (fun p => p.prev))
    (hdisj : ∀ j ∈ prevchain f s o, j ∉ M) :
    prevchain f s' o = prevchain f s o := by
  induction f generalizing o with
  | zero => rw [prevchain_zero, prevchain_zero]
  | succ f ih =>
      cases o with
      | none => rw [prevchain_none, prevchain_none]
      | some j =>
          cases hp : s.pos j with
          | none =>
              have h' := hsome j
              rw [hp] at h'
              cases hp' : s'.pos j with
              | none =>
                  rw [prevchain_dead f s j hp, prevchain_dead f s' j hp']
              | some q => rw [hp'] at h'; simp at h'
          | some p =>
              have hjM : j ∉ M := hdisj j
                (by rw [prevchain_some f s j p hp]; simp)
              have h' := hprev j hjM
              rw [hp] at h'
              cases hp' : s'.pos j with
              | none => rw [hp'] at h'; simp at h'
              | some q =>
                  rw [hp'] at h'
                  simp only [Option.map_some', Option.some.injEq] at h'
                  rw [prevchain_some f s j p hp,
                    prevchain_some f s' j q hp', h']
                  rw [ih p.prev (fun m hm => hdisj m
                    (by rw [prevchain_some f s j p hp]; simp [hm]))]

/-- Slots off the ancestor chain are untouched by solmerge. -/
theorem solmerge_offchain (f : Nat) (s : redo_session) (o : Option Nat)
    (n : Nat) (j : Nat) (h : j ∉ prevchain f s o) :
    (solmerge f s o n).pos j = s.pos j := by
  induction f generalizing s o with
  | zero => cases o <;> rfl
  | succ f ih =>
      cases o with
      | none => rw [solmerge_none]
      | some jj =>
          cases hp : s.pos jj with
          | none => rw [solmerge_dead f s jj n hp]
          | some p =>
              rw [prevchain_some f s jj p hp] at h
              simp only [List.mem_cons, not_or] at h
              rw [solmerge_some f s jj n p hp]
              by_cases hc : p.solutionsize = 0 ∨ p.solutionsize > n
              · rw [if_pos hc]
                have hprevmap : ∀ k,
                    ((modifypos s jj (fun q =>
                      { q with solutionsize := n })).pos k).map
                      (fun q => q.prev) =
                    (s.pos k).map (fun q => q.prev) := by
                  intro k
                  by_cases hk : k = jj
                  · subst hk
                    rw [pos_modifypos_self s k _ p hp, hp]
                    rfl
                  · rw [pos_modifypos_ne s jj _ k hk]
                have hchain : prevchain f (modifypos s jj (fun q =>
                    { q with solutionsize := n })) p.prev =
                    prevchain f s p.prev :=
                  prevchain_congr f s _ p.prev hprevmap
                rw [ih _ _ (by rw [hchain]; exact h.2)]
                exact pos_modifypos_ne s jj _ j h.1
              · rw [if_neg hc]
                exact ih _ _ h.2

theorem pos_modifypos_map (t : redo_session) (i : Nat)
    (g : redo_position → redo_position) :
    (modifypos t i g).pos i = (t.pos i).map g := by
  cases ht : t.pos i with
  | none =>
      unfold modifypos
      simp only [redo_session.pos] at ht
      rw [ht]
      exact ht
  | some q => rw [pos_modifypos_self t i g q ht]; rfl

/-- The reparenting loop of graftbranch: every branch target's prev
becomes the destination; no other slot and no other field changes. -/
theorem reparent_fold (dest : Nat) (bs : List redo_branch)
    (t : redo_session) (k : Nat) :
    (k ∈ bs.map (fun b => b.p) →
      (bs.foldl (fun acc br => modifypos acc br.p
        (fun q => { q with prev := some dest })) t).pos k =
      (t.pos k).map (fun q => { q with prev := some dest })) ∧
    (k ∉ bs.map (fun b => b.p) →
      (bs.foldl (fun acc br => modifypos acc br.p
        (fun q => { q with prev := some dest })) t).pos k = t.pos k) := by
  induction bs generalizing t with
  | nil => exact ⟨fun h => absurd h (by simp), fun _ => rfl⟩
  | cons b bs ih =>
      rw [List.foldl_cons]
      have hset : ∀ o : Option redo_position,
          (o.map (fun q =>
            ({ q with prev := some dest } : redo_position))).map
            (fun q => ({ q with prev := some dest } : redo_position)) =
          o.map (fun q =>
            ({ q with prev := some dest } : redo_position)) := by
        intro o; cases o <;> rfl
      constructor
      · intro hmem
        rw [List.map_cons, List.mem_cons] at hmem
        by_cases hbs : k ∈ bs.map (fun b => b.p)
        · rw [(ih (modifypos t b.p (fun q =>
              { q with prev := some dest }))).1 hbs]
          by_cases hk : k = b.p
          · rw [hk, pos_modifypos_map t b.p (fun q =>
              { q with prev := some dest }), hset]
          · rw [pos_modifypos_ne t b.p (fun q =>
              { q with prev := some dest }) k hk]
        · have hk : k = b.p := by
            rcases hmem with h | h
            · exact h
            · exact absurd h hbs
          rw [(ih (modifypos t b.p (fun q =>
              { q with prev := some dest }))).2 hbs, hk,
            pos_modifypos_map t b.p (fun q =>
              { q with prev := some dest })]
      · intro hmem
        rw [List.map_cons, List.mem_cons, not_or] at hmem
        rw [(ih (modifypos t b.p (fun q =>
            { q with prev := some dest }))).2 hmem.2,
          pos_modifypos_ne t b.p (fun q =>
            { q with prev := some dest }) k hmem.1]

theorem sessSkel_length {a b : redo_session}
    (h : sessSkel a = sessSkel b) :
    a.positions.length = b.positions.length :=
  congrArg (fun x => x.2.2.2.2.2.2) h

theorem prev_of_mbSkel {o o' : Option redo_position}
    (h : o'.map mbSkel = o.map mbSkel) :
    o'.map (fun p => p.prev) = o.map (fun p => p.prev) := by
  cases ho : o with
  | none =>
      rw [ho] at h
      cases ho' : o' with
      | none => rfl
      | some q => rw [ho'] at h; simp at h
  | some q =>
      rw [ho] at h
      cases ho' : o' with
      | none => rw [ho'] at h; simp at h
      | some q' =>
          rw [ho'] at h
          simp only [Option.map_some', Option.some.injEq] at h
          simp only [Option.map_some', Option.some.injEq]
          exact (mbSkel_eq_fields h).1

theorem isSome_of_next_map {o o' : Option redo_position}
    (h : o'.map (fun p => p.next) = o.map (fun p => p.next)) :
    o'.isSome = o.isSome := by
  cases o <;> cases o' <;> simp_all

/-- The shape of a successful graft: move the branch list across,
empty the source, reparent the first-level children, copy movecount
and solutionsize, run the subtree adjustment, then merge the new
solution size upward if there is one. -/
theorem graftbranch_eq (s : redo_session) (dest src : Nat)
    (dp sp : redo_position) (hd : s.pos dest = some dp)
    (hs : s.pos src = some sp) :
    graftbranch s dest src =
      (let s1 := modifypos s dest (fun q =>
        { q with next := sp.next, nextcount := sp.nextcount });
       let s2 := modifypos s1 src (fun q =>
        { q with next := [], nextcount := 0 });
       let s3 := sp.next.foldl (fun acc br =>
        modifypos acc br.p (fun q => { q with prev := some dest })) s2;
       let delta := sp.movecount - dp.movecount;
       let s4 := modifypos s3 dest (fun q =>
        { q with movecount := sp.movecount,
                 solutionsize := sp.solutionsize });
       let s5 := adjustmovecount (s4.positions.length + 1) s4 dest delta;
       match s5.pos dest with
       | some dp5 =>
           if dp5.solutionsize ≠ 0 then
             solmerge (s5.positions.length + 1) s5 dp5.prev
               dp5.solutionsize
           else s5
       | none => s5) := by
  unfold graftbranch
  rw [hd, hs]

set_option maxHeartbeats 4000000 in
/-- C4: grafting onto a shallower equivalent (the branch taken by
redo_addposition in graft mode when the new position's movecount is
strictly smaller): the source's whole branch list and nextcount move
to the destination, the source becomes a leaf with no branches and
nextcount 0, the former first-level children are reparented to the
destination, and every transplanted descendant's movecount — and its
solutionsize where non-zero — drops by the depth difference. -/
theorem C4_graft_transplant :
    ∀ (s : redo_session) (dest src : Nat) (dp sp : redo_position)
      (ts : ptreelist),
      s.pos dest = some dp → s.pos src = some sp →
      dp.movecount < sp.movecount →
      branchspans s sp.next ts = true →
      (dest :: src :: ptreelist.flat ts).Nodup →
      (∀ j ∈ ptreelist.flat ts,
        j ∉ prevchain (s.positions.length + 1) s dp.prev) →
      ptreelist.depth ts ≤ s.positions.length →
      (∃ q, (graftbranch s dest src).pos dest = some q ∧
        q.next = sp.next ∧ q.nextcount = sp.nextcount ∧
        q.movecount = dp.movecount) ∧
      (∃ q, (graftbranch s dest src).pos src = some q ∧
        q.next = [] ∧ q.nextcount = 0) ∧
      (∀ b ∈ sp.next, ∃ q, (graftbranch s dest src).pos b.p = some q ∧
        q.prev = some dest) ∧
      (∀ j ∈ ptreelist.flat ts, ∃ q0 q, s.pos j = some q0 ∧
        (graftbranch s dest src).pos j = some q ∧
        q.movecount = q0.movecount - (sp.movecount - dp.movecount) ∧
        q.solutionsize = (if q0.solutionsize = 0 then 0
          else q0.solutionsize - (sp.movecount - dp.movecount)) ∧
        q.next = q0.next ∧ q.inuse = q0.inuse ∧
        q.nextcount = q0.nextcount ∧ q.state = q0.state) := by
  intro s dest src dp sp ts hd hs hmc hbs hnd hchain hdep
  have hndl := hnd
  rw [List.nodup_cons] at hndl
  have hdsrc : dest ≠ src := fun h => hndl.1 (h ▸ List.mem_cons_self _ _)
  have hdflat : dest ∉ ptreelist.flat ts :=
    fun h => hndl.1 (List.mem_cons_of_mem _ h)
  have hndl2 := hndl.2
  rw [List.nodup_cons] at hndl2
  have hsflat : src ∉ ptreelist.flat ts := hndl2.1
  have hflat : (ptreelist.flat ts).Nodup := hndl2.2
  have hroots : ∀ b ∈ sp.next, b.p ∈ ptreelist.flat ts :=
    branchspans_targets s sp.next ts hbs
  have hmaproots : ∀ k, k ∈ sp.next.map (fun b => b.p) →
      k ∈ ptreelist.flat ts := by
    intro k hk
    simp only [List.mem_map] at hk
    obtain ⟨b, hb, he⟩ := hk
    exact he ▸ hroots b hb
  obtain ⟨s1, hs1⟩ : ∃ t, t = modifypos s dest (fun q =>
    { q with next := sp.next, nextcount := sp.nextcount }) := ⟨_, rfl⟩
  obtain ⟨s2, hs2⟩ : ∃ t, t = modifypos s1 src (fun q =>
    { q with next := [], nextcount := 0 }) := ⟨_, rfl⟩
  obtain ⟨s3, hs3⟩ : ∃ t, t = sp.next.foldl (fun acc br =>
    modifypos acc br.p (fun q => { q with prev := some dest })) s2 :=
    ⟨_, rfl⟩
  obtain ⟨s4, hs4⟩ : ∃ t, t = modifypos s3 dest (fun q =>
    { q with movecount := sp.movecount,
             solutionsize := sp.solutionsize }) := ⟨_, rfl⟩
  obtain ⟨s5, hs5⟩ : ∃ t, t = adjustmovecount (s4.positions.length + 1)
    s4 dest (sp.movecount - dp.movecount) := ⟨_, rfl⟩
  have hg : graftbranch s dest src =
      (match s5.pos dest with
       | some dp5 =>
           if dp5.solutionsize ≠ 0 then
             solmerge (s5.positions.length + 1) s5 dp5.prev
               dp5.solutionsize
           else s5
       | none => s5) := by
    rw [graftbranch_eq s dest src dp sp hd hs]
    dsimp only
    rw [← hs1, ← hs2, ← hs3, ← hs4, ← hs5]
  -- records along the way
  have hS1d : s1.pos dest = some { dp with
      next := sp.next, nextcount := sp.nextcount } := by
    rw [hs1]; exact pos_modifypos_self s dest _ dp hd
  have hS1ne : ∀ k, k ≠ dest → s1.pos k = s.pos k := by
    intro k hk; rw [hs1]; exact pos_modifypos_ne s dest _ k hk
  have hS2src : s2.pos src = some { sp with
      next := [], nextcount := 0 } := by
    rw [hs2]
    have : s1.pos src = some sp := by
      rw [hS1ne src (Ne.symm hdsrc)]; exact hs
    exact pos_modifypos_self s1 src _ sp this
  have hS2ne : ∀ k, k ≠ src → s2.pos k = s1.pos k := by
    intro k hk; rw [hs2]; exact pos_modifypos_ne s1 src _ k hk
  have hS3root : ∀ k, k ∈ sp.next.map (fun b => b.p) →
      s3.pos k = (s2.pos k).map (fun q =>
        { q with prev := some dest }) := by
    intro k hk; rw [hs3]; exact (reparent_fold dest sp.next s2 k).1 hk
  have hS3ne : ∀ k, k ∉ sp.next.map (fun b => b.p) →
      s3.pos k = s2.pos k := by
    intro k hk; rw [hs3]; exact (reparent_fold dest sp.next s2 k).2 hk
  have hdroots : dest ∉ sp.next.map (fun b => b.p) :=
    fun hc => hdflat (hmaproots dest hc)
  have hsroots : src ∉ sp.next.map (fun b => b.p) :=
    fun hc => hsflat (hmaproots src hc)
  have hS4d : s4.pos dest = some { dp with
      next := sp.next, nextcount := sp.nextcount,
      movecount := sp.movecount,
      solutionsize := sp.solutionsize } := by
    rw [hs4]
    have h3 : s3.pos dest = some { dp with
        next := sp.next, nextcount := sp.nextcount } := by
      rw [hS3ne dest hdroots, hS2ne dest hdsrc, hS1d]
    exact pos_modifypos_self s3 dest _ _ h3
  have hS4ne : ∀ k, k ≠ dest → s4.pos k = s3.pos k := by
    intro k hk; rw [hs4]; exact pos_modifypos_ne s3 dest _ k hk
  -- lengths
  have hskel3 : sessSkel s3 = sessSkel s2 := by
    rw [hs3]
    exact foldl_rel (fun a b => sessSkel b = sessSkel a)
      (fun a b c hab hbc => hbc.trans hab)
      (fun acc br => modifypos acc br.p (fun q =>
        { q with prev := some dest })) sp.next s2
      (fun _ => rfl) (fun u x _ => modifypos_sessSkel u x.p
        (fun q => { q with prev := some dest }))
  have hlen4 : s4.positions.length = s.positions.length := by
    rw [hs4, modifypos_length, sessSkel_length hskel3, hs2,
      modifypos_length, hs1, modifypos_length]
  -- spans in s4
  have hnext4 : ∀ j ∈ ptreelist.flat ts,
      (s4.pos j).map (fun q => q.next) =
      (s.pos j).map (fun q => q.next) := by
    intro j hj
    have hjd : j ≠ dest := fun hc => hdflat (hc ▸ hj)
    have hjs : j ≠ src := fun hc => hsflat (hc ▸ hj)
    rw [hS4ne j hjd]
    by_cases hjr : j ∈ sp.next.map (fun b => b.p)
    · rw [hS3root j hjr, hS2ne j hjs, hS1ne j hjd]
      cases s.pos j <;> rfl
    · rw [hS3ne j hjr, hS2ne j hjs, hS1ne j hjd]
  have hspans4 : spans s4 (ptree.node dest ts) = true := by
    show (match s4.pos dest with
          | none => false
          | some p => branchspans s4 p.next ts) = true
    rw [hS4d]
    show branchspans s4 sp.next ts = true
    rw [branchspans_congr_on s s4 sp.next ts hnext4]
    exact hbs
  have hnd4 : (ptree.flat (ptree.node dest ts)).Nodup := by
    rw [ptree.flat, List.nodup_cons]
    exact ⟨hdflat, hflat⟩
  have hdepth4 : ptree.depth (ptree.node dest ts) ≤
      s4.positions.length + 1 := by
    rw [ptree.depth, hlen4]
    omega
  obtain ⟨hTnext, hTout, hTin⟩ := adjust_tree s4.positions.length
    (ptree.node dest ts) s4 (sp.movecount - dp.movecount) hspans4 hnd4
    hdepth4
  simp only [ptree.root] at hTnext hTout hTin
  rw [← hs5] at hTnext hTout hTin
  rw [ptree.flat] at hTout hTin
  -- the destination's record after the adjustment
  have hdmem : dest ∈ dest :: ptreelist.flat ts := List.mem_cons_self _ _
  obtain ⟨q0d, q5d, hq0d, hq5d, hfld⟩ := hTin dest hdmem
  rw [hS4d] at hq0d
  injection hq0d with hq0de
  rw [← hq0de] at hfld
  -- the final session
  have hlen5 : s5.positions.length = s.positions.length := by
    rw [hs5, sessSkel_length (adjustmovecount_sessSkel _ _ _ _), hlen4]
  have hprev45 : ∀ k, (s5.pos k).map (fun q => q.prev) =
      (s4.pos k).map (fun q => q.prev) := by
    intro k
    by_cases hk : k ∈ ptree.flat (ptree.node dest ts)
    · rw [ptree.flat] at hk
      obtain ⟨r0, r, hr0, hr, hflr⟩ := hTin k hk
      rw [hr0, hr]
      simp only [Option.map_some']
      exact congrArg some hflr.2.2.1
    · rw [ptree.flat] at hk
      exact prev_of_mbSkel (hTout k hk)
  have hsome45 : ∀ k, (s5.pos k).isSome = (s4.pos k).isSome :=
    fun k => isSome_of_next_map (hTnext k)
  have hprevS : ∀ k, k ∉ sp.next.map (fun b => b.p) →
      (s4.pos k).map (fun q => q.prev) =
      (s.pos k).map (fun q => q.prev) := by
    intro k hk
    by_cases hkd : k = dest
    · subst hkd
      rw [hS4d, hd]
      rfl
    · rw [hS4ne k hkd, hS3ne k hk]
      by_cases hks : k = src
      · subst hks
        rw [hS2src, hs]
        rfl
      · rw [hS2ne k hks, hS1ne k hkd]
  have hsomeS : ∀ k, (s4.pos k).isSome = (s.pos k).isSome := by
    intro k
    by_cases hkd : k = dest
    · subst hkd; rw [hS4d, hd]; rfl
    · rw [hS4ne k hkd]
      by_cases hkr : k ∈ sp.next.map (fun b => b.p)
      · rw [hS3root k hkr]
        have hks : k ≠ src := fun hc => hsroots (hc ▸ hkr)
        rw [hS2ne k hks, hS1ne k hkd]
        cases s.pos k <;> rfl
      · rw [hS3ne k hkr]
        by_cases hks : k = src
        · subst hks; rw [hS2src, hs]; rfl
        · rw [hS2ne k hks, hS1ne k hkd]
  have hchain5 : prevchain (s5.positions.length + 1) s5 dp.prev =
      prevchain (s.positions.length + 1) s dp.prev := by
    rw [hlen5]
    refine prevchain_congr_on _ s s5 dp.prev
      (sp.next.map (fun b => b.p))
      (fun j => (hsome45 j).trans (hsomeS j)) ?_ ?_
    · intro j hj
      rw [hprev45 j, hprevS j hj]
    · intro j hj hjm
      exact hchain j (hmaproots j hjm) hj
  obtain ⟨F, hF, hFSol, hFoff⟩ : ∃ F, graftbranch s dest src = F ∧
      SolOnly s5 F ∧ (∀ j, j ∉ prevchain (s.positions.length + 1) s
        dp.prev → F.pos j = s5.pos j) := by
    rw [hg, hq5d]
    dsimp only
    by_cases hz : q5d.solutionsize ≠ 0
    · rw [if_pos hz]
      refine ⟨_, rfl, solmerge_SolOnly _ _ _ _, ?_⟩
      intro j hj
      refine solmerge_offchain _ s5 q5d.prev _ j ?_
      have hqp : q5d.prev = dp.prev := hfld.2.2.1
      rw [hqp, hchain5]
      exact hj
    · rw [if_neg hz]
      exact ⟨s5, rfl, SolOnly.refl s5, fun j _ => rfl⟩
  rw [hF]
  refine ⟨?_, ?_, ?_, ?_⟩
  · -- destination
    obtain ⟨qF, hqF, hsk⟩ := SolOnly_pos_some hFSol dest q5d hq5d
    have hfs := solskel_eq_fields hsk
    refine ⟨qF, hqF, ?_, ?_, ?_⟩
    · rw [hfs.2.1, hfld.2.2.2.1]
    · rw [hfs.2.2.2.1, hfld.2.2.2.2.2.1]
    · rw [hfs.2.2.2.2.2.2.2.2.1, hfld.1]
      show sp.movecount - (sp.movecount - dp.movecount) = dp.movecount
      omega
  · -- source
    have hsrcout : src ∉ dest :: ptreelist.flat ts := by
      rw [List.mem_cons, not_or]
      exact ⟨Ne.symm hdsrc, hsflat⟩
    have h4 : s4.pos src = some { sp with
        next := [], nextcount := 0 } := by
      rw [hS4ne src (Ne.symm hdsrc), hS3ne src hsroots, hS2src]
    have h5 := hTout src hsrcout
    rw [h4] at h5
    obtain ⟨q5s, hq5s, hmb5⟩ := map_mbSkel_some h5
    obtain ⟨qF, hqF, hsk⟩ := SolOnly_pos_some hFSol src q5s hq5s
    have hf5 := mbSkel_eq_fields hmb5
    have hfs := solskel_eq_fields hsk
    refine ⟨qF, hqF, ?_, ?_⟩
    · rw [hfs.2.1, hf5.2.1]
    · rw [hfs.2.2.2.1, hf5.2.2.2.1]
  · -- reparented first-level children
    intro b hb
    have hbmem : b.p ∈ dest :: ptreelist.flat ts :=
      List.mem_cons_of_mem _ (hroots b hb)
    obtain ⟨q04, q5b, hq04, hq5b, hflb⟩ := hTin b.p hbmem
    have hbd : b.p ≠ dest := fun hc => hdflat (hc ▸ hroots b hb)
    have hbs' : b.p ≠ src := fun hc => hsflat (hc ▸ hroots b hb)
    have hbr : b.p ∈ sp.next.map (fun c => c.p) :=
      List.mem_map.mpr ⟨b, hb, rfl⟩
    obtain ⟨qq, hqq⟩ := branchspans_flat_some s sp.next ts hbs b.p
      (hroots b hb)
    have h4 : s4.pos b.p = some { qq with prev := some dest } := by
      rw [hS4ne b.p hbd, hS3root b.p hbr, hS2ne b.p hbs',
        hS1ne b.p hbd, hqq]
      rfl
    rw [h4] at hq04
    injection hq04 with hq04e
    obtain ⟨qF, hqF, hsk⟩ := SolOnly_pos_some hFSol b.p q5b hq5b
    have hfs := solskel_eq_fields hsk
    refine ⟨qF, hqF, ?_⟩
    rw [hfs.1, hflb.2.2.1, ← hq04e]
  · -- transplanted descendants
    intro j hj
    have hjmem : j ∈ dest :: ptreelist.flat ts :=
      List.mem_cons_of_mem _ hj
    obtain ⟨q04, q5j, hq04, hq5j, hflj⟩ := hTin j hjmem
    have hjd : j ≠ dest := fun hc => hdflat (hc ▸ hj)
    have hjs : j ≠ src := fun hc => hsflat (hc ▸ hj)
    obtain ⟨q0, hq0⟩ := branchspans_flat_some s sp.next ts hbs j hj
    have hFj : F.pos j = s5.pos j := hFoff j (hchain j hj)
    have h4eq : q04.movecount = q0.movecount ∧
        q04.solutionsize = q0.solutionsize ∧ q04.next = q0.next ∧
        q04.inuse = q0.inuse ∧ q04.nextcount = q0.nextcount ∧
        q04.state = q0.state := by
      by_cases hjr : j ∈ sp.next.map (fun b => b.p)
      · have h4 : s4.pos j = some { q0 with prev := some dest } := by
          rw [hS4ne j hjd, hS3root j hjr, hS2ne j hjs, hS1ne j hjd, hq0]
          rfl
        rw [h4] at hq04
        injection hq04 with hq04e
        rw [← hq04e]
        exact ⟨rfl, rfl, rfl, rfl, rfl, rfl⟩
      · have h4 : s4.pos j = some q0 := by
          rw [hS4ne j hjd, hS3ne j hjr, hS2ne j hjs, hS1ne j hjd, hq0]
        rw [h4] at hq04
        injection hq04 with hq04e
        rw [← hq04e]
        exact ⟨rfl, rfl, rfl, rfl, rfl, rfl⟩
    refine ⟨q0, q5j, hq0, by rw [hFj]; exact hq5j, ?_, ?_, ?_, ?_, ?_,
      ?_⟩
    · rw [hflj.1, h4eq.1]
    · rw [hflj.2.1, h4eq.2.1]
    · rw [hflj.2.2.2.1, h4eq.2.2.1]
    · rw [hflj.2.2.2.2.1, h4eq.2.2.2.1]
    · rw [hflj.2.2.2.2.2.1, h4eq.2.2.2.2.1]
    · rw [hflj.2.2.2.2.2.2, h4eq.2.2.2.2.2]

/-- The transplanted subtree of the graft witness: the single leaf in
slot 3. -/
def c4ts : ptreelist :=
  ptreelist.pcons (ptree.node 3 ptreelist.pnil) ptreelist.pnil

set_option maxHeartbeats 2000000 in
/-- Witness for C4: grafting slot 2's subtree onto slot 1 in the
four-position chain moves the branch list across, leaves slot 2 a
branchless leaf, reparents slot 3 to slot 1 and lowers slot 3's
movecount by the depth difference 1. -/
theorem C4_graft_transplant_witness :
    (∃ q, (graftbranch c7sess 1 2).pos 1 = some q ∧
      q.next = c5parent.next ∧ q.nextcount = c5parent.nextcount ∧
      q.movecount = c4dest.movecount) ∧
    (∃ q, (graftbranch c7sess 1 2).pos 2 = some q ∧
      q.next = [] ∧ q.nextcount = 0) ∧
    (∀ b ∈ c5parent.next, ∃ q, (graftbranch c7sess 1 2).pos b.p =
      some q ∧ q.prev = some 1) ∧
    (∀ j ∈ ptreelist.flat c4ts, ∃ q0 q, c7sess.pos j = some q0 ∧
      (graftbranch c7sess 1 2).pos j = some q ∧
      q.movecount = q0.movecount -
        (c5parent.movecount - c4dest.movecount)) := by
  have h := C4_graft_transplant c7sess 1 2 c4dest c5parent c4ts
    (by decide) (by decide) (by decide) (by decide) (by decide)
    (by decide) (by decide)
  refine ⟨h.1, h.2.1, h.2.2.1, ?_⟩
  intro j hj
  obtain ⟨q0, q, hq0, hq, hmc, _⟩ := h.2.2.2 j hj
  exact ⟨q0, q, hq0, hq, hmc⟩

/-!
## The loop body of redo_setbetterfields
-/

/-- One iteration of the redo_setbetterfields scan (the body of its
position loop). -/
def setbetterstep (acc : redo_session × Nat) (i : Nat) :
    redo_session × Nat :=
  match acc.1.pos i with
  | none => acc
  | some p =>
      if p.inuse && p.setbetter then
        let other := checkforequiv acc.1 p.state
        let s1 := modifypos acc.1 i (fun q => { q with better := other })
        let c1 := if other.isSome then acc.2 + 1 else acc.2
        let s2 :=
          match other with
          | none => s1
          | some o =>
              match s1.pos o with
              | none => s1
              | some po =>
                  if po.movecount > p.movecount then
                    let sA := modifypos s1 i
                      (fun q => { q with better := none })
                    if po.better = none then
                      modifypos sA o (fun q =>
                        { q with better := some i, setbetter := false })
                    else sA
                  else s1
        (modifypos s2 i (fun q => { q with setbetter := false }), c1)
      else acc

theorem setbetterfields_eq_foldl (s : redo_session) :
    redo_setbetterfields s =
      (List.range s.positions.length).foldl setbetterstep (s, 0) := rfl

theorem setbetterstep_dead (acc : redo_session × Nat) (i : Nat)
    (hpos : acc.1.pos i = none) : setbetterstep acc i = acc := by
  unfold setbetterstep
  rw [hpos]

theorem setbetterstep_notflag (acc : redo_session × Nat) (i : Nat)
    (p : redo_position) (hpos : acc.1.pos i = some p)
    (hflag : (p.inuse && p.setbetter) = false) :
    setbetterstep acc i = acc := by
  unfold setbetterstep
  rw [hpos]
  dsimp only
  rw [hflag]
  rfl

theorem setbetterstep_nolookup (t : redo_session) (c i : Nat)
    (p : redo_position) (hpos : t.pos i = some p)
    (hflag : (p.inuse && p.setbetter) = true)
    (hceq : checkforequiv t p.state = none) :
    setbetterstep (t, c) i =
      (modifypos (modifypos t i (fun q => { q with better := none })) i
        (fun q => { q with setbetter := false }), c) := by
  unfold setbetterstep
  rw [hpos]
  dsimp only
  rw [hflag, if_pos rfl]
  rw [hceq]
  rfl

theorem setbetterstep_deadtarget (t : redo_session) (c i : Nat)
    (p : redo_position) (o : Nat) (hpos : t.pos i = some p)
    (hflag : (p.inuse && p.setbetter) = true)
    (hceq : checkforequiv t p.state = some o)
    (hpo : (modifypos t i (fun q =>
      { q with better := some o })).pos o = none) :
    setbetterstep (t, c) i =
      (modifypos (modifypos t i (fun q => { q with better := some o }))
        i (fun q => { q with setbetter := false }), c + 1) := by
  unfold setbetterstep
  rw [hpos]
  dsimp only
  rw [hflag, if_pos rfl]
  rw [hceq]
  dsimp only
  rw [hpo]
  rfl

theorem setbetterstep_shallow (t : redo_session) (c i : Nat)
    (p : redo_position) (o : Nat) (po : redo_position)
    (hpos : t.pos i = some p)
    (hflag : (p.inuse && p.setbetter) = true)
    (hceq : checkforequiv t p.state = some o)
    (hpo : (modifypos t i (fun q =>
      { q with better := some o })).pos o = some po)
    (hmc : ¬(po.movecount > p.movecount)) :
    setbetterstep (t, c) i =
      (modifypos (modifypos t i (fun q => { q with better := some o }))
        i (fun q => { q with setbetter := false }), c + 1) := by
  unfold setbetterstep
  rw [hpos]
  dsimp only
  rw [hflag, if_pos rfl]
  rw [hceq]
  dsimp only
  rw [hpo]
  dsimp only
  rw [if_neg hmc]
  rfl

theorem setbetterstep_invert (t : redo_session) (c i : Nat)
    (p : redo_position) (o : Nat) (po : redo_position)
    (hpos : t.pos i = some p)
    (hflag : (p.inuse && p.setbetter) = true)
    (hceq : checkforequiv t p.state = some o)
    (hpo : (modifypos t i (fun q =>
      { q with better := some o })).pos o = some po)
    (hmc : po.movecount > p.movecount)
    (hb : po.better = none) :
    setbetterstep (t, c) i =
      (modifypos (modifypos (modifypos
          (modifypos t i (fun q => { q with better := some o })) i
          (fun q => { q with better := none })) o
          (fun q => { q with better := some i, setbetter := false })) i
        (fun q => { q with setbetter := false }), c + 1) := by
  unfold setbetterstep
  rw [hpos]
  dsimp only
  rw [hflag, if_pos rfl]
  rw [hceq]
  dsimp only
  rw [hpo]
  dsimp only
  rw [if_pos hmc, if_pos hb]
  rfl

theorem setbetterstep_invert_keep (t : redo_session) (c i : Nat)
    (p : redo_position) (o : Nat) (po : redo_position)
    (hpos : t.pos i = some p)
    (hflag : (p.inuse && p.setbetter) = true)
    (hceq : checkforequiv t p.state = some o)
    (hpo : (modifypos t i (fun q =>
      { q with better := some o })).pos o = some po)
    (hmc : po.movecount > p.movecount)
    (hb : po.better ≠ none) :
    setbetterstep (t, c) i =
      (modifypos (modifypos
          (modifypos t i (fun q => { q with better := some o })) i
          (fun q => { q with better := none })) i
        (fun q => { q with setbetter := false }), c + 1) := by
  unfold setbetterstep
  rw [hpos]
  dsimp only
  rw [hflag, if_pos rfl]
  rw [hceq]
  dsimp only
  rw [hpo]
  dsimp only
  rw [if_pos hmc, if_neg hb]
  rfl

/-- Every step of the scan is either a no-op on an unflagged (or
empty) slot, or clears slot i's setbetter flag and changes other slots
at most by installing an inverted better link with a cleared flag. -/
theorem setbetterstep_shape (acc : redo_session × Nat) (i : Nat) :
    (setbetterstep acc i = acc ∧
      (∀ p, acc.1.pos i = some p → (p.inuse && p.setbetter) = false)) ∨
    (∃ s2 c2, setbetterstep acc i =
        (modifypos s2 i (fun q => { q with setbetter := false }), c2) ∧
      s2.positions.length = acc.1.positions.length ∧
      (∀ k, k ≠ i → s2.pos k = acc.1.pos k ∨
        ∃ po, acc.1.pos k = some po ∧
          s2.pos k = some { po with
            better := some i, setbetter := false })) := by
  obtain ⟨t, c⟩ := acc
  cases hpos : t.pos i with
  | none =>
      left
      refine ⟨setbetterstep_dead (t, c) i hpos, ?_⟩
      intro p hp
      exact absurd hp (by simp)
  | some p =>
      by_cases hflag : (p.inuse && p.setbetter) = true
      · right
        cases hceq : checkforequiv t p.state with
        | none =>
            refine ⟨_, _,
              setbetterstep_nolookup t c i p hpos hflag hceq, ?_, ?_⟩
            · rw [modifypos_length]
            · intro k hk
              left
              exact pos_modifypos_ne t i _ k hk
        | some o =>
            cases hpo : (modifypos t i (fun q =>
                { q with better := some o })).pos o with
            | none =>
                refine ⟨_, _, setbetterstep_deadtarget t c i p o hpos
                  hflag hceq hpo, ?_, ?_⟩
                · rw [modifypos_length]
                · intro k hk
                  left
                  exact pos_modifypos_ne t i _ k hk
            | some po =>
                by_cases hmc : po.movecount > p.movecount
                · by_cases hb : po.better = none
                  · refine ⟨_, _, setbetterstep_invert t c i p o po
                      hpos hflag hceq hpo hmc hb, ?_, ?_⟩
                    · rw [modifypos_length, modifypos_length,
                        modifypos_length]
                    · intro k hk
                      by_cases hko : k = o
                      · subst hko
                        have hto : t.pos k = some po := by
                          rw [pos_modifypos_ne t i _ k hk] at hpo
                          exact hpo
                        right
                        refine ⟨po, hto, ?_⟩
                        rw [pos_modifypos_map, pos_modifypos_ne _ i _
                          k hk, pos_modifypos_ne t i _ k hk, hto]
                        rfl
                      · left
                        rw [pos_modifypos_ne _ o _ k hko,
                          pos_modifypos_ne _ i _ k hk,
                          pos_modifypos_ne t i _ k hk]
                  · refine ⟨_, _, setbetterstep_invert_keep t c i p o
                      po hpos hflag hceq hpo hmc hb, ?_, ?_⟩
                    · rw [modifypos_length, modifypos_length]
                    · intro k hk
                      left
                      rw [pos_modifypos_ne _ i _ k hk,
                        pos_modifypos_ne t i _ k hk]
                · refine ⟨_, _, setbetterstep_shallow t c i p o po
                    hpos hflag hceq hpo hmc, ?_, ?_⟩
                  · rw [modifypos_length]
                  · intro k hk
                    left
                    exact pos_modifypos_ne t i _ k hk
      · left
        have hflag' : (p.inuse && p.setbetter) = false := by
          revert hflag
          cases (p.inuse && p.setbetter) <;> simp
        refine ⟨setbetterstep_notflag (t, c) i p hpos hflag', ?_⟩
        intro q hq
        injection hq with he
        rw [← he]
        exact hflag'

/-- A slot that is live and flagged after a step was live and flagged
before it, and is not the slot the step processed. -/
theorem setbetterstep_flagged_after (acc : redo_session × Nat)
    (i k : Nat) (q : redo_position)
    (hq : (setbetterstep acc i).1.pos k = some q)
    (hin : q.inuse = true) (hsb : q.setbetter = true) :
    ∃ q0, acc.1.pos k = some q0 ∧ q0.inuse = true ∧
      q0.setbetter = true ∧ k ≠ i := by
  rcases setbetterstep_shape acc i with ⟨heq, hcond⟩ |
    ⟨s2, c2, heq, _, hframe⟩
  · rw [heq] at hq
    refine ⟨q, hq, hin, hsb, ?_⟩
    intro hki
    subst hki
    have hc := hcond q hq
    rw [hin, hsb] at hc
    simp at hc
  · rw [heq] at hq
    by_cases hki : k = i
    · subst hki
      have hq' : ((s2.pos k).map (fun q =>
          ({ q with setbetter := false } : redo_position))) = some q := by
        rw [← pos_modifypos_map]
        exact hq
      cases h2 : s2.pos k with
      | none => rw [h2] at hq'; simp at hq'
      | some r =>
          rw [h2] at hq'
          simp only [Option.map_some', Option.some.injEq] at hq'
          rw [← hq'] at hsb
          simp at hsb
    · have hq' : s2.pos k = some q := by
        rw [← pos_modifypos_ne s2 i (fun q =>
          { q with setbetter := false }) k hki]
        exact hq
      rcases hframe k hki with hfr | ⟨po, hpo, hfr⟩
      · rw [hfr] at hq'
        exact ⟨q, hq', hin, hsb, hki⟩
      · rw [hfr] at hq'
        injection hq' with he
        rw [← he] at hsb
        simp at hsb

theorem setbetterstep_len (acc : redo_session × Nat) (i : Nat) :
    (setbetterstep acc i).1.positions.length =
      acc.1.positions.length := by
  rcases setbetterstep_shape acc i with ⟨heq, _⟩ |
    ⟨s2, c2, heq, hlen, _⟩
  · rw [heq]
  · rw [heq]
    show (modifypos s2 i _).positions.length = _
    rw [modifypos_length, hlen]

theorem setbetterfold_flagfree (l : List Nat)
    (acc : redo_session × Nat) :
    ∀ j, (j ∈ l ∨ (∀ q, acc.1.pos j = some q → q.inuse = true →
      q.setbetter = false)) →
    ∀ q, (l.foldl setbetterstep acc).1.pos j = some q →
      q.inuse = true → q.setbetter = false := by
  induction l generalizing acc with
  | nil =>
      intro j hj q hq hin
      rcases hj with h | h
      · simp at h
      · exact h q hq hin
  | cons i l ih =>
      intro j hj q hq hin
      rw [List.foldl_cons] at hq
      refine ih (setbetterstep acc i) j ?_ q hq hin
      rcases hj with hmem | hff
      · rcases List.mem_cons.mp hmem with hji | hjl
        · right
          intro r hr hrin
          by_contra hrsb
          have hrsb' : r.setbetter = true := by
            revert hrsb
            cases r.setbetter <;> simp
          obtain ⟨q0, _, _, _, hne⟩ :=
            setbetterstep_flagged_after acc i j r hr hrin hrsb'
          exact hne hji
        · left
          exact hjl
      · right
        intro r hr hrin
        by_contra hrsb
        have hrsb' : r.setbetter = true := by
          revert hrsb
          cases r.setbetter <;> simp
        obtain ⟨q0, hq0, hq0in, hq0sb, _⟩ :=
          setbetterstep_flagged_after acc i j r hr hrin hrsb'
        have hc := hff q0 hq0 hq0in
        rw [hq0sb] at hc
        exact absurd hc (by simp)

theorem setbetterfold_len (l : List Nat) (acc : redo_session × Nat) :
    (l.foldl setbetterstep acc).1.positions.length =
      acc.1.positions.length := by
  induction l generalizing acc with
  | nil => rfl
  | cons i l ih =>
      rw [List.foldl_cons, ih, setbetterstep_len]

/-- On a session where no live position has a raised setbetter flag,
the scan changes nothing and returns zero. -/
theorem setbetterfields_clean (s : redo_session)
    (h : ∀ j q, s.pos j = some q → q.inuse = true →
      q.setbetter = false) :
    redo_setbetterfields s = (s, 0) := by
  rw [setbetterfields_eq_foldl]
  have hgen : ∀ l : List Nat, l.foldl setbetterstep (s, 0) = (s, 0) := by
    intro l
    induction l with
    | nil => rfl
    | cons i l ih =>
        rw [List.foldl_cons]
        have hstep : setbetterstep (s, 0) i = (s, 0) := by
          cases hpos : s.pos i with
          | none => exact setbetterstep_dead (s, 0) i hpos
          | some p =>
              refine setbetterstep_notflag (s, 0) i p hpos ?_
              cases hin : p.inuse with
              | false => rfl
              | true => rw [h i p hpos hin]; rfl
        rw [hstep, ih]
  exact hgen _

set_option maxHeartbeats 1000000 in
/-- C9: redo_setbetterfields is the scan of the arena by
setbetterstep; running it twice equals running it once (the second
pass finds no setbetter flags, changes nothing and returns 0, for
every session); and each counted iteration — one per flagged live
position whose equivalence lookup succeeds — sets exactly one better
link: on the position itself when the match is not deeper, otherwise
(inverted) on the match, while an unsuccessful lookup leaves the count
alone and just clears the flag. -/
theorem C9_setbetterfields :
    (∀ s : redo_session, redo_setbetterfields s =
      (List.range s.positions.length).foldl setbetterstep (s, 0)) ∧
    (∀ s : redo_session,
      redo_setbetterfields (redo_setbetterfields s).1 =
        ((redo_setbetterfields s).1, 0)) ∧
    (∀ (t : redo_session) (c i : Nat) (p : redo_position),
      t.pos i = some p → p.inuse = true → p.setbetter = true →
      (checkforequiv t p.state = none →
        (setbetterstep (t, c) i).2 = c ∧
        (∃ q, (setbetterstep (t, c) i).1.pos i = some q ∧
          q.better = none ∧ q.setbetter = false) ∧
        (∀ k, k ≠ i → (setbetterstep (t, c) i).1.pos k = t.pos k)) ∧
      (∀ o, checkforequiv t p.state = some o → o ≠ i →
        ∀ po, t.pos o = some po →
        (setbetterstep (t, c) i).2 = c + 1 ∧
        (¬(po.movecount > p.movecount) →
          (∃ q, (setbetterstep (t, c) i).1.pos i = some q ∧
            q.better = some o ∧ q.setbetter = false) ∧
          (∀ k, k ≠ i → (setbetterstep (t, c) i).1.pos k = t.pos k)) ∧
        (po.movecount > p.movecount → po.better = none →
          (∃ q, (setbetterstep (t, c) i).1.pos i = some q ∧
            q.better = none ∧ q.setbetter = false) ∧
          (∃ q, (setbetterstep (t, c) i).1.pos o = some q ∧
            q.better = some i ∧ q.setbetter = false) ∧
          (∀ k, k ≠ i → k ≠ o →
            (setbetterstep (t, c) i).1.pos k = t.pos k)))) := by
  refine ⟨fun s => rfl, ?_, ?_⟩
  · intro s
    refine setbetterfields_clean _ ?_
    intro j q hq hin
    rw [setbetterfields_eq_foldl] at hq
    by_cases hj : j < s.positions.length
    · exact setbetterfold_flagfree (List.range s.positions.length)
        (s, 0) j (Or.inl (List.mem_range.mpr hj)) q hq hin
    · exfalso
      have hlen := setbetterfold_len (List.range s.positions.length)
        (s, 0)
      have hnone : ((List.range s.positions.length).foldl setbetterstep
          (s, 0)).1.pos j = none := by
        simp only [redo_session.pos]
        rw [List.getElem?_eq_none]
        rw [hlen]
        show s.positions.length ≤ j
        omega
      rw [hnone] at hq
      exact absurd hq (by simp)
  · intro t c i p hpos hin hsb
    have hflag : (p.inuse && p.setbetter) = true := by
      rw [hin, hsb]
      rfl
    constructor
    · intro hceq
      rw [setbetterstep_nolookup t c i p hpos hflag hceq]
      refine ⟨rfl, ?_, ?_⟩
      · have h1 : (modifypos t i (fun q =>
            { q with better := none })).pos i =
            some { p with better := none } :=
          pos_modifypos_self t i _ p hpos
        have h2 := pos_modifypos_self (modifypos t i (fun q =>
            { q with better := none })) i (fun q =>
            { q with setbetter := false }) _ h1
        exact ⟨_, h2, rfl, rfl⟩
      · intro k hk
        show (modifypos _ i _).pos k = t.pos k
        rw [pos_modifypos_ne _ i _ k hk, pos_modifypos_ne t i _ k hk]
    · intro o hceq hoi po hpo
      have hpo' : (modifypos t i (fun q =>
          { q with better := some o })).pos o = some po := by
        rw [pos_modifypos_ne t i _ o hoi]
        exact hpo
      refine ⟨?_, ?_, ?_⟩
      · by_cases hmc : po.movecount > p.movecount
        · by_cases hb : po.better = none
          · rw [setbetterstep_invert t c i p o po hpos hflag hceq hpo'
              hmc hb]
          · rw [setbetterstep_invert_keep t c i p o po hpos hflag hceq
              hpo' hmc hb]
        · rw [setbetterstep_shallow t c i p o po hpos hflag hceq hpo'
            hmc]
      · intro hmc
        rw [setbetterstep_shallow t c i p o po hpos hflag hceq hpo'
          hmc]
        refine ⟨?_, ?_⟩
        · have h1 : (modifypos t i (fun q =>
              { q with better := some o })).pos i =
              some { p with better := some o } :=
            pos_modifypos_self t i _ p hpos
          have h2 := pos_modifypos_self (modifypos t i (fun q =>
              { q with better := some o })) i (fun q =>
              { q with setbetter := false }) _ h1
          exact ⟨_, h2, rfl, rfl⟩
        · intro k hk
          show (modifypos _ i _).pos k = t.pos k
          rw [pos_modifypos_ne _ i _ k hk, pos_modifypos_ne t i _ k hk]
      · intro hmc hb
        rw [setbetterstep_invert t c i p o po hpos hflag hceq hpo'
          hmc hb]
        have h1 : (modifypos t i (fun q =>
            { q with better := some o })).pos i =
            some { p with better := some o } :=
          pos_modifypos_self t i _ p hpos
        have h2 := pos_modifypos_self (modifypos t i (fun q =>
            { q with better := some o })) i (fun q =>
            { q with better := none }) _ h1
        refine ⟨?_, ?_, ?_⟩
        · have h3 : (modifypos (modifypos (modifypos t i (fun q =>
              { q with better := some o })) i (fun q =>
              { q with better := none })) o (fun q =>
              { q with better := some i, setbetter := false })).pos i =
              some { { p with better := some o } with
                better := none } := by
            rw [pos_modifypos_ne _ o _ i (Ne.symm hoi)]
            exact h2
          have h4 := pos_modifypos_self _ i (fun q =>
            { q with setbetter := false }) _ h3
          exact ⟨_, h4, rfl, rfl⟩
        · have h3 : (modifypos (modifypos t i (fun q =>
              { q with better := some o })) i (fun q =>
              { q with better := none })).pos o = some po := by
            rw [pos_modifypos_ne _ i _ o hoi]
            exact hpo'
          have h4 := pos_modifypos_self _ o (fun q =>
            { q with better := some i, setbetter := false }) _ h3
          have h5 : (modifypos (modifypos (modifypos (modifypos t i
              (fun q => { q with better := some o })) i (fun q =>
              { q with better := none })) o (fun q =>
              { q with better := some i, setbetter := false })) i
              (fun q => { q with setbetter := false })).pos o =
              some { po with better := some i, setbetter := false } :=
            by
            rw [pos_modifypos_ne _ i _ o hoi]
            exact h4
          exact ⟨_, h5, rfl, rfl⟩
        · intro k hk hko
          show (modifypos _ i _).pos k = t.pos k
          rw [pos_modifypos_ne _ i _ k hk,
            pos_modifypos_ne _ o _ k hko,
            pos_modifypos_ne _ i _ k hk, pos_modifypos_ne t i _ k hk]

/-- A session with one deferred-better position: the root, a position
with state [1], and a second position with the same state added with
redo_checklater (so its setbetter flag is raised). -/
def c9sess : redo_session :=
  (redo_addposition (addNC base0 (some 0) 1 [1] 0) (some 0) 2 [1] 0
    redo_checklater).1

/-- The flagged record (slot 2) of the deferred-better session. -/
def c9p : redo_position :=
  (c9sess.pos 2).getD (freshposition base0 [0] 0)

/-- The equivalent record (slot 1) of the deferred-better session. -/
def c9o : redo_position :=
  (c9sess.pos 1).getD (freshposition base0 [0] 0)

set_option maxHeartbeats 2000000 in
/-- Witness for C9: on the deferred-better session a second pass after
the first is the identity returning 0, and the single counted step
resolves slot 2's better to the equal-depth equivalent slot 1 while
clearing the flag. -/
theorem C9_setbetterfields_witness :
    redo_setbetterfields (redo_setbetterfields c9sess).1 =
      ((redo_setbetterfields c9sess).1, 0) ∧
    (setbetterstep (c9sess, 0) 2).2 = 0 + 1 ∧
    (∃ q, (setbetterstep (c9sess, 0) 2).1.pos 2 = some q ∧
      q.better = some 1 ∧ q.setbetter = false) := by
  have h1 := C9_setbetterfields.2.1 c9sess
  have h2 := C9_setbetterfields.2.2 c9sess 0 2 c9p (by decide)
    (by decide) (by decide)
  have h3 := h2.2 1 (by decide) (by decide) c9o (by decide)
  exact ⟨h1, h3.1, (h3.2.1 (by decide)).1⟩

/-!
## A general characterization of the allocation core
-/

/-- The per-position fields untouched by insertmoveto. -/
def insSkel (p : redo_position) :
    Option Nat × Bool × Nat × Nat × Bool × Bool × Option Nat ×
      List Nat × Nat :=
  (p.prev, p.inuse, p.movecount, p.solutionsize, p.endpoint,
   p.setbetter, p.better, p.state, p.hashvalue)

theorem insSkel_eq_fields {q q' : redo_position}
    (h : insSkel q' = insSkel q) :
    q'.prev = q.prev ∧ q'.inuse = q.inuse ∧
    q'.movecount = q.movecount ∧ q'.solutionsize = q.solutionsize ∧
    q'.endpoint = q.endpoint ∧ q'.setbetter = q.setbetter ∧
    q'.better = q.better ∧ q'.state = q.state ∧
    q'.hashvalue = q.hashvalue := by
  unfold insSkel at h
  simp only [Prod.mk.injEq] at h
  exact ⟨h.1, h.2.1, h.2.2.1, h.2.2.2.1, h.2.2.2.2.1, h.2.2.2.2.2.1,
    h.2.2.2.2.2.2.1, h.2.2.2.2.2.2.2.1, h.2.2.2.2.2.2.2.2⟩

theorem insertmoveto_spec (s : redo_session) (fr tid : Nat) (mv : Int) :
    (∀ k, k ≠ fr → (insertmoveto s fr tid mv).pos k = s.pos k) ∧
    ((insertmoveto s fr tid mv).pos fr).map insSkel =
      (s.pos fr).map insSkel ∧
    (insertmoveto s fr tid mv).positions.length =
      s.positions.length ∧
    (insertmoveto s fr tid mv).cmpsize = s.cmpsize ∧
    (insertmoveto s fr tid mv).statesize = s.statesize ∧
    (insertmoveto s fr tid mv).grafting = s.grafting := by
  unfold insertmoveto
  cases hfr : s.pos fr with
  | none =>
      refine ⟨fun k _ => rfl, ?_, rfl, rfl, rfl, rfl⟩
      show (s.pos fr).map insSkel = Option.map insSkel none
      rw [hfr]
  | some p =>
      dsimp only
      cases hfb : findbranch mv p.next with
      | some b =>
          refine ⟨fun k _ => rfl, ?_, rfl, rfl, rfl, rfl⟩
          show (s.pos fr).map insSkel = Option.map insSkel (some p)
          rw [hfr]
      | none =>
          refine ⟨fun k hk => pos_modifypos_ne s fr _ k hk, ?_,
            modifypos_length s fr _, ?_, ?_, ?_⟩
          · rw [pos_modifypos_self s fr _ p hfr]
            rfl
          · unfold modifypos
            cases s.positions[fr]? <;> rfl
          · unfold modifypos
            cases s.positions[fr]? <;> rfl
          · unfold modifypos
            cases s.positions[fr]? <;> rfl

theorem map_insSkel_some {o : Option redo_position}
    {q0 : redo_position} (h : o.map insSkel = some (insSkel q0)) :
    ∃ q, o = some q ∧ insSkel q = insSkel q0 := by
  cases o with
  | none => simp at h
  | some q =>
      simp only [Option.map_some', Option.some.injEq] at h
      exact ⟨q, rfl, h⟩

/-- addposition_core with a live parent: allocation plus branch
insertion plus field initialisation, exposing the final endpoint walk.
The new record and the effect on every other slot are described. -/
theorem addposition_core_some_spec (s : redo_session) (pr : Nat)
    (mv : Int) (st : List Nat) (ep : Nat) (flag : Bool)
    (pp : redo_position) (hpr : s.pos pr = some pp)
    (hpplive : pp.inuse = true)
    (hfl : ∀ j ∈ s.freelist, j < s.positions.length)
    (hfldead : ∀ j ∈ s.freelist, ∀ q, s.pos j = some q →
      q.inuse = false) :
    ∃ s4 i,
      addposition_core s (some pr) mv st ep flag =
        ((if ep ≠ 0 then
            solwalk (s4.positions.length + 1) s4 (some pr)
              (pp.movecount + 1)
          else s4), i) ∧
      i ≠ pr ∧
      s4.pos i = some { freshposition s st ep with
        setbetter := flag, prev := some pr,
        movecount := pp.movecount + 1,
        solutionsize := if ep ≠ 0 then pp.movecount + 1 else 0 } ∧
      (∀ j, j ≠ i → j ≠ pr → s4.pos j = s.pos j) ∧
      (s4.pos pr).map insSkel = (s.pos pr).map insSkel ∧
      (s.pos i = none ∨ ∃ q, s.pos i = some q ∧ q.inuse = false) ∧
      s4.cmpsize = s.cmpsize ∧ s4.statesize = s.statesize ∧
      s.positions.length ≤ s4.positions.length ∧
      (∀ j, s4.positions.length ≤ j → s.pos j = none) ∧
      s4.grafting = s.grafting := by
  obtain ⟨alloc1, i, halloc, hi_fresh, halloc_ne, halloc_i, hlen1,
      hsess1, hge1⟩ :
      ∃ t i, getpositionstruct s st ep = (t, i) ∧
        (s.pos i = none ∨ ∃ q, s.pos i = some q ∧ q.inuse = false) ∧
        (∀ j, j ≠ i → t.pos j = s.pos j) ∧
        t.pos i = some (freshposition s st ep) ∧
        s.positions.length ≤ t.positions.length ∧
        (t.cmpsize = s.cmpsize ∧ t.statesize = s.statesize ∧
          t.grafting = s.grafting) ∧
        (∀ j, t.positions.length ≤ j → s.pos j = none) := by
    unfold getpositionstruct
    cases hflc : s.freelist with
    | nil =>
        refine ⟨_, _, rfl, ?_, ?_, ?_, ?_, ⟨rfl, rfl, rfl⟩, ?_⟩
        · left
          exact List.getElem?_eq_none (le_refl _)
        · intro j hj
          show (s.positions ++ [freshposition s st ep])[j]? =
            s.positions[j]?
          rcases Nat.lt_or_ge j s.positions.length with hlt | hge
          · rw [List.getElem?_append, if_pos hlt]
          · have h2 : (s.positions ++
                [freshposition s st ep]).length ≤ j := by
              simp only [List.length_append, List.length_cons,
                List.length_nil]
              omega
            rw [List.getElem?_eq_none h2, List.getElem?_eq_none hge]
        · show (s.positions ++ [freshposition s st ep])[
            s.positions.length]? = some (freshposition s st ep)
          exact List.getElem?_concat_length _ _
        · show s.positions.length ≤
            (s.positions ++ [freshposition s st ep]).length
          simp
        · intro j hj
          show s.positions[j]? = none
          refine List.getElem?_eq_none ?_
          simp only [List.length_append, List.length_cons,
            List.length_nil] at hj
          omega
    | cons w rest =>
        have hwmem : w ∈ s.freelist := by rw [hflc]; simp
        have hw : w < s.positions.length := hfl w hwmem
        refine ⟨_, _, rfl, ?_, ?_, ?_, ?_, ⟨rfl, rfl, rfl⟩, ?_⟩
        · cases hsw : s.pos w with
          | none => exact Or.inl rfl
          | some q => exact Or.inr ⟨q, rfl, hfldead w hwmem q hsw⟩
        · intro j hj
          show (s.positions.set w (freshposition s st ep))[j]? =
            s.positions[j]?
          exact List.getElem?_set_ne (Ne.symm hj)
        · show (s.positions.set w (freshposition s st ep))[w]? =
            some (freshposition s st ep)
          rw [List.getElem?_set_self']
          rw [List.getElem?_eq_getElem hw]
          rfl
        · show s.positions.length ≤
            (s.positions.set w (freshposition s st ep)).length
          simp
        · intro j hj
          show s.positions[j]? = none
          refine List.getElem?_eq_none ?_
          simpa using hj
  have hipr : i ≠ pr := by
    intro h
    subst h
    rcases hi_fresh with hn | ⟨q, hq, hqdead⟩
    · rw [hpr] at hn
      simp at hn
    · rw [hpr] at hq
      injection hq with he
      rw [← he, hpplive] at hqdead
      simp at hqdead
  have ha_pr : alloc1.pos pr = some pp := by
    rw [halloc_ne pr (Ne.symm hipr)]
    exact hpr
  obtain ⟨hins_ne, hins_pr, hins_len, hins_cmp, hins_stz, hins_gr⟩ :=
    insertmoveto_spec alloc1 pr i mv
  rw [ha_pr] at hins_pr
  simp only [Option.map_some'] at hins_pr
  obtain ⟨ppX, hppX, hppXsk⟩ := map_insSkel_some hins_pr
  have hmc : ppX.movecount = pp.movecount :=
    (insSkel_eq_fields hppXsk).2.2.1
  have hmcpos : (sethashentry (insertmoveto alloc1 pr i mv)
      (gethashvalue (st.take s.cmpsize))).pos pr = some ppX := hppX
  unfold addposition_core
  rw [halloc]
  dsimp only
  rw [hmcpos]
  dsimp only
  rw [hmc]
  refine ⟨_, i, rfl, hipr, ?_, ?_, ?_, hi_fresh, ?_, ?_, ?_, ?_, ?_⟩
  · have h1 : (sethashentry (insertmoveto alloc1 pr i mv)
        (gethashvalue (st.take s.cmpsize))).pos i =
        some (freshposition s st ep) := by
      show (insertmoveto alloc1 pr i mv).pos i = _
      rw [hins_ne i hipr]
      exact halloc_i
    rw [pos_modifypos_self _ i _ _ h1]
    rfl
  · intro j hj hjpr
    rw [pos_modifypos_ne _ i _ j hj]
    show (insertmoveto alloc1 pr i mv).pos j = s.pos j
    rw [hins_ne j hjpr]
    exact halloc_ne j hj
  · rw [pos_modifypos_ne _ i _ pr (Ne.symm hipr)]
    have h1 : (sethashentry (insertmoveto alloc1 pr i mv)
        (gethashvalue (st.take s.cmpsize))).pos pr = some ppX := hppX
    rw [h1, hpr]
    simp only [Option.map_some']
    rw [hppXsk]
  · show (modifypos (sethashentry (insertmoveto alloc1 pr i mv) _) i
      _).cmpsize = s.cmpsize
    have h1 : ∀ (t : redo_session) (k : Nat)
        (g : redo_position → redo_position),
        (modifypos t k g).cmpsize = t.cmpsize := by
      intro t k g
      unfold modifypos
      cases t.positions[k]? <;> rfl
    rw [h1]
    show (insertmoveto alloc1 pr i mv).cmpsize = s.cmpsize
    rw [hins_cmp, hsess1.1]
  · show (modifypos (sethashentry (insertmoveto alloc1 pr i mv) _) i
      _).statesize = s.statesize
    have h1 : ∀ (t : redo_session) (k : Nat)
        (g : redo_position → redo_position),
        (modifypos t k g).statesize = t.statesize := by
      intro t k g
      unfold modifypos
      cases t.positions[k]? <;> rfl
    rw [h1]
    show (insertmoveto alloc1 pr i mv).statesize = s.statesize
    rw [hins_stz, hsess1.2.1]
  · rw [modifypos_length]
    show s.positions.length ≤ (insertmoveto alloc1 pr i mv
      ).positions.length
    rw [hins_len]
    exact hlen1
  · intro j hj
    rw [modifypos_length] at hj
    refine hge1 j ?_
    show alloc1.positions.length ≤ j
    rw [← hins_len]
    exact hj
  · rw [modifypos_grafting]
    show (insertmoveto alloc1 pr i mv).grafting = s.grafting
    rw [hins_gr, hsess1.2.2]

/-!
## The better-pointer invariant
-/

/-- The per-position fields the better invariant reads. -/
def c3skel (p : redo_position) :
    Bool × Option Nat × List Nat × Nat :=
  (p.inuse, p.better, p.state, p.movecount)

theorem c3skel_eq_fields {q q' : redo_position}
    (h : c3skel q' = c3skel q) :
    q'.inuse = q.inuse ∧ q'.better = q.better ∧ q'.state = q.state ∧
    q'.movecount = q.movecount := by
  unfold c3skel at h
  simp only [Prod.mk.injEq] at h
  exact ⟨h.1, h.2.1, h.2.2.1, h.2.2.2⟩

theorem map_c3skel_some {o : Option redo_position}
    {q0 : redo_position} (h : o.map c3skel = some (c3skel q0)) :
    ∃ q, o = some q ∧ c3skel q = c3skel q0 := by
  cases o with
  | none => simp at h
  | some q =>
      simp only [Option.map_some', Option.some.injEq] at h
      exact ⟨q, rfl, h⟩

/-- Every live position's better pointer (if set) targets a live
position with the same comparing state bytes and a movecount that is
at most its own. -/
def betterInvB (s : redo_session) : Bool :=
  (List.range s.positions.length).all (fun j =>
    match s.pos j with
    | none => true
    | some p =>
        !p.inuse ||
        (match p.better with
         | none => true
         | some r =>
             match s.pos r with
             | none => false
             | some q => q.inuse &&
                 (q.state.take s.cmpsize == p.state.take s.cmpsize) &&
                 decide (q.movecount ≤ p.movecount)))

theorem betterInvB_iff (s : redo_session) : betterInvB s = true ↔
    ∀ j p, s.pos j = some p → p.inuse = true → ∀ r, p.better = some r →
      ∃ q, s.pos r = some q ∧ q.inuse = true ∧
        q.state.take s.cmpsize = p.state.take s.cmpsize ∧
        q.movecount ≤ p.movecount := by
  unfold betterInvB
  rw [List.all_eq_true]
  constructor
  · intro h j p hp hin r hr
    have hj := h j (List.mem_range.mpr (pos_some_lt hp))
    rw [hp] at hj
    simp only [hin, Bool.not_true, Bool.false_or] at hj
    rw [hr] at hj
    dsimp only at hj
    cases hq : s.pos r with
    | none => rw [hq] at hj; simp at hj
    | some q =>
        rw [hq] at hj
        simp only [Bool.and_eq_true, beq_iff_eq,
          decide_eq_true_eq] at hj
        exact ⟨q, rfl, hj.1.1, hj.1.2, hj.2⟩
  · intro h j _
    cases hp : s.pos j with
    | none => rfl
    | some p =>
        dsimp only
        cases hin : p.inuse with
        | false => rfl
        | true =>
            simp only [Bool.not_true, Bool.false_or]
            cases hr : p.better with
            | none => rfl
            | some r =>
                obtain ⟨q, hq, hqin, hqst, hqmc⟩ := h j p hp hin r hr
                dsimp only
                rw [hq]
                simp [hqin, hqst, hqmc]

/-- The better invariant only reads inuse, better, state, movecount
and cmpsize. -/
theorem betterInv_transfer (s s' : redo_session)
    (hc : s'.cmpsize = s.cmpsize)
    (hmap : ∀ j, (s'.pos j).map c3skel = (s.pos j).map c3skel)
    (h : betterInvB s = true) : betterInvB s' = true := by
  rw [betterInvB_iff] at h ⊢
  intro j p' hp' hin' r hr'
  have hj := hmap j
  rw [hp'] at hj
  simp only [Option.map_some'] at hj
  obtain ⟨p, hp, hpsk⟩ := map_c3skel_some hj.symm
  have hpf := c3skel_eq_fields hpsk
  obtain ⟨q, hq, hqin, hqst, hqmc⟩ := h j p hp
    (by rw [hpf.1]; exact hin') r (by rw [hpf.2.1]; exact hr')
  have hr := hmap r
  rw [hq] at hr
  simp only [Option.map_some'] at hr
  obtain ⟨q', hq', hqsk⟩ := map_c3skel_some hr
  have hqf := c3skel_eq_fields hqsk
  refine ⟨q', hq', by rw [hqf.1]; exact hqin, ?_, ?_⟩
  · rw [hc, hqf.2.2.1, ← hpf.2.2.1]
    exact hqst
  · rw [hqf.2.2.2, ← hpf.2.2.2]
    exact hqmc

theorem c3skel_modify (t : redo_session) (k : Nat)
    (g : redo_position → redo_position)
    (hg : ∀ q, c3skel (g q) = c3skel q) (m : Nat) :
    ((modifypos t k g).pos m).map c3skel = (t.pos m).map c3skel := by
  by_cases hm : m = k
  · subst hm
    cases ht : t.pos m with
    | none =>
        have heq : modifypos t m g = t := by
          unfold modifypos
          simp only [redo_session.pos] at ht
          rw [ht]
        rw [heq, ht]
    | some q =>
        rw [pos_modifypos_self t m g q ht]
        simp only [Option.map_some']
        exact congrArg some (hg q)
  · rw [pos_modifypos_ne t k g m hm]

theorem modifypos_cmpsize (s : redo_session) (i : Nat)
    (f : redo_position → redo_position) :
    (modifypos s i f).cmpsize = s.cmpsize := by
  unfold modifypos
  cases s.positions[i]? <;> rfl

theorem modifypos_statesize (s : redo_session) (i : Nat)
    (f : redo_position → redo_position) :
    (modifypos s i f).statesize = s.statesize := by
  unfold modifypos
  cases s.positions[i]? <;> rfl

theorem getnext_c3map (s : redo_session) (i : Nat) (mv : Int) :
    (∀ k, ((redo_getnextposition s i mv).1.pos k).map c3skel =
      (s.pos k).map c3skel) ∧
    (redo_getnextposition s i mv).1.cmpsize = s.cmpsize := by
  unfold redo_getnextposition
  cases hp : s.pos i with
  | none => exact ⟨fun k => rfl, rfl⟩
  | some p =>
      dsimp only
      cases hnx : p.next with
      | nil => exact ⟨fun k => rfl, rfl⟩
      | cons b rest =>
          dsimp only
          by_cases hb : b.move = mv
          · rw [if_pos hb]
            exact ⟨fun k => rfl, rfl⟩
          · rw [if_neg hb]
            cases hfb : findbranch mv rest with
            | none => exact ⟨fun k => rfl, rfl⟩
            | some c =>
                dsimp only
                refine ⟨fun k => c3skel_modify s i
                  (fun q =>
                    { q with next := c :: b :: removebranchmove mv rest })
                  (fun q => rfl) k, ?_⟩
                exact modifypos_cmpsize s i _

theorem solwalk_cmpsize (f : Nat) (s : redo_session) (o : Option Nat)
    (n : Nat) : (solwalk f s o n).cmpsize = s.cmpsize := by
  induction f generalizing s o with
  | zero => cases o <;> rfl
  | succ f ih =>
      cases o with
      | none => rw [solwalk_none]
      | some j =>
          cases hp : s.pos j with
          | none => rw [solwalk_dead f s j n hp]
          | some p =>
              rw [solwalk_some f s j n p hp]
              by_cases hc : p.solutionsize ≠ 0 ∧ p.solutionsize ≤ n
              · rw [if_pos hc]
              · rw [if_neg hc]
                rw [ih]
                exact modifypos_cmpsize s j _

/-- Following a better chain under the invariant keeps liveness, the
comparing bytes, and never increases movecount. -/
theorem followbetter_keep (f : Nat) (s : redo_session)
    (hbet : ∀ j p, s.pos j = some p → p.inuse = true →
      ∀ r, p.better = some r →
        ∃ q, s.pos r = some q ∧ q.inuse = true ∧
          q.state.take s.cmpsize = p.state.take s.cmpsize ∧
          q.movecount ≤ p.movecount)
    (i : Nat) (q : redo_position) (hi : s.pos i = some q)
    (hq : q.inuse = true) :
    ∃ q', s.pos (followbetter f s i) = some q' ∧ q'.inuse = true ∧
      q'.state.take s.cmpsize = q.state.take s.cmpsize ∧
      q'.movecount ≤ q.movecount := by
  induction f generalizing i q with
  | zero => exact ⟨q, hi, hq, rfl, le_refl _⟩
  | succ f ih =>
      rw [followbetter_some f s i q hi]
      cases hb : q.better with
      | none => exact ⟨q, hi, hq, rfl, le_refl _⟩
      | some b =>
          obtain ⟨q1, hb1, hq1, hst1, hmc1⟩ := hbet i q hi hq b hb
          obtain ⟨q', h1, h2, h3, h4⟩ := ih b q1 hb1 hq1
          exact ⟨q', h1, h2, h3.trans hst1, h4.trans hmc1⟩

/-- A successful equivalence lookup under the invariant returns a live
position whose comparing bytes equal the queried state's. -/
theorem checkforequiv_spec (s : redo_session) (st : List Nat)
    (hbet : ∀ j p, s.pos j = some p → p.inuse = true →
      ∀ r, p.better = some r →
        ∃ q, s.pos r = some q ∧ q.inuse = true ∧
          q.state.take s.cmpsize = p.state.take s.cmpsize ∧
          q.movecount ≤ p.movecount)
    (e : Nat) (he : checkforequiv s st = some e) :
    ∃ q, s.pos e = some q ∧ q.inuse = true ∧
      q.state.take s.cmpsize = st.take s.cmpsize := by
  unfold checkforequiv at he
  by_cases hnit : notintable s (gethashvalue (st.take s.cmpsize)) = true
  · rw [if_pos hnit] at he
    exact absurd he (by simp)
  · rw [if_neg hnit] at he
    cases hfind : (List.range s.positions.length).find? (fun i =>
        match s.pos i with
        | some p =>
            p.inuse && ! p.setbetter &&
              p.hashvalue == gethashvalue (st.take s.cmpsize) &&
              comparestatedata s p st
        | none => false) with
    | none => rw [hfind] at he; exact absurd he (by simp)
    | some m =>
        rw [hfind] at he
        have hpred := List.find?_some hfind
        cases hp : s.pos m with
        | none => rw [hp] at hpred; simp at hpred
        | some p =>
            rw [hp] at hpred
            simp only [Bool.and_eq_true] at hpred
            have hiu : p.inuse = true := hpred.1.1.1
            have hcmp : comparestatedata s p st = true := hpred.2
            unfold comparestatedata at hcmp
            rw [beq_iff_eq] at hcmp
            have he' : e = followbetter (s.positions.length + 1) s m :=
              (Option.some.inj he).symm
            rw [he']
            obtain ⟨q', h1, h2, h3, _⟩ :=
              followbetter_keep _ s hbet m p hp hiu
            exact ⟨q', h1, h2, h3.trans hcmp⟩

theorem c3skel_of_solskel {q q' : redo_position}
    (h : solskel q' = solskel q) : c3skel q' = c3skel q := by
  unfold solskel at h
  simp only [Prod.mk.injEq] at h
  unfold c3skel
  rw [h.2.2.1, h.2.2.2.2.2.2.2.1, h.2.2.2.2.2.2.2.2.1,
    h.2.2.2.2.2.2.2.2.2]

theorem c3skel_of_insSkel {q q' : redo_position}
    (h : insSkel q' = insSkel q) : c3skel q' = c3skel q := by
  have hf := insSkel_eq_fields h
  unfold c3skel
  rw [hf.2.1, hf.2.2.1, hf.2.2.2.2.2.2.1, hf.2.2.2.2.2.2.2.1]

theorem map_c3_of_solskel {o o' : Option redo_position}
    (h : o'.map solskel = o.map solskel) :
    o'.map c3skel = o.map c3skel := by
  cases o with
  | none =>
      cases o' with
      | none => rfl
      | some q => simp at h
  | some q =>
      cases o' with
      | none => simp at h
      | some q' =>
          simp only [Option.map_some', Option.some.injEq] at h ⊢
          exact c3skel_of_solskel h

theorem map_c3_of_insSkel {o o' : Option redo_position}
    (h : o'.map insSkel = o.map insSkel) :
    o'.map c3skel = o.map c3skel := by
  cases o with
  | none =>
      cases o' with
      | none => rfl
      | some q => simp at h
  | some q =>
      cases o' with
      | none => simp at h
      | some q' =>
          simp only [Option.map_some', Option.some.injEq] at h ⊢
          exact c3skel_of_insSkel h

theorem SolOnly_c3map {a b : redo_session} (h : SolOnly a b)
    (j : Nat) : (b.pos j).map c3skel = (a.pos j).map c3skel :=
  map_c3_of_solskel (h.2 j)

theorem SolOnly_grafting {a b : redo_session} (h : SolOnly a b) :
    b.grafting = a.grafting := by
  have h1 := h.1
  unfold sessSkel at h1
  simp only [Prod.mk.injEq] at h1
  exact h1.2.2.2.1

/-- The better invariant transfers across a session change that keeps
every slot's relevant fields except one freshly initialised slot whose
better pointer is clear, provided that the slot was dead before. -/
theorem betterInv_transfer_except (s s' : redo_session) (i : Nat)
    (hc : s'.cmpsize = s.cmpsize)
    (hmap : ∀ j, j ≠ i →
      (s'.pos j).map c3skel = (s.pos j).map c3skel)
    (hdead : s.pos i = none ∨ ∃ q, s.pos i = some q ∧ q.inuse = false)
    (hnew : ∀ p', s'.pos i = some p' → p'.better = none)
    (h : betterInvB s = true) : betterInvB s' = true := by
  rw [betterInvB_iff] at h ⊢
  intro j p' hp' hin' r hr'
  by_cases hji : j = i
  · subst hji
    rw [hnew p' hp'] at hr'
    exact absurd hr' (by simp)
  · have hj := hmap j hji
    rw [hp'] at hj
    simp only [Option.map_some'] at hj
    obtain ⟨p, hp, hpsk⟩ := map_c3skel_some hj.symm
    have hpf := c3skel_eq_fields hpsk
    obtain ⟨q, hq, hqin, hqst, hqmc⟩ := h j p hp
      (by rw [hpf.1]; exact hin') r (by rw [hpf.2.1]; exact hr')
    have hri : r ≠ i := by
      intro hri
      subst hri
      rcases hdead with hd | ⟨q0, hq0, hq0d⟩
      · rw [hd] at hq; exact absurd hq (by simp)
      · rw [hq0] at hq
        rw [Option.some.inj hq] at hq0d
        rw [hqin] at hq0d
        exact absurd hq0d (by simp)
    have hr := hmap r hri
    rw [hq] at hr
    simp only [Option.map_some'] at hr
    obtain ⟨q', hq', hqsk⟩ := map_c3skel_some hr
    have hqf := c3skel_eq_fields hqsk
    refine ⟨q', hq', by rw [hqf.1]; exact hqin, ?_, ?_⟩
    · rw [hc, hqf.2.2.1, ← hpf.2.2.1]
      exact hqst
    · rw [hqf.2.2.2, ← hpf.2.2.2]
      exact hqmc

/-- Setting one better pointer keeps the invariant when the target is
live, distinct, prefix-equal and at most as deep. -/
theorem betterInv_setbetter (s1 : redo_session) (a b : Nat)
    (pa pb : redo_position)
    (hb1 : betterInvB s1 = true)
    (hpa : s1.pos a = some pa) (hpb : s1.pos b = some pb)
    (hbin : pb.inuse = true)
    (hne : b ≠ a)
    (hst : pb.state.take s1.cmpsize = pa.state.take s1.cmpsize)
    (hmc : pb.movecount ≤ pa.movecount) :
    betterInvB (modifypos s1 a
      (fun q => { q with better := some b })) = true := by
  rw [betterInvB_iff] at hb1 ⊢
  intro j p' hp' hin' r hr'
  by_cases hja : j = a
  · subst hja
    rw [pos_modifypos_self s1 j
      (fun q => { q with better := some b }) pa hpa] at hp'
    have hp2 := (Option.some.inj hp').symm
    subst hp2
    have hrb : r = b := by
      have h0 : some b = some r := hr'
      exact (Option.some.inj h0).symm
    rw [hrb]
    refine ⟨pb, ?_, hbin, ?_, ?_⟩
    · rw [pos_modifypos_ne s1 j
        (fun q => { q with better := some b }) b hne]
      exact hpb
    · rw [modifypos_cmpsize]
      exact hst
    · exact hmc
  · rw [pos_modifypos_ne s1 a
      (fun q => { q with better := some b }) j hja] at hp'
    obtain ⟨q, hq, hqin, hqst, hqmc⟩ := hb1 j p' hp' hin' r hr'
    by_cases hra : r = a
    · have hqpa : q = pa := by
        rw [hra, hpa] at hq
        exact (Option.some.inj hq).symm
      rw [hqpa] at hqin hqst hqmc
      rw [hra]
      refine ⟨{ pa with better := some b }, ?_, hqin, ?_, hqmc⟩
      · exact pos_modifypos_self s1 a
          (fun q => { q with better := some b }) pa hpa
      · rw [modifypos_cmpsize]
        exact hqst
    · refine ⟨q, ?_, hqin, ?_, hqmc⟩
      · rw [pos_modifypos_ne s1 a
          (fun q => { q with better := some b }) r hra]
        exact hq
      · rw [modifypos_cmpsize]
        exact hqst

theorem betterInvB_changeflag (t : redo_session) :
    betterInvB { t with changeflag := true } = betterInvB t := rfl

/-- Adding the state [1] below the root twice, the second time with
equivalence checking: the second copy's better pointer lands on the
first with equal movecounts. -/
def c3eq : redo_session :=
  (redo_addposition (addNC base0 (some 0) 1 [1] 0) (some 0) 2 [1] 0
    redo_check).1

/-- A chain root → [1] → [2], a side position whose better points at
the chain's [1], then a cycle suppression that prunes the chain: the
side position's better pointer now dangles at a freed slot. -/
def c3d : redo_session :=
  (redo_suppresscycle
    (redo_addposition (addNC (addNC base0 (some 0) 1 [1] 0)
      (some 1) 2 [2] 0) (some 0) 3 [1] 0 redo_check).1
    2 [0] 10).1

theorem addposition_core_none_sizes (s : redo_session) (mv : Int)
    (st : List Nat) (ep : Nat) (flag : Bool) :
    (addposition_core s none mv st ep flag).1.cmpsize = s.cmpsize ∧
    (addposition_core s none mv st ep flag).1.statesize =
      s.statesize := by
  unfold addposition_core getpositionstruct
  cases s.freelist with
  | nil =>
      dsimp only
      simp only [solwalk_none, ite_self]
      exact ⟨(modifypos_cmpsize _ _ _).trans rfl,
        (modifypos_statesize _ _ _).trans rfl⟩
  | cons w rest =>
      dsimp only
      simp only [solwalk_none, ite_self]
      exact ⟨(modifypos_cmpsize _ _ _).trans rfl,
        (modifypos_statesize _ _ _).trans rfl⟩

/-- Two counterexamples to the claimed strict invariant: a better
pointer installed between equal-movecount equivalents, and a better
pointer left dangling at a freed slot after cycle pruning. -/
theorem C3_better_equal_and_dangling :
    ((c3eq.pos 2).map (fun p => (p.inuse, p.better, p.movecount)) =
        some (true, some 1, 1) ∧
      (c3eq.pos 1).map (fun p => p.movecount) = some 1) ∧
    ((c3d.pos 3).map (fun p => (p.inuse, p.better)) =
        some (true, some 1) ∧
      (c3d.pos 1).map (fun p => p.inuse) = some false) := by
  decide

set_option maxHeartbeats 1000000 in
/-- C3 (amended): the weakened better-pointer invariant — every live
position's better target is live, agrees on the first cmpsize state
bytes, and has movecount at most (not strictly less than) the
position's own — is preserved by redo_addposition in redo_nograft
mode (given a live parent, a sound free list and cmpsize ≤ statesize)
and by redo_getnextposition; equality of movecounts does occur, and
pruning can break even the weakened invariant. -/
theorem C3_better_invariant :
    (∀ (s : redo_session) (prev : Option Nat) (mv : Int)
        (st : List Nat) (ep mode : Nat),
      betterInvB s = true →
      s.grafting = redo_nograft →
      s.cmpsize ≤ s.statesize →
      (∀ j ∈ s.freelist, j < s.positions.length) →
      (∀ j ∈ s.freelist, ∀ q, s.pos j = some q → q.inuse = false) →
      (∀ pr, prev = some pr →
        ∃ pp, s.pos pr = some pp ∧ pp.inuse = true) →
      betterInvB (redo_addposition s prev mv st ep mode).1 = true) ∧
    (∀ (s : redo_session) (i : Nat) (mv : Int),
      betterInvB s = true →
      betterInvB (redo_getnextposition s i mv).1 = true) := by
  constructor
  · intro s prev mv st ep mode hbet hg hcs hfl hfldead hprev
    unfold redo_addposition
    cases prev with
    | none =>
        dsimp only
        obtain ⟨hrec, hcount, hroot, hgraft, hframe, hdead0⟩ :=
          addposition_core_none s mv st ep
            (decide (mode = redo_checklater)) hfl
        have hdead : s.pos (addposition_core s none mv st ep
              (decide (mode = redo_checklater))).2 = none ∨
            ∃ q, s.pos (addposition_core s none mv st ep
              (decide (mode = redo_checklater))).2 = some q ∧
              q.inuse = false := by
          rcases hdead0 with h | h
          · exact Or.inl h
          · cases hq : s.pos (addposition_core s none mv st ep
                (decide (mode = redo_checklater))).2 with
            | none => exact Or.inl rfl
            | some q => exact Or.inr ⟨q, rfl, hfldead _ h q hq⟩
        have hb1 : betterInvB (addposition_core s none mv st ep
            (decide (mode = redo_checklater))).1 = true := by
          refine betterInv_transfer_except s _
            ((addposition_core s none mv st ep
              (decide (mode = redo_checklater))).2)
            (addposition_core_none_sizes s mv st ep _).1 ?_ hdead ?_
            hbet
          · intro j hj
            rw [hframe j hj]
          · intro p' hp'
            rw [hrec] at hp'
            rw [← Option.some.inj hp']
            rfl
        by_cases hck : mode = redo_check ∧ ep = 0
        · rw [if_pos hck]
          cases hcfe : checkforequiv s st with
          | none =>
              dsimp only
              rw [betterInvB_changeflag]
              exact hb1
          | some e =>
              dsimp only
              have hbetP := (betterInvB_iff s).mp hbet
              obtain ⟨qe, hqe, hqein, hqest⟩ :=
                checkforequiv_spec s st hbetP e hcfe
              have hei : e ≠ (addposition_core s none mv st ep
                  (decide (mode = redo_checklater))).2 := by
                intro heq
                rcases hdead with hd | ⟨q0, h0, h0d⟩
                · rw [heq, hd] at hqe
                  exact absurd hqe (by simp)
                · rw [heq, h0] at hqe
                  rw [Option.some.inj hqe] at h0d
                  rw [hqein] at h0d
                  exact absurd h0d (by simp)
              have hs1e : (addposition_core s none mv st ep
                  (decide (mode = redo_checklater))).1.pos e =
                  some qe := by
                rw [hframe e hei]
                exact hqe
              rw [hrec, hs1e]
              dsimp only
              split
              next hge =>
                rw [betterInvB_changeflag]
                refine betterInv_setbetter _ _ e _ qe hb1 hrec hs1e
                  hqein hei ?_ hge
                rw [(addposition_core_none_sizes s mv st ep _).1]
                show List.take s.cmpsize qe.state =
                  List.take s.cmpsize (List.take s.statesize st)
                rw [List.take_take, Nat.min_eq_left hcs]
                exact hqest
              next hge =>
                split
                next hcp =>
                  rw [modifypos_grafting, hgraft, hg] at hcp
                  exact absurd hcp (by decide)
                next hcp =>
                  split
                  next hng =>
                    rw [modifypos_grafting, hgraft, hg] at hng
                    exact absurd rfl hng
                  next hng =>
                    rw [betterInvB_changeflag]
                    refine betterInv_setbetter _ e _ qe _ hb1 hs1e
                      hrec ?_ (Ne.symm hei) ?_ ?_
                    · rfl
                    · rw [(addposition_core_none_sizes s mv st ep _).1]
                      show List.take s.cmpsize
                          (List.take s.statesize st) =
                        List.take s.cmpsize qe.state
                      rw [List.take_take, Nat.min_eq_left hcs]
                      exact hqest.symm
                    · exact le_of_lt (lt_of_not_ge hge)
        · rw [if_neg hck]
          dsimp only
          rw [betterInvB_changeflag]
          exact hb1
    | some pr =>
        dsimp only
        cases hE : (redo_getnextposition s pr mv).2 with
        | some t =>
            dsimp only
            obtain ⟨hm, hc⟩ := getnext_c3map s pr mv
            exact betterInv_transfer s _ hc hm hbet
        | none =>
            dsimp only
            obtain ⟨pp, hpr, hpplive⟩ := hprev pr rfl
            obtain ⟨s4, i, hcoreq, hipr, hrec4, hframe4, hinspr,
              hdead4, hc4, hst4, hlen4, htail4, hgr4⟩ :=
              addposition_core_some_spec s pr mv st ep
                (decide (mode = redo_checklater)) pp hpr hpplive hfl
                hfldead
            rw [hcoreq]
            dsimp only
            obtain ⟨s1, hs1⟩ : ∃ t2 : redo_session,
                t2 = (if ep ≠ 0 then
                  solwalk (s4.positions.length + 1) s4 (some pr)
                    (pp.movecount + 1) else s4) := ⟨_, rfl⟩
            rw [← hs1]
            have hSol : SolOnly s4 s1 := by
              by_cases hep : ep ≠ 0
              · rw [hs1, if_pos hep]
                exact solwalk_SolOnly _ _ _ _
              · rw [hs1, if_neg hep]
                exact SolOnly.refl _
            have hc1 : s1.cmpsize = s.cmpsize := by
              by_cases hep : ep ≠ 0
              · rw [hs1, if_pos hep, solwalk_cmpsize]
                exact hc4
              · rw [hs1, if_neg hep]
                exact hc4
            have hmap1 : ∀ j, j ≠ i →
                (s1.pos j).map c3skel = (s.pos j).map c3skel := by
              intro j hj
              have h1 := SolOnly_c3map hSol j
              by_cases hjpr : j = pr
              · rw [hjpr] at h1 ⊢
                exact h1.trans (map_c3_of_insSkel hinspr)
              · rw [hframe4 j hj hjpr] at h1
                exact h1
            obtain ⟨pi, hpi, hsol⟩ := SolOnly_pos_some hSol i _ hrec4
            have hpif := c3skel_eq_fields (c3skel_of_solskel hsol)
            have hb1 : betterInvB s1 = true := by
              refine betterInv_transfer_except s s1 i hc1 hmap1 hdead4
                ?_ hbet
              intro p' hp'
              rw [hpi] at hp'
              rw [← Option.some.inj hp']
              rw [hpif.2.1]
              rfl
            by_cases hck : mode = redo_check ∧ ep = 0
            · rw [if_pos hck]
              cases hcfe : checkforequiv s st with
              | none =>
                  dsimp only
                  rw [betterInvB_changeflag]
                  exact hb1
              | some e =>
                  dsimp only
                  have hbetP := (betterInvB_iff s).mp hbet
                  obtain ⟨qe, hqe, hqein, hqest⟩ :=
                    checkforequiv_spec s st hbetP e hcfe
                  have hei : e ≠ i := by
                    intro heq
                    rcases hdead4 with hd | ⟨q0, h0, h0d⟩
                    · rw [heq, hd] at hqe
                      exact absurd hqe (by simp)
                    · rw [heq, h0] at hqe
                      rw [Option.some.inj hqe] at h0d
                      rw [hqein] at h0d
                      exact absurd h0d (by simp)
                  obtain ⟨pe, hpe, hpesk⟩ := map_c3skel_some (by
                    have h1 := hmap1 e hei
                    rw [hqe] at h1
                    simp only [Option.map_some'] at h1
                    exact h1)
                  have hpef := c3skel_eq_fields hpesk
                  have hist : List.take s1.cmpsize pi.state =
                      List.take s.cmpsize st := by
                    rw [hpif.2.2.1]
                    show List.take s1.cmpsize
                      (List.take s.statesize st) = _
                    rw [hc1, List.take_take, Nat.min_eq_left hcs]
                  have hest : List.take s1.cmpsize pe.state =
                      List.take s.cmpsize st := by
                    rw [hpef.2.2.1, hc1]
                    exact hqest
                  have hpein : pe.inuse = true := by
                    rw [hpef.1]
                    exact hqein
                  rw [hpi, hpe]
                  dsimp only
                  split
                  next hge =>
                    rw [betterInvB_changeflag]
                    exact betterInv_setbetter s1 i e pi pe hb1 hpi hpe
                      hpein hei (hest.trans hist.symm) hge
                  next hge =>
                    split
                    next hcp =>
                      rw [modifypos_grafting,
                        SolOnly_grafting hSol, hgr4, hg] at hcp
                      exact absurd hcp (by decide)
                    next hcp =>
                      split
                      next hng =>
                        rw [modifypos_grafting,
                          SolOnly_grafting hSol, hgr4, hg] at hng
                        exact absurd rfl hng
                      next hng =>
                        rw [betterInvB_changeflag]
                        have hiin : pi.inuse = true := by
                          rw [hpif.1]
                          rfl
                        exact betterInv_setbetter s1 e i pe pi hb1
                          hpe hpi hiin (Ne.symm hei)
                          (hist.trans hest.symm)
                          (le_of_lt (lt_of_not_ge hge))
            · rw [if_neg hck]
              dsimp only
              rw [betterInvB_changeflag]
              exact hb1
  · intro s i mv hbet
    obtain ⟨hm, hc⟩ := getnext_c3map s i mv
    exact betterInv_transfer s _ hc hm hbet

theorem C3_better_invariant_witness :
    betterInvB (redo_addposition
      (redo_setgraftbehavior base0 redo_nograft).1
      (some 0) 1 [1] 0 redo_check).1 = true :=
  C3_better_invariant.1 (redo_setgraftbehavior base0 redo_nograft).1
    (some 0) 1 [1] 0 redo_check
    (by decide) (by decide) (by decide)
    (fun j hj => absurd (show j ∈ ([] : List Nat) from hj)
      (List.not_mem_nil j))
    (fun j hj => absurd (show j ∈ ([] : List Nat) from hj)
      (List.not_mem_nil j))
    (fun pr hpr => by
      cases Option.some.inj hpr
      exact ⟨_, rfl, by decide⟩)

/-!
## The solution-size invariant
-/

/-- The per-position fields the solution-size invariant reads. -/
def c2skel (p : redo_position) :
    Bool × Option Nat × Bool × Nat × Nat :=
  (p.inuse, p.prev, p.endpoint, p.movecount, p.solutionsize)

theorem c2skel_eq_fields {q q' : redo_position}
    (h : c2skel q' = c2skel q) :
    q'.inuse = q.inuse ∧ q'.prev = q.prev ∧ q'.endpoint = q.endpoint ∧
    q'.movecount = q.movecount ∧ q'.solutionsize = q.solutionsize := by
  unfold c2skel at h
  simp only [Prod.mk.injEq] at h
  exact ⟨h.1, h.2.1, h.2.2.1, h.2.2.2.1, h.2.2.2.2⟩

theorem map_c2skel_some {o : Option redo_position}
    {q0 : redo_position} (h : o.map c2skel = some (c2skel q0)) :
    ∃ q, o = some q ∧ c2skel q = c2skel q0 := by
  cases o with
  | none => simp at h
  | some q =>
      simp only [Option.map_some', Option.some.injEq] at h
      exact ⟨q, rfl, h⟩

/-- The full ancestor chain of a position: the fuel is always enough
in a well-formed session. -/
def chainof (s : redo_session) (a : Nat) : List Nat :=
  prevchain (s.positions.length + 1) s (some a)

/-- The endpoint descendants of position P: every live endpoint
position whose ancestor chain passes through P (P itself included when
P is a live endpoint). -/
def desclist (s : redo_session) (P : Nat) : List Nat :=
  (List.range s.positions.length).filter (fun D =>
    match s.pos D with
    | some q => q.inuse && q.endpoint && (chainof s D).contains P
    | none => false)

/-- Amended invariant I6: a live position's solutionsize is the
minimum movecount over its endpoint descendants, and zero exactly when
it has none. -/
def solInvB (s : redo_session) : Bool :=
  (List.range s.positions.length).all (fun P =>
    match s.pos P with
    | none => true
    | some p =>
        !p.inuse ||
        (if desclist s P = [] then p.solutionsize == 0
         else
           (desclist s P).any (fun D => match s.pos D with
             | some q => q.movecount == p.solutionsize
             | none => false) &&
           (desclist s P).all (fun D => match s.pos D with
             | some q => decide (p.solutionsize ≤ q.movecount)
             | none => true)))

/-- Session well-formedness needed for the solution accounting: a
duplicate-free free list of dead in-range slots, live prev links to
live positions, endpoints at positive depth, and duplicate-free
ancestor chains. -/
def c2wfB (s : redo_session) : Bool :=
  decide s.freelist.Nodup &&
  s.freelist.all (fun j => decide (j < s.positions.length) &&
    (match s.pos j with
     | some q => !q.inuse
     | none => true)) &&
  (List.range s.positions.length).all (fun j =>
    match s.pos j with
    | none => true
    | some p =>
        !p.inuse ||
        ((match p.prev with
          | none => true
          | some r =>
              match s.pos r with
              | some q => q.inuse
              | none => false) &&
         (!p.endpoint || decide (0 < p.movecount)) &&
         decide (chainof s j).Nodup))

/-- More fuel does not change a chain that terminated within its
fuel. -/
theorem prevchain_stable (s : redo_session) :
    ∀ (f : Nat) (o : Option Nat), (prevchain f s o).length < f →
      ∀ g, f ≤ g → prevchain g s o = prevchain f s o := by
  intro f
  induction f with
  | zero =>
      intro o h
      exact absurd h (by omega)
  | succ f ih =>
      intro o h g hg
      obtain ⟨g', rfl⟩ : ∃ g', g = g' + 1 := ⟨g - 1, by omega⟩
      cases o with
      | none => rw [prevchain_none, prevchain_none]
      | some j =>
          cases hp : s.pos j with
          | none =>
              rw [prevchain_dead _ _ _ hp, prevchain_dead _ _ _ hp]
          | some p =>
              rw [prevchain_some f s j p hp] at h
              rw [prevchain_some f s j p hp,
                prevchain_some g' s j p hp]
              simp only [List.length_cons] at h
              rw [ih p.prev (by omega) g' (by omega)]

theorem prevchain_mem_pos (s : redo_session) :
    ∀ (f : Nat) (o : Option Nat) (a : Nat), a ∈ prevchain f s o →
      ∃ q, s.pos a = some q := by
  intro f
  induction f with
  | zero =>
      intro o a h
      rw [prevchain_zero] at h
      exact absurd h (List.not_mem_nil a)
  | succ f ih =>
      intro o a h
      cases o with
      | none =>
          rw [prevchain_none] at h
          exact absurd h (List.not_mem_nil a)
      | some j =>
          cases hp : s.pos j with
          | none =>
              rw [prevchain_dead f s j hp] at h
              exact absurd h (List.not_mem_nil a)
          | some p =>
              rw [prevchain_some f s j p hp] at h
              rcases List.mem_cons.mp h with h1 | h2
              · exact ⟨p, h1 ▸ hp⟩
              · exact ih p.prev a h2

theorem prevchain_drop (s : redo_session) :
    ∀ (f n : Nat) (o : Option Nat) (a : Nat),
      (prevchain f s o)[n]? = some a →
      (prevchain f s o).drop n = prevchain (f - n) s (some a) := by
  intro f
  induction f with
  | zero =>
      intro n o a h
      rw [prevchain_zero] at h
      simp at h
  | succ f ih =>
      intro n o a h
      cases o with
      | none =>
          rw [prevchain_none] at h
          simp at h
      | some j =>
          cases hp : s.pos j with
          | none =>
              rw [prevchain_dead f s j hp] at h
              simp at h
          | some p =>
              rw [prevchain_some f s j p hp] at h
              rw [prevchain_some f s j p hp]
              cases n with
              | zero =>
                  simp only [List.getElem?_cons_zero,
                    Option.some.injEq] at h
                  rw [← h]
                  rw [List.drop_zero, Nat.sub_zero]
                  exact (prevchain_some f s j p hp).symm
              | succ n =>
                  simp only [List.getElem?_cons_succ] at h
                  rw [List.drop_succ_cons, Nat.succ_sub_succ]
                  exact ih n p.prev a h

theorem nodup_lt_bound (l : List Nat) (n : Nat) (hn : l.Nodup)
    (hlt : ∀ x ∈ l, x < n) : l.length ≤ n := by
  have h1 : l.toFinset.card = l.length := List.toFinset_card_of_nodup hn
  have h2 : l.toFinset ⊆ Finset.range n := by
    intro x hx
    rw [List.mem_toFinset] at hx
    exact Finset.mem_range.mpr (hlt x hx)
  have h3 := Finset.card_le_card h2
  rw [h1, Finset.card_range] at h3
  exact h3

theorem nodup_lt_bound_erase (l : List Nat) (n i : Nat)
    (hn : l.Nodup) (hlt : ∀ x ∈ l, x < n) (hi : i < n)
    (hni : i ∉ l) : l.length < n := by
  have h1 : l.toFinset.card = l.length := List.toFinset_card_of_nodup hn
  have h2 : l.toFinset ⊆ (Finset.range n).erase i := by
    intro x hx
    rw [List.mem_toFinset] at hx
    exact Finset.mem_erase.mpr
      ⟨fun he => hni (he ▸ hx), Finset.mem_range.mpr (hlt x hx)⟩
  have h3 := Finset.card_le_card h2
  rw [h1, Finset.card_erase_of_mem
    (Finset.mem_range.mpr hi), Finset.card_range] at h3
  omega

theorem chainof_mem_lt (s : redo_session) (a b : Nat)
    (hb : b ∈ chainof s a) : b < s.positions.length := by
  obtain ⟨q, hq⟩ := prevchain_mem_pos s _ _ b hb
  exact pos_some_lt hq

/-- The ancestor chain from any member of a bounded chain is the
corresponding suffix. -/
theorem chainof_mem_drop (s : redo_session) (a b : Nat) (n : Nat)
    (hlen : (chainof s a).length < s.positions.length + 1)
    (hb : (chainof s a)[n]? = some b) :
    chainof s b = (chainof s a).drop n := by
  have hd := prevchain_drop s (s.positions.length + 1) n (some a) b hb
  have hnl : n < (chainof s a).length := by
    by_contra hge
    rw [List.getElem?_eq_none (by omega)] at hb
    simp at hb
  have hl : (prevchain (s.positions.length + 1 - n) s
      (some b)).length < s.positions.length + 1 - n := by
    rw [← hd, List.length_drop]
    unfold chainof at hlen hnl
    omega
  unfold chainof
  rw [prevchain_stable s _ _ hl (s.positions.length + 1) (by omega)]
  exact hd.symm

theorem chainof_trans (s : redo_session) (a b c : Nat)
    (hla : (chainof s a).length < s.positions.length + 1)
    (hb : b ∈ chainof s a) (hc : c ∈ chainof s b) :
    c ∈ chainof s a := by
  obtain ⟨n, hn⟩ := List.getElem?_of_mem hb
  rw [chainof_mem_drop s a b n hla hn] at hc
  exact List.drop_subset n _ hc

theorem chainof_self (s : redo_session) (a : Nat)
    (q : redo_position) (hq : s.pos a = some q) :
    chainof s a = a :: prevchain s.positions.length s q.prev := by
  unfold chainof
  exact prevchain_some _ s a q hq

theorem desclist_mem (s : redo_session) (P D : Nat) :
    D ∈ desclist s P ↔
      ∃ q, s.pos D = some q ∧ q.inuse = true ∧ q.endpoint = true ∧
        P ∈ chainof s D := by
  unfold desclist
  rw [List.mem_filter, List.mem_range]
  constructor
  · rintro ⟨hD, hpred⟩
    cases hq : s.pos D with
    | none => rw [hq] at hpred; simp at hpred
    | some q =>
        rw [hq] at hpred
        simp only [Bool.and_eq_true] at hpred
        refine ⟨q, rfl, hpred.1.1, hpred.1.2, ?_⟩
        have h2 := hpred.2
        simpa using h2
  · rintro ⟨q, hq, hin, hep, hmem⟩
    refine ⟨pos_some_lt hq, ?_⟩
    rw [hq]
    simp only [Bool.and_eq_true]
    refine ⟨⟨hin, hep⟩, ?_⟩
    simpa using hmem

theorem c2wf_iff (s : redo_session) : c2wfB s = true ↔
    (s.freelist.Nodup ∧
     (∀ j ∈ s.freelist, j < s.positions.length ∧
       ∀ q, s.pos j = some q → q.inuse = false)) ∧
    (∀ j p, s.pos j = some p → p.inuse = true →
      (∀ r, p.prev = some r →
        ∃ q, s.pos r = some q ∧ q.inuse = true) ∧
      (p.endpoint = true → 0 < p.movecount) ∧
      (chainof s j).Nodup) := by
  unfold c2wfB
  simp only [Bool.and_eq_true, List.all_eq_true, decide_eq_true_eq]
  constructor
  · rintro ⟨⟨hnd, hfree⟩, hpos⟩
    refine ⟨⟨hnd, fun j hj => ?_⟩, fun j p hp hin => ?_⟩
    · have h := hfree j hj
      simp only [Bool.and_eq_true, decide_eq_true_eq] at h
      refine ⟨h.1, fun q hq => ?_⟩
      have h2 := h.2
      rw [hq] at h2
      simpa using h2
    · have h := hpos j (List.mem_range.mpr (pos_some_lt hp))
      rw [hp] at h
      simp only [hin, Bool.not_true, Bool.false_or,
        Bool.and_eq_true] at h
      refine ⟨?_, ?_, of_decide_eq_true h.2⟩
      · intro r hr
        have h1 := h.1.1
        rw [hr] at h1
        dsimp only at h1
        cases hq : s.pos r with
        | none => rw [hq] at h1; simp at h1
        | some q => rw [hq] at h1; exact ⟨q, rfl, h1⟩
      · intro hep
        have h2 := h.1.2
        rw [hep] at h2
        simpa using h2
  · rintro ⟨⟨hnd, hfree⟩, hpos⟩
    refine ⟨⟨hnd, fun j hj => ?_⟩, fun j _ => ?_⟩
    · obtain ⟨h1, h2⟩ := hfree j hj
      refine ⟨h1, ?_⟩
      cases hq : s.pos j with
      | none => rfl
      | some q =>
          dsimp only
          rw [h2 q hq]
          rfl
    · cases hp : s.pos j with
      | none => rfl
      | some p =>
          dsimp only
          cases hin : p.inuse with
          | false => rfl
          | true =>
              simp only [Bool.not_true, Bool.false_or]
              obtain ⟨hprev, hepmc, hnodup⟩ := hpos j p hp hin
              rw [Bool.and_eq_true, Bool.and_eq_true]
              refine ⟨⟨?_, ?_⟩, decide_eq_true hnodup⟩
              · cases hpr : p.prev with
                | none => rfl
                | some r =>
                    obtain ⟨q, hq, hqin⟩ := hprev r hpr
                    dsimp only
                    rw [hq]
                    exact hqin
              · cases hep : p.endpoint with
                | false => rfl
                | true => simp [hepmc hep]

theorem solInv_iff (s : redo_session) : solInvB s = true ↔
    ∀ P p, s.pos P = some p → p.inuse = true →
      (desclist s P = [] → p.solutionsize = 0) ∧
      (∀ D q, D ∈ desclist s P → s.pos D = some q →
        p.solutionsize ≤ q.movecount) ∧
      (desclist s P ≠ [] →
        ∃ D q, D ∈ desclist s P ∧ s.pos D = some q ∧
          q.movecount = p.solutionsize) := by
  unfold solInvB
  rw [List.all_eq_true]
  constructor
  · intro h P p hp hin
    have hP := h P (List.mem_range.mpr (pos_some_lt hp))
    rw [hp] at hP
    simp only [hin, Bool.not_true, Bool.false_or] at hP
    by_cases hemp : desclist s P = []
    · rw [if_pos hemp] at hP
      refine ⟨fun _ => by simpa using hP, ?_,
        fun hne => absurd hemp hne⟩
      intro D q hD _
      rw [hemp] at hD
      exact absurd hD (List.not_mem_nil D)
    · rw [if_neg hemp] at hP
      rw [Bool.and_eq_true] at hP
      refine ⟨fun he => absurd he hemp, ?_, fun _ => ?_⟩
      · intro D q hD hq
        have h2 := (List.all_eq_true.mp hP.2) D hD
        rw [hq] at h2
        exact of_decide_eq_true h2
      · obtain ⟨D, hD, hDp⟩ := List.any_eq_true.mp hP.1
        cases hq : s.pos D with
        | none => rw [hq] at hDp; simp at hDp
        | some q =>
            rw [hq] at hDp
            exact ⟨D, q, hD, hq, by simpa using hDp⟩
  · intro h P hP
    cases hp : s.pos P with
    | none => rfl
    | some p =>
        dsimp only
        cases hin : p.inuse with
        | false => rfl
        | true =>
            simp only [Bool.not_true, Bool.false_or]
            obtain ⟨h0, hlb, hat⟩ := h P p hp hin
            by_cases hemp : desclist s P = []
            · rw [if_pos hemp]
              simp [h0 hemp]
            · rw [if_neg hemp]
              rw [Bool.and_eq_true]
              constructor
              · obtain ⟨D, q, hD, hq, hqmc⟩ := hat hemp
                rw [List.any_eq_true]
                refine ⟨D, hD, ?_⟩
                rw [hq]
                simp [hqmc]
              · rw [List.all_eq_true]
                intro D hD
                cases hq : s.pos D with
                | none => rfl
                | some q =>
                    dsimp only
                    exact decide_eq_true (hlb D q hD hq)

/-- Ancestor chains started at a live slot other than the changed one
are unchanged when every other slot keeps its relevant fields, the
changed slot was dead, and live prev links target live positions. -/
theorem prevchain_transfer (s s' : redo_session) (i : Nat)
    (hmap : ∀ j, j ≠ i →
      (s'.pos j).map c2skel = (s.pos j).map c2skel)
    (hidead : s.pos i = none ∨
      ∃ q, s.pos i = some q ∧ q.inuse = false)
    (hprevlive : ∀ j p, s.pos j = some p → p.inuse = true →
      ∀ r, p.prev = some r → ∃ q, s.pos r = some q ∧ q.inuse = true) :
    ∀ (f : Nat) (o : Option Nat),
      (∀ a, o = some a → ∃ q, s.pos a = some q ∧ q.inuse = true) →
      prevchain f s' o = prevchain f s o := by
  intro f
  induction f with
  | zero => intro o _; rw [prevchain_zero, prevchain_zero]
  | succ f ih =>
      intro o ho
      cases o with
      | none => rw [prevchain_none, prevchain_none]
      | some a =>
          obtain ⟨q, hq, hqin⟩ := ho a rfl
          have hai : a ≠ i := by
            intro hbi
            rcases hidead with hd | ⟨q0, h0, h0d⟩
            · rw [hbi, hd] at hq
              exact absurd hq (by simp)
            · rw [hbi, h0] at hq
              rw [Option.some.inj hq] at h0d
              rw [hqin] at h0d
              exact absurd h0d (by simp)
          have hm := hmap a hai
          rw [hq] at hm
          simp only [Option.map_some'] at hm
          obtain ⟨q', hq', hq'sk⟩ := map_c2skel_some hm
          have hf := c2skel_eq_fields hq'sk
          rw [prevchain_some f s a q hq,
            prevchain_some f s' a q' hq', hf.2.1]
          have htail : prevchain f s' q.prev = prevchain f s q.prev :=
            ih q.prev (fun b hb => hprevlive a q hq hqin b hb)
          rw [htail]

theorem map_prev_of_c2 {o o' : Option redo_position}
    (h : o'.map c2skel = o.map c2skel) :
    o'.map (fun p => p.prev) = o.map (fun p => p.prev) := by
  cases o with
  | none =>
      cases o' with
      | none => rfl
      | some q => simp at h
  | some q =>
      cases o' with
      | none => simp at h
      | some q' =>
          simp only [Option.map_some', Option.some.injEq] at h ⊢
          exact (c2skel_eq_fields h).2.1

theorem chainof_congr (s s' : redo_session)
    (hlen : s'.positions.length = s.positions.length)
    (hmap : ∀ j, (s'.pos j).map c2skel = (s.pos j).map c2skel)
    (a : Nat) : chainof s' a = chainof s a := by
  unfold chainof
  rw [hlen]
  exact prevchain_congr _ s s' (some a)
    (fun j => map_prev_of_c2 (hmap j))

theorem desclist_congr (s s' : redo_session)
    (hlen : s'.positions.length = s.positions.length)
    (hmap : ∀ j, (s'.pos j).map c2skel = (s.pos j).map c2skel)
    (P : Nat) : desclist s' P = desclist s P := by
  unfold desclist
  rw [hlen]
  apply List.filter_congr
  intro D _
  have h := hmap D
  cases hq : s.pos D with
  | none =>
      rw [hq] at h
      cases hq' : s'.pos D with
      | none => rfl
      | some q' => rw [hq'] at h; simp at h
  | some q =>
      rw [hq] at h
      cases hq' : s'.pos D with
      | none => rw [hq'] at h; simp at h
      | some q' =>
          rw [hq'] at h
          simp only [Option.map_some', Option.some.injEq] at h
          have hf := c2skel_eq_fields h
          dsimp only
          rw [hf.1, hf.2.2.1, chainof_congr s s' hlen hmap D]

theorem c2wf_congr (s s' : redo_session)
    (hlen : s'.positions.length = s.positions.length)
    (hfree : s'.freelist = s.freelist)
    (hmap : ∀ j, (s'.pos j).map c2skel = (s.pos j).map c2skel)
    (h : c2wfB s = true) : c2wfB s' = true := by
  rw [c2wf_iff] at h ⊢
  constructor
  · rw [hfree]
    refine ⟨h.1.1, fun j hj => ?_⟩
    obtain ⟨h1, h2⟩ := h.1.2 j hj
    refine ⟨hlen ▸ h1, fun q hq => ?_⟩
    have hm := hmap j
    rw [hq] at hm
    simp only [Option.map_some'] at hm
    obtain ⟨q0, hq0, hsk⟩ := map_c2skel_some hm.symm
    rw [← (c2skel_eq_fields hsk).1]
    exact h2 q0 hq0
  · intro j p' hp' hin'
    have hm := hmap j
    rw [hp'] at hm
    simp only [Option.map_some'] at hm
    obtain ⟨p, hp, hsk⟩ := map_c2skel_some hm.symm
    have hpf := c2skel_eq_fields hsk
    obtain ⟨hprev, hepmc, hnodup⟩ := h.2 j p hp
      (by rw [hpf.1]; exact hin')
    refine ⟨?_, ?_, ?_⟩
    · intro r hr'
      obtain ⟨q, hq, hqin⟩ := hprev r (by rw [hpf.2.1]; exact hr')
      have hmr := hmap r
      rw [hq] at hmr
      simp only [Option.map_some'] at hmr
      obtain ⟨q', hq', hqsk⟩ := map_c2skel_some hmr
      exact ⟨q', hq', by rw [(c2skel_eq_fields hqsk).1]; exact hqin⟩
    · intro hep'
      rw [← hpf.2.2.2.1]
      exact hepmc (by rw [hpf.2.2.1]; exact hep')
    · rw [chainof_congr s s' hlen hmap j]
      exact hnodup

theorem solInv_congr (s s' : redo_session)
    (hlen : s'.positions.length = s.positions.length)
    (hmap : ∀ j, (s'.pos j).map c2skel = (s.pos j).map c2skel)
    (h : solInvB s = true) : solInvB s' = true := by
  rw [solInv_iff] at h ⊢
  intro P p' hp' hin'
  have hm := hmap P
  rw [hp'] at hm
  simp only [Option.map_some'] at hm
  obtain ⟨p, hp, hsk⟩ := map_c2skel_some hm.symm
  have hpf := c2skel_eq_fields hsk
  obtain ⟨h0, hlb, hat⟩ := h P p hp
    (by rw [hpf.1]; exact hin')
  have hdes := desclist_congr s s' hlen hmap P
  refine ⟨?_, ?_, ?_⟩
  · intro hemp
    rw [hdes] at hemp
    rw [← hpf.2.2.2.2]
    exact h0 hemp
  · intro D q' hD hq'
    rw [hdes] at hD
    have hmD := hmap D
    rw [hq'] at hmD
    simp only [Option.map_some'] at hmD
    obtain ⟨q, hq, hqsk⟩ := map_c2skel_some hmD.symm
    rw [← hpf.2.2.2.2, ← (c2skel_eq_fields hqsk).2.2.2.1]
    exact hlb D q hD hq
  · intro hne
    rw [hdes] at hne
    obtain ⟨D, q, hD, hq, hmc⟩ := hat hne
    have hmD := hmap D
    rw [hq] at hmD
    simp only [Option.map_some'] at hmD
    obtain ⟨q', hq', hqsk⟩ := map_c2skel_some hmD
    refine ⟨D, q', by rw [hdes]; exact hD, hq', ?_⟩
    rw [(c2skel_eq_fields hqsk).2.2.2.1, ← hpf.2.2.2.2, hmc]

theorem modify_prev_map (t : redo_session) (k : Nat)
    (g : redo_position → redo_position)
    (hg : ∀ q, (g q).prev = q.prev) (m : Nat) :
    ((modifypos t k g).pos m).map (fun p => p.prev) =
      (t.pos m).map (fun p => p.prev) := by
  by_cases hm : m = k
  · subst hm
    cases ht : t.pos m with
    | none =>
        have heq : modifypos t m g = t := by
          unfold modifypos
          simp only [redo_session.pos] at ht
          rw [ht]
        rw [heq, ht]
    | some q =>
        rw [pos_modifypos_self t m g q ht]
        simp only [Option.map_some']
        exact congrArg some (hg q)
  · rw [pos_modifypos_ne t k g m hm]

/-- What the endpoint ancestor walk does: every chain member whose
solutionsize was zero or larger than the new path length receives the
new path length; under downward monotonicity of nonzero solutionsizes
along the chain, every other chain member — and everything off the
chain — is untouched, so each chain member ends at
min(old nonzero value, new length). -/
theorem solwalk_min (s : redo_session) :
    ∀ (f : Nat) (o : Option Nat) (size : Nat),
      (prevchain f s o).Nodup →
      (∀ (n1 n2 a1 a2 : Nat) (p1 p2 : redo_position), n1 ≤ n2 →
        (prevchain f s o)[n1]? = some a1 →
        (prevchain f s o)[n2]? = some a2 →
        s.pos a1 = some p1 → s.pos a2 = some p2 →
        p1.solutionsize ≠ 0 →
        p2.solutionsize ≠ 0 ∧ p2.solutionsize ≤ p1.solutionsize) →
      (∀ k, k ∉ prevchain f s o →
        (solwalk f s o size).pos k = s.pos k) ∧
      (∀ k, k ∈ prevchain f s o → ∀ pk, s.pos k = some pk →
        (solwalk f s o size).pos k = some { pk with
          solutionsize := if pk.solutionsize = 0 then size
            else min pk.solutionsize size }) := by
  intro f
  induction f generalizing s with
  | zero =>
      intro o size _ _
      rw [prevchain_zero]
      refine ⟨fun k _ => by cases o <;> rfl, fun k hk => ?_⟩
      exact absurd hk (List.not_mem_nil k)
  | succ f ih =>
      intro o size hnd hmono
      cases o with
      | none =>
          rw [prevchain_none]
          refine ⟨fun k _ => by rw [solwalk_none], fun k hk => ?_⟩
          exact absurd hk (List.not_mem_nil k)
      | some j =>
          cases hp : s.pos j with
          | none =>
              rw [prevchain_dead f s j hp]
              refine ⟨fun k _ => by rw [solwalk_dead f s j size hp],
                fun k hk => ?_⟩
              exact absurd hk (List.not_mem_nil k)
          | some p =>
              rw [prevchain_some f s j p hp] at hnd hmono ⊢
              rw [solwalk_some f s j size p hp]
              by_cases hstop : p.solutionsize ≠ 0 ∧
                  p.solutionsize ≤ size
              · rw [if_pos hstop]
                refine ⟨fun k _ => rfl, fun k hk pk hpk => ?_⟩
                rcases List.mem_cons.mp hk with hkj | hkc
                · rw [hkj] at hpk
                  have hppk : pk = p := by
                    rw [hpk] at hp
                    exact Option.some.inj hp
                  rw [← hppk] at hstop
                  rw [hkj, hpk, if_neg hstop.1,
                    Nat.min_eq_left hstop.2]
                · obtain ⟨n, hn⟩ := List.getElem?_of_mem hkc
                  have hm := hmono 0 (n + 1) j k p pk
                    (Nat.zero_le _) (by simp)
                    (by rw [List.getElem?_cons_succ]; exact hn)
                    hp hpk hstop.1
                  rw [hpk, if_neg hm.1,
                    Nat.min_eq_left (hm.2.trans hstop.2)]
              · rw [if_neg hstop]
                have hjc : j ∉ prevchain f s p.prev :=
                  (List.nodup_cons.mp hnd).1
                have hch1 : prevchain f
                    (modifypos s j (fun q =>
                      { q with solutionsize := size })) p.prev =
                    prevchain f s p.prev :=
                  prevchain_congr f s _ p.prev
                    (fun m => modify_prev_map s j
                      (fun q => { q with solutionsize := size })
                      (fun q => rfl) m)
                have hfr1 : ∀ a, a ∈ prevchain f s p.prev →
                    (modifypos s j (fun q =>
                      { q with solutionsize := size })).pos a =
                    s.pos a := by
                  intro a ha
                  refine pos_modifypos_ne s j _ a ?_
                  intro haj
                  exact hjc (haj ▸ ha)
                obtain ⟨ihfr, ihmem⟩ := ih
                  (modifypos s j (fun q =>
                    { q with solutionsize := size })) p.prev size
                  (by rw [hch1]; exact (List.nodup_cons.mp hnd).2)
                  (by
                    rw [hch1]
                    intro n1 n2 a1 a2 p1 p2 h12 h1 h2 hp1 hp2 hnz
                    have ha1 := List.getElem?_mem h1
                    have ha2 := List.getElem?_mem h2
                    rw [hfr1 a1 ha1] at hp1
                    rw [hfr1 a2 ha2] at hp2
                    exact hmono (n1 + 1) (n2 + 1) a1 a2 p1 p2
                      (by omega)
                      (by rw [List.getElem?_cons_succ]; exact h1)
                      (by rw [List.getElem?_cons_succ]; exact h2)
                      hp1 hp2 hnz)
                rw [hch1] at ihfr ihmem
                constructor
                · intro k hk
                  rw [List.mem_cons] at hk
                  push_neg at hk
                  rw [ihfr k hk.2]
                  exact pos_modifypos_ne s j _ k hk.1
                · intro k hk pk hpk
                  rcases List.mem_cons.mp hk with hkj | hkc
                  · have hppk : pk = p := by
                      rw [hkj] at hpk
                      rw [hpk] at hp
                      exact Option.some.inj hp
                    rw [hkj, ihfr j hjc,
                      pos_modifypos_self s j
                        (fun q => { q with solutionsize := size }) p hp,
                      hppk]
                    have hsz : (if p.solutionsize = 0 then size
                        else min p.solutionsize size) = size := by
                      by_cases h0 : p.solutionsize = 0
                      · rw [if_pos h0]
                      · rw [if_neg h0]
                        have h1 : ¬ p.solutionsize ≤ size :=
                          fun hle => hstop ⟨h0, hle⟩
                        omega
                    rw [hsz]
                  · have hkj : k ≠ j := by
                      intro hkj
                      exact hjc (hkj ▸ hkc)
                    have hk1 : (modifypos s j (fun q =>
                        { q with solutionsize := size })).pos k =
                        some pk := by
                      rw [pos_modifypos_ne s j _ k hkj]
                      exact hpk
                    exact ihmem k hkc pk hk1

theorem c2skel_modify (t : redo_session) (k : Nat)
    (g : redo_position → redo_position)
    (hg : ∀ q, c2skel (g q) = c2skel q) (m : Nat) :
    ((modifypos t k g).pos m).map c2skel = (t.pos m).map c2skel := by
  by_cases hm : m = k
  · subst hm
    cases ht : t.pos m with
    | none =>
        have heq : modifypos t m g = t := by
          unfold modifypos
          simp only [redo_session.pos] at ht
          rw [ht]
        rw [heq, ht]
    | some q =>
        rw [pos_modifypos_self t m g q ht]
        simp only [Option.map_some']
        exact congrArg some (hg q)
  · rw [pos_modifypos_ne t k g m hm]

theorem getnext_c2 (s : redo_session) (i : Nat) (mv : Int) :
    (redo_getnextposition s i mv).1.positions.length =
      s.positions.length ∧
    (redo_getnextposition s i mv).1.freelist = s.freelist ∧
    (∀ k, ((redo_getnextposition s i mv).1.pos k).map c2skel =
      (s.pos k).map c2skel) := by
  unfold redo_getnextposition
  cases hp : s.pos i with
  | none => exact ⟨rfl, rfl, fun k => rfl⟩
  | some p =>
      dsimp only
      cases hnx : p.next with
      | nil => exact ⟨rfl, rfl, fun k => rfl⟩
      | cons b rest =>
          dsimp only
          by_cases hb : b.move = mv
          · rw [if_pos hb]
            exact ⟨rfl, rfl, fun k => rfl⟩
          · rw [if_neg hb]
            cases hfb : findbranch mv rest with
            | none => exact ⟨rfl, rfl, fun k => rfl⟩
            | some c =>
                dsimp only
                exact ⟨modifypos_length s i _,
                  modifypos_freelist s i _,
                  fun k => c2skel_modify s i
                    (fun q =>
                      { q with
                          next := c :: b :: removebranchmove mv rest })
                    (fun q => rfl) k⟩

theorem c2skel_of_insSkel {q q' : redo_position}
    (h : insSkel q' = insSkel q) : c2skel q' = c2skel q := by
  have hf := insSkel_eq_fields h
  unfold c2skel
  rw [hf.1, hf.2.1, hf.2.2.1, hf.2.2.2.1, hf.2.2.2.2.1]

theorem map_c2_of_insSkel {o o' : Option redo_position}
    (h : o'.map insSkel = o.map insSkel) :
    o'.map c2skel = o.map c2skel := by
  cases o with
  | none =>
      cases o' with
      | none => rfl
      | some q => simp at h
  | some q =>
      cases o' with
      | none => simp at h
      | some q' =>
          simp only [Option.map_some', Option.some.injEq] at h ⊢
          exact c2skel_of_insSkel h

/-- The fields shared by the well-formedness bundle and the
descendant lists. -/
def wfskel (p : redo_position) : Bool × Option Nat × Bool × Nat :=
  (p.inuse, p.prev, p.endpoint, p.movecount)

theorem wfskel_eq_fields {q q' : redo_position}
    (h : wfskel q' = wfskel q) :
    q'.inuse = q.inuse ∧ q'.prev = q.prev ∧ q'.endpoint = q.endpoint ∧
    q'.movecount = q.movecount := by
  unfold wfskel at h
  simp only [Prod.mk.injEq] at h
  exact ⟨h.1, h.2.1, h.2.2.1, h.2.2.2⟩

theorem map_wfskel_some {o : Option redo_position}
    {q0 : redo_position} (h : o.map wfskel = some (wfskel q0)) :
    ∃ q, o = some q ∧ wfskel q = wfskel q0 := by
  cases o with
  | none => simp at h
  | some q =>
      simp only [Option.map_some', Option.some.injEq] at h
      exact ⟨q, rfl, h⟩

theorem map_wf_of_solskel {o o' : Option redo_position}
    (h : o'.map solskel = o.map solskel) :
    o'.map wfskel = o.map wfskel := by
  cases o with
  | none =>
      cases o' with
      | none => rfl
      | some q => simp at h
  | some q =>
      cases o' with
      | none => simp at h
      | some q' =>
          simp only [Option.map_some', Option.some.injEq] at h ⊢
          unfold solskel at h
          simp only [Prod.mk.injEq] at h
          unfold wfskel
          rw [h.2.2.1, h.1, h.2.2.2.2.1, h.2.2.2.2.2.2.2.2.1]

theorem map_prev_of_wf {o o' : Option redo_position}
    (h : o'.map wfskel = o.map wfskel) :
    o'.map (fun p => p.prev) = o.map (fun p => p.prev) := by
  cases o with
  | none =>
      cases o' with
      | none => rfl
      | some q => simp at h
  | some q =>
      cases o' with
      | none => simp at h
      | some q' =>
          simp only [Option.map_some', Option.some.injEq] at h ⊢
          exact (wfskel_eq_fields h).2.1

theorem map_wf_of_c2 {o o' : Option redo_position}
    (h : o'.map c2skel = o.map c2skel) :
    o'.map wfskel = o.map wfskel := by
  cases o with
  | none =>
      cases o' with
      | none => rfl
      | some q => simp at h
  | some q =>
      cases o' with
      | none => simp at h
      | some q' =>
          simp only [Option.map_some', Option.some.injEq] at h ⊢
          have hf := c2skel_eq_fields h
          unfold wfskel
          rw [hf.1, hf.2.1, hf.2.2.1, hf.2.2.2.1]

theorem chainof_congr_wf (s s' : redo_session)
    (hlen : s'.positions.length = s.positions.length)
    (hmap : ∀ j, (s'.pos j).map wfskel = (s.pos j).map wfskel)
    (a : Nat) : chainof s' a = chainof s a := by
  unfold chainof
  rw [hlen]
  exact prevchain_congr _ s s' (some a)
    (fun j => map_prev_of_wf (hmap j))

theorem desclist_congr_wf (s s' : redo_session)
    (hlen : s'.positions.length = s.positions.length)
    (hmap : ∀ j, (s'.pos j).map wfskel = (s.pos j).map wfskel)
    (P : Nat) : desclist s' P = desclist s P := by
  unfold desclist
  rw [hlen]
  apply List.filter_congr
  intro D _
  have h := hmap D
  cases hq : s.pos D with
  | none =>
      rw [hq] at h
      cases hq' : s'.pos D with
      | none => rfl
      | some q' => rw [hq'] at h; simp at h
  | some q =>
      rw [hq] at h
      cases hq' : s'.pos D with
      | none => rw [hq'] at h; simp at h
      | some q' =>
          rw [hq'] at h
          simp only [Option.map_some', Option.some.injEq] at h
          have hf := wfskel_eq_fields h
          dsimp only
          rw [hf.1, hf.2.2.1, chainof_congr_wf s s' hlen hmap D]

theorem c2wf_congr_wf (s s' : redo_session)
    (hlen : s'.positions.length = s.positions.length)
    (hfree : s'.freelist = s.freelist)
    (hmap : ∀ j, (s'.pos j).map wfskel = (s.pos j).map wfskel)
    (h : c2wfB s = true) : c2wfB s' = true := by
  rw [c2wf_iff] at h ⊢
  constructor
  · rw [hfree]
    refine ⟨h.1.1, fun j hj => ?_⟩
    obtain ⟨h1, h2⟩ := h.1.2 j hj
    refine ⟨hlen ▸ h1, fun q hq => ?_⟩
    have hm := hmap j
    rw [hq] at hm
    simp only [Option.map_some'] at hm
    obtain ⟨q0, hq0, hsk⟩ := map_wfskel_some hm.symm
    rw [← (wfskel_eq_fields hsk).1]
    exact h2 q0 hq0
  · intro j p' hp' hin'
    have hm := hmap j
    rw [hp'] at hm
    simp only [Option.map_some'] at hm
    obtain ⟨p, hp, hsk⟩ := map_wfskel_some hm.symm
    have hpf := wfskel_eq_fields hsk
    obtain ⟨hprev, hepmc, hnodup⟩ := h.2 j p hp
      (by rw [hpf.1]; exact hin')
    refine ⟨?_, ?_, ?_⟩
    · intro r hr'
      obtain ⟨q, hq, hqin⟩ := hprev r (by rw [hpf.2.1]; exact hr')
      have hmr := hmap r
      rw [hq] at hmr
      simp only [Option.map_some'] at hmr
      obtain ⟨q', hq', hqsk⟩ := map_wfskel_some hmr
      exact ⟨q', hq', by rw [(wfskel_eq_fields hqsk).1]; exact hqin⟩
    · intro hep'
      rw [← hpf.2.2.2]
      exact hepmc (by rw [hpf.2.2.1]; exact hep')
    · rw [chainof_congr_wf s s' hlen hmap j]
      exact hnodup

theorem sethashentry_freelist (s : redo_session) (v : Nat) :
    (sethashentry s v).freelist = s.freelist := rfl

theorem insertmoveto_freelist (s : redo_session) (fr tid : Nat)
    (mv : Int) : (insertmoveto s fr tid mv).freelist = s.freelist := by
  unfold insertmoveto
  cases hfr : s.pos fr with
  | none => rfl
  | some p =>
      dsimp only
      cases hfb : findbranch mv p.next with
      | some b => rfl
      | none => exact modifypos_freelist s fr _

theorem sessSkel_freelist {a b : redo_session}
    (h : sessSkel b = sessSkel a) : b.freelist = a.freelist := by
  unfold sessSkel at h
  simp only [Prod.mk.injEq] at h
  exact h.2.2.1

theorem sessSkel_len {a b : redo_session}
    (h : sessSkel b = sessSkel a) :
    b.positions.length = a.positions.length := by
  unfold sessSkel at h
  simp only [Prod.mk.injEq] at h
  exact h.2.2.2.2.2.2

theorem solwalk_freelist (f : Nat) (s : redo_session)
    (o : Option Nat) (n : Nat) :
    (solwalk f s o n).freelist = s.freelist :=
  sessSkel_freelist (solwalk_SolOnly f s o n).1

theorem solwalk_length (f : Nat) (s : redo_session)
    (o : Option Nat) (n : Nat) :
    (solwalk f s o n).positions.length = s.positions.length :=
  sessSkel_len (solwalk_SolOnly f s o n).1

theorem getpositionstruct_freelist (s : redo_session) (st : List Nat)
    (ep : Nat) :
    ((getpositionstruct s st ep).1.freelist = s.freelist ∧
      s.freelist = []) ∨
    s.freelist = (getpositionstruct s st ep).2 ::
      (getpositionstruct s st ep).1.freelist := by
  unfold getpositionstruct
  cases hfl : s.freelist with
  | nil => exact Or.inl ⟨rfl, rfl⟩
  | cons w rest => exact Or.inr rfl

theorem addposition_core_freelist_eq (s : redo_session)
    (prev : Option Nat) (mv : Int) (st : List Nat) (ep : Nat)
    (flag : Bool) :
    (addposition_core s prev mv st ep flag).1.freelist =
      (getpositionstruct s st ep).1.freelist := by
  unfold addposition_core
  dsimp only
  cases prev with
  | none =>
      by_cases hep : ep ≠ 0
      · rw [if_pos hep, solwalk_freelist, modifypos_freelist,
          sethashentry_freelist]
      · rw [if_neg hep, modifypos_freelist, sethashentry_freelist]
  | some pr =>
      by_cases hep : ep ≠ 0
      · rw [if_pos hep, solwalk_freelist, modifypos_freelist,
          sethashentry_freelist, insertmoveto_freelist]
      · rw [if_neg hep, modifypos_freelist, sethashentry_freelist,
          insertmoveto_freelist]

theorem prevchain_live (s : redo_session)
    (hprevlive : ∀ j p, s.pos j = some p → p.inuse = true →
      ∀ r, p.prev = some r → ∃ q, s.pos r = some q ∧ q.inuse = true) :
    ∀ (f : Nat) (o : Option Nat),
      (∀ a, o = some a → ∃ q, s.pos a = some q ∧ q.inuse = true) →
      ∀ b ∈ prevchain f s o, ∃ q, s.pos b = some q ∧ q.inuse = true := by
  intro f
  induction f with
  | zero =>
      intro o _ b hb
      rw [prevchain_zero] at hb
      exact absurd hb (List.not_mem_nil b)
  | succ f ih =>
      intro o ho b hb
      cases o with
      | none =>
          rw [prevchain_none] at hb
          exact absurd hb (List.not_mem_nil b)
      | some a =>
          obtain ⟨q, hq, hqin⟩ := ho a rfl
          rw [prevchain_some f s a q hq] at hb
          rcases List.mem_cons.mp hb with hba | hbc
          · exact ⟨q, hba ▸ hq, hqin⟩
          · exact ih q.prev
              (fun r hr => hprevlive a q hq hqin r hr) b hbc

theorem prevchain_stable_down (s : redo_session) :
    ∀ (f g : Nat) (o : Option Nat), f ≤ g →
      (prevchain g s o).length < f →
      prevchain f s o = prevchain g s o := by
  intro f
  induction f with
  | zero =>
      intro g o _ h
      exact absurd h (by omega)
  | succ f ih =>
      intro g o hfg h
      obtain ⟨g', rfl⟩ : ∃ g', g = g' + 1 := ⟨g - 1, by omega⟩
      cases o with
      | none => rw [prevchain_none, prevchain_none]
      | some j =>
          cases hp : s.pos j with
          | none =>
              rw [prevchain_dead _ _ _ hp, prevchain_dead _ _ _ hp]
          | some p =>
              rw [prevchain_some g' s j p hp] at h
              rw [prevchain_some f s j p hp,
                prevchain_some g' s j p hp]
              simp only [List.length_cons] at h
              rw [ih g' p.prev (by omega) (by omega)]

theorem chainof_fuel (s : redo_session) (j g : Nat)
    (hlen : (chainof s j).length < s.positions.length + 1)
    (hg : (chainof s j).length < g) :
    prevchain g s (some j) = chainof s j := by
  rcases le_or_lt (s.positions.length + 1) g with h | h
  · exact prevchain_stable s _ _ hlen g h
  · exact prevchain_stable_down s g (s.positions.length + 1)
      (some j) (by omega) hg

theorem chainof_len_le (s : redo_session) (j : Nat)
    (hnodup : (chainof s j).Nodup) :
    (chainof s j).length ≤ s.positions.length :=
  nodup_lt_bound _ _ hnodup (fun x hx => chainof_mem_lt s j x hx)

/-- Under the invariant, a nonzero solutionsize never increases along
an ancestor chain. -/
theorem solInv_mono (s : redo_session)
    (hwf : c2wfB s = true) (hinv : solInvB s = true)
    (a b : Nat) (pa pb : redo_position)
    (ha : s.pos a = some pa) (hain : pa.inuse = true)
    (hb : b ∈ chainof s a)
    (hbpos : s.pos b = some pb)
    (hnz : pa.solutionsize ≠ 0) :
    pb.solutionsize ≠ 0 ∧ pb.solutionsize ≤ pa.solutionsize := by
  rw [c2wf_iff] at hwf
  rw [solInv_iff] at hinv
  obtain ⟨h0a, hlba, hata⟩ := hinv a pa ha hain
  have hbin : pb.inuse = true := by
    obtain ⟨q, hq, hqin⟩ := prevchain_live s
      (fun j p hp hin r hr => (hwf.2 j p hp hin).1 r hr)
      (s.positions.length + 1) (some a)
      (fun x hx => ⟨pa, (Option.some.inj hx) ▸ ha, hain⟩) b hb
    rw [hbpos] at hq
    rw [← Option.some.inj hq] at hqin
    exact hqin
  obtain ⟨h0b, hlbb, hatb⟩ := hinv b pb hbpos hbin
  have hne : desclist s a ≠ [] := by
    intro hemp
    exact hnz (h0a hemp)
  obtain ⟨D, qD, hD, hqD, hmcD⟩ := hata hne
  have hDb : D ∈ desclist s b := by
    rw [desclist_mem] at hD ⊢
    obtain ⟨q, hq, hqin, hqep, hchain⟩ := hD
    refine ⟨q, hq, hqin, hqep, ?_⟩
    have hqq : q = qD := by
      rw [hq] at hqD
      exact Option.some.inj hqD
    have hlenD : (chainof s D).length < s.positions.length + 1 := by
      have := chainof_len_le s D (hwf.2 D q hq hqin).2.2
      omega
    exact chainof_trans s D a b hlenD hchain hb
  have hneb : desclist s b ≠ [] := by
    intro hemp
    rw [hemp] at hDb
    exact absurd hDb (List.not_mem_nil D)
  constructor
  · obtain ⟨D2, q2, hD2, hq2, hmc2⟩ := hatb hneb
    rw [desclist_mem] at hD2
    obtain ⟨q2', hq2', hq2in, hq2ep, _⟩ := hD2
    have hq2q : q2' = q2 := by
      rw [hq2'] at hq2
      exact Option.some.inj hq2
    have hmcpos := (hwf.2 D2 q2' hq2' hq2in).2.1 hq2ep
    rw [hq2q] at hmcpos
    omega
  · have := hlbb D qD hDb hqD
    omega

/-- After allocating one fresh slot (everything else keeping its
relevant fields), ancestor chains of positions that were live before
are unchanged. -/
theorem add_slot_chains (s s' : redo_session) (i : Nat)
    (hwf : c2wfB s = true)
    (hmap : ∀ j, j ≠ i →
      (s'.pos j).map c2skel = (s.pos j).map c2skel)
    (hidead : s.pos i = none ∨
      ∃ q, s.pos i = some q ∧ q.inuse = false)
    (hlen : s.positions.length ≤ s'.positions.length) :
    ∀ j qj, s.pos j = some qj → qj.inuse = true →
      chainof s' j = chainof s j := by
  rw [c2wf_iff] at hwf
  intro j qj hj hjin
  have hpl : ∀ a p, s.pos a = some p → p.inuse = true →
      ∀ r, p.prev = some r → ∃ q, s.pos r = some q ∧ q.inuse = true :=
    fun a p hp hin r hr => (hwf.2 a p hp hin).1 r hr
  have htr := prevchain_transfer s s' i hmap hidead hpl
    (s'.positions.length + 1) (some j)
    (fun a ha => ⟨qj, (Option.some.inj ha) ▸ hj, hjin⟩)
  have hnd := (hwf.2 j qj hj hjin).2.2
  have hle := chainof_len_le s j hnd
  unfold chainof
  rw [htr]
  exact chainof_fuel s j (s'.positions.length + 1)
    (by omega) (by omega)

/-- Allocating a fresh live slot preserves well-formedness. -/
theorem add_slot_wf (s s' : redo_session) (i : Nat)
    (hwf : c2wfB s = true)
    (hmap : ∀ j, j ≠ i →
      (s'.pos j).map c2skel = (s.pos j).map c2skel)
    (hidead : s.pos i = none ∨
      ∃ q, s.pos i = some q ∧ q.inuse = false)
    (hlen : s.positions.length ≤ s'.positions.length)
    (hfree : s'.freelist = s.freelist ∧ s.freelist = [] ∨
      s.freelist = i :: s'.freelist)
    (q : redo_position) (hq : s'.pos i = some q)
    (hqep : q.endpoint = true → 0 < q.movecount)
    (hqchain : (chainof s' i).Nodup)
    (hqprev : q.prev = none ∨ ∃ pr pp, q.prev = some pr ∧
      s.pos pr = some pp ∧ pp.inuse = true) :
    c2wfB s' = true := by
  have hchains := add_slot_chains s s' i hwf hmap hidead hlen
  rw [c2wf_iff] at hwf ⊢
  constructor
  · rcases hfree with ⟨hf1, hf2⟩ | hf
    · rw [hf1, hf2]
      exact ⟨List.nodup_nil, fun j hj => absurd hj
        (List.not_mem_nil j)⟩
    · have hnd := hwf.1.1
      rw [hf] at hnd
      have hnd' := List.nodup_cons.mp hnd
      refine ⟨hnd'.2, fun j hj => ?_⟩
      have hji : j ≠ i := fun h => hnd'.1 (h ▸ hj)
      have hjs : j ∈ s.freelist := by rw [hf]; exact List.mem_cons_of_mem i hj
      obtain ⟨h1, h2⟩ := hwf.1.2 j hjs
      refine ⟨by omega, fun q' hq' => ?_⟩
      have hm := hmap j hji
      rw [hq'] at hm
      simp only [Option.map_some'] at hm
      obtain ⟨q0, hq0, hsk⟩ := map_c2skel_some hm.symm
      rw [← (c2skel_eq_fields hsk).1]
      exact h2 q0 hq0
  · intro j p' hp' hin'
    by_cases hji : j = i
    · rw [hji] at hp'
      rw [hq] at hp'
      have hpq := (Option.some.inj hp').symm
      refine ⟨?_, ?_, ?_⟩
      · intro r hr'
        rw [hpq] at hr'
        rcases hqprev with h | ⟨pr, pp, hqpr, hpr, hpplive⟩
        · rw [h] at hr'
          exact absurd hr' (by simp)
        · rw [hqpr] at hr'
          have hrpr : r = pr := (Option.some.inj hr').symm
          have hpri : pr ≠ i := by
            intro hei
            rcases hidead with hd | ⟨q0, h0, h0d⟩
            · rw [hei, hd] at hpr
              exact absurd hpr (by simp)
            · rw [hei, h0] at hpr
              rw [Option.some.inj hpr] at h0d
              rw [hpplive] at h0d
              exact absurd h0d (by simp)
          have hm := hmap pr hpri
          rw [hpr] at hm
          simp only [Option.map_some'] at hm
          obtain ⟨q', hq', hqsk⟩ := map_c2skel_some hm
          refine ⟨q', by rw [hrpr]; exact hq', ?_⟩
          rw [(c2skel_eq_fields hqsk).1]
          exact hpplive
      · intro hep
        rw [hpq] at hep ⊢
        exact hqep hep
      · rw [hji]
        exact hqchain
    · have hm := hmap j hji
      rw [hp'] at hm
      simp only [Option.map_some'] at hm
      obtain ⟨p, hp, hsk⟩ := map_c2skel_some hm.symm
      have hpf := c2skel_eq_fields hsk
      obtain ⟨hprev, hepmc, hnodup⟩ := hwf.2 j p hp
        (by rw [hpf.1]; exact hin')
      refine ⟨?_, ?_, ?_⟩
      · intro r hr'
        obtain ⟨qr, hqr, hqrin⟩ := hprev r
          (by rw [hpf.2.1]; exact hr')
        have hri : r ≠ i := by
          intro hri
          rcases hidead with hd | ⟨q0, h0, h0d⟩
          · rw [hri, hd] at hqr
            exact absurd hqr (by simp)
          · rw [hri, h0] at hqr
            rw [Option.some.inj hqr] at h0d
            rw [hqrin] at h0d
            exact absurd h0d (by simp)
        have hmr := hmap r hri
        rw [hqr] at hmr
        simp only [Option.map_some'] at hmr
        obtain ⟨q', hq', hqsk⟩ := map_c2skel_some hmr
        exact ⟨q', hq',
          by rw [(c2skel_eq_fields hqsk).1]; exact hqrin⟩
      · intro hep'
        rw [← hpf.2.2.2.1]
        exact hepmc (by rw [hpf.2.2.1]; exact hep')
      · rw [hchains j p hp (by rw [hpf.1]; exact hin')]
        exact hnodup

/-- Fresh-slot membership: after the allocation, a position belongs
to a descendant list exactly as before unless it is the fresh slot
itself. -/
theorem add_slot_desc (s s' : redo_session) (i : Nat)
    (hwf : c2wfB s = true)
    (hmap : ∀ j, j ≠ i →
      (s'.pos j).map c2skel = (s.pos j).map c2skel)
    (hidead : s.pos i = none ∨
      ∃ q, s.pos i = some q ∧ q.inuse = false)
    (hlen : s.positions.length ≤ s'.positions.length) :
    ∀ P D, D ≠ i → (D ∈ desclist s' P ↔ D ∈ desclist s P) := by
  have hchains := add_slot_chains s s' i hwf hmap hidead hlen
  intro P D hDi
  rw [desclist_mem, desclist_mem]
  constructor
  · rintro ⟨q', hq', hin', hep', hch'⟩
    have hm := hmap D hDi
    rw [hq'] at hm
    simp only [Option.map_some'] at hm
    obtain ⟨q, hq, hsk⟩ := map_c2skel_some hm.symm
    have hf := c2skel_eq_fields hsk
    refine ⟨q, hq, by rw [hf.1]; exact hin',
      by rw [hf.2.2.1]; exact hep', ?_⟩
    rw [← hchains D q hq (by rw [hf.1]; exact hin')]
    exact hch'
  · rintro ⟨q, hq, hin, hep, hch⟩
    have hm := hmap D hDi
    rw [hq] at hm
    simp only [Option.map_some'] at hm
    obtain ⟨q', hq', hsk⟩ := map_c2skel_some hm
    have hf := c2skel_eq_fields hsk
    refine ⟨q', hq', by rw [hf.1]; exact hin,
      by rw [hf.2.2.1]; exact hep, ?_⟩
    rw [hchains D q hq hin]
    exact hch

/-- Allocating a fresh live non-endpoint slot with solutionsize 0
preserves the solution-size invariant. -/
theorem add_slot_inv0 (s s' : redo_session) (i : Nat)
    (hwf : c2wfB s = true) (hinv : solInvB s = true)
    (hmap : ∀ j, j ≠ i →
      (s'.pos j).map c2skel = (s.pos j).map c2skel)
    (hidead : s.pos i = none ∨
      ∃ q, s.pos i = some q ∧ q.inuse = false)
    (hlen : s.positions.length ≤ s'.positions.length)
    (q : redo_position) (hq : s'.pos i = some q)
    (hqep : q.endpoint = false) (hqsol : q.solutionsize = 0) :
    solInvB s' = true := by
  have hchains := add_slot_chains s s' i hwf hmap hidead hlen
  have hdesc := add_slot_desc s s' i hwf hmap hidead hlen
  have hdesc_i : ∀ P D, D ∈ desclist s' P →
      ∃ qD, D ≠ i ∧ s.pos D = some qD ∧ qD.inuse = true := by
    intro P D hD
    rw [desclist_mem] at hD
    obtain ⟨q', hq', hin', hep', _⟩ := hD
    by_cases hDi : D = i
    · rw [hDi, hq] at hq'
      rw [← Option.some.inj hq'] at hep'
      rw [hqep] at hep'
      exact absurd hep' (by simp)
    · have hm := hmap D hDi
      rw [hq'] at hm
      simp only [Option.map_some'] at hm
      obtain ⟨q0, hq0, hsk⟩ := map_c2skel_some hm.symm
      exact ⟨q0, hDi, hq0,
        by rw [(c2skel_eq_fields hsk).1]; exact hin'⟩
  rw [solInv_iff] at hinv ⊢
  intro P p' hp' hin'
  by_cases hPi : P = i
  · -- the fresh slot has no endpoint descendants
    have hempty : desclist s' P = [] := by
      rw [List.eq_nil_iff_forall_not_mem]
      intro D hD
      obtain ⟨qD, hDi, hqD, hqDin⟩ := hdesc_i P D hD
      rw [hPi] at hD
      rw [desclist_mem] at hD
      obtain ⟨q', hq', _, _, hch'⟩ := hD
      rw [hchains D qD hqD hqDin] at hch'
      obtain ⟨qc, hqc, hqcin⟩ := prevchain_live s
        (fun a pa hpa hina r hr =>
          (((c2wf_iff s).mp hwf).2 a pa hpa hina).1 r hr)
        (s.positions.length + 1) (some D)
        (fun x hx => ⟨qD, (Option.some.inj hx) ▸ hqD, hqDin⟩)
        i hch'
      rcases hidead with hd | ⟨q0, h0, h0d⟩
      · rw [hd] at hqc
        exact absurd hqc (by simp)
      · rw [h0] at hqc
        rw [Option.some.inj hqc] at h0d
        rw [hqcin] at h0d
        exact absurd h0d (by simp)
    refine ⟨fun _ => ?_, ?_, fun hne => absurd hempty hne⟩
    · rw [hPi, hq] at hp'
      rw [← Option.some.inj hp']
      exact hqsol
    · intro D qD hD _
      rw [hempty] at hD
      exact absurd hD (List.not_mem_nil D)
  · have hm := hmap P hPi
    rw [hp'] at hm
    simp only [Option.map_some'] at hm
    obtain ⟨p, hp, hsk⟩ := map_c2skel_some hm.symm
    have hpf := c2skel_eq_fields hsk
    obtain ⟨h0, hlb, hat⟩ := hinv P p hp (by rw [hpf.1]; exact hin')
    refine ⟨?_, ?_, ?_⟩
    · intro hemp
      rw [← hpf.2.2.2.2]
      apply h0
      rw [List.eq_nil_iff_forall_not_mem]
      intro D hD
      obtain ⟨qD, hqD, hqDin, _, _⟩ := (desclist_mem s P D).mp hD
      have hDi : D ≠ i := by
        intro hDi
        rcases hidead with hd | ⟨q0, h0', h0d⟩
        · rw [hDi, hd] at hqD
          exact absurd hqD (by simp)
        · rw [hDi, h0'] at hqD
          rw [Option.some.inj hqD] at h0d
          rw [hqDin] at h0d
          exact absurd h0d (by simp)
      rw [List.eq_nil_iff_forall_not_mem] at hemp
      exact hemp D ((hdesc P D hDi).mpr hD)
    · intro D q' hD hq'
      obtain ⟨qD, hDi, hqD, hqDin⟩ := hdesc_i P D hD
      have hmD := hmap D hDi
      rw [hq'] at hmD
      simp only [Option.map_some'] at hmD
      obtain ⟨q0, hq0, hsk0⟩ := map_c2skel_some hmD.symm
      have hq0D : q0 = qD := by
        rw [hq0] at hqD
        exact Option.some.inj hqD
      rw [← hpf.2.2.2.2, ← (c2skel_eq_fields hsk0).2.2.2.1]
      exact hlb D q0 ((hdesc P D hDi).mp hD) hq0
    · intro hne
      have hne' : desclist s P ≠ [] := by
        intro hemp
        rw [List.eq_nil_iff_forall_not_mem] at hemp
        apply hne
        rw [List.eq_nil_iff_forall_not_mem]
        intro D hD
        obtain ⟨qD, hDi, _, _⟩ := hdesc_i P D hD
        exact hemp D ((hdesc P D hDi).mp hD)
      obtain ⟨D, qD, hD, hqD, hmc⟩ := hat hne'
      have hDin := desclist_mem s P D
      obtain ⟨qD', hqD', hqD'in, _, _⟩ := hDin.mp hD
      have hDi : D ≠ i := by
        intro hDi
        rcases hidead with hd | ⟨q0, h0, h0d⟩
        · rw [hDi, hd] at hqD'
          exact absurd hqD' (by simp)
        · rw [hDi, h0] at hqD'
          rw [Option.some.inj hqD'] at h0d
          rw [hqD'in] at h0d
          exact absurd h0d (by simp)
      have hmD := hmap D hDi
      rw [hqD] at hmD
      simp only [Option.map_some'] at hmD
      obtain ⟨q', hq', hsk'⟩ := map_c2skel_some hmD
      refine ⟨D, q', (hdesc P D hDi).mpr hD, hq', ?_⟩
      rw [(c2skel_eq_fields hsk').2.2.2.1, ← hpf.2.2.2.2, hmc]

/-- A live position with solutionsize 0 has no endpoint
descendants. -/
theorem solInv_zero_empty (s : redo_session)
    (hwf : c2wfB s = true) (hinv : solInvB s = true)
    (P : Nat) (pP : redo_position) (hP : s.pos P = some pP)
    (hin : pP.inuse = true) (h0 : pP.solutionsize = 0) :
    desclist s P = [] := by
  by_contra hne
  obtain ⟨D, qD, hD, hqD, hmc⟩ :=
    ((solInv_iff s).mp hinv P pP hP hin).2.2 hne
  obtain ⟨qD', hqD', hin', hep', _⟩ := (desclist_mem s P D).mp hD
  have hqq : qD' = qD := by
    rw [hqD'] at hqD
    exact Option.some.inj hqD
  have hmcpos := (((c2wf_iff s).mp hwf).2 D qD' hqD' hin').2.1 hep'
  rw [hqq] at hmcpos
  omega

set_option maxHeartbeats 2000000 in
/-- Allocating a fresh endpoint slot below a live parent and then
running the ancestor walk restores the solution-size invariant: each
ancestor ends at the minimum of its old nonzero value and the new path
length, which is the minimum movecount over its enlarged descendant
set. -/
theorem add_slot_inv1 (s s4 : redo_session) (i pr : Nat)
    (pp : redo_position)
    (hwf : c2wfB s = true) (hinv : solInvB s = true)
    (hpr : s.pos pr = some pp) (hpplive : pp.inuse = true)
    (hmap : ∀ j, j ≠ i →
      (s4.pos j).map c2skel = (s.pos j).map c2skel)
    (hidead : s.pos i = none ∨
      ∃ q, s.pos i = some q ∧ q.inuse = false)
    (hlen : s.positions.length ≤ s4.positions.length)
    (q : redo_position) (hq : s4.pos i = some q)
    (hqin : q.inuse = true) (hqep : q.endpoint = true)
    (hqprev : q.prev = some pr)
    (hqmc : q.movecount = pp.movecount + 1)
    (hqsol : q.solutionsize = pp.movecount + 1) :
    solInvB (solwalk (s4.positions.length + 1) s4 (some pr)
      (pp.movecount + 1)) = true := by
  have hwfP := (c2wf_iff s).mp hwf
  have hpl : ∀ a p, s.pos a = some p → p.inuse = true →
      ∀ r, p.prev = some r →
        ∃ q0, s.pos r = some q0 ∧ q0.inuse = true :=
    fun a p hp hin r hr => (hwfP.2 a p hp hin).1 r hr
  have hipos : i < s4.positions.length := pos_some_lt hq
  have hdesc := add_slot_desc s s4 i hwf hmap hidead hlen
  have hndpr : (chainof s pr).Nodup := (hwfP.2 pr pp hpr hpplive).2.2
  have hlenpr : (chainof s pr).length ≤ s.positions.length :=
    chainof_len_le s pr hndpr
  have hlive_c : ∀ a ∈ chainof s pr,
      ∃ qa, s.pos a = some qa ∧ qa.inuse = true := by
    intro a ha
    exact prevchain_live s hpl (s.positions.length + 1) (some pr)
      (fun x hx => ⟨pp, (Option.some.inj hx) ▸ hpr, hpplive⟩) a ha
  have hnotdead : ∀ a, a ∈ chainof s pr → a ≠ i := by
    intro a ha hai
    obtain ⟨qa, hqa, hqain⟩ := hlive_c a ha
    rcases hidead with hd | ⟨q0, h0, h0d⟩
    · rw [hai, hd] at hqa
      exact absurd hqa (by simp)
    · rw [hai, h0] at hqa
      rw [Option.some.inj hqa] at h0d
      rw [hqain] at h0d
      exact absurd h0d (by simp)
  have hmem_i : i ∉ chainof s pr := fun h => hnotdead i h rfl
  have hc_eq : prevchain (s4.positions.length + 1) s4 (some pr) =
      chainof s pr := by
    rw [prevchain_transfer s s4 i hmap hidead hpl
      (s4.positions.length + 1) (some pr)
      (fun x hx => ⟨pp, (Option.some.inj hx) ▸ hpr, hpplive⟩)]
    exact chainof_fuel s pr (s4.positions.length + 1)
      (by omega) (by omega)
  have hchain4i : chainof s4 i = i :: chainof s pr := by
    rw [chainof_self s4 i q hq, hqprev]
    congr 1
    rw [prevchain_transfer s s4 i hmap hidead hpl
      s4.positions.length (some pr)
      (fun x hx => ⟨pp, (Option.some.inj hx) ▸ hpr, hpplive⟩)]
    have hup : (chainof s pr).length < s4.positions.length :=
      nodup_lt_bound_erase _ _ i hndpr
        (fun x hx => by
          have := chainof_mem_lt s pr x hx
          omega) hipos hmem_i
    exact chainof_fuel s pr s4.positions.length (by omega) hup
  have hmono : ∀ (n1 n2 a1 a2 : Nat) (p1 p2 : redo_position),
      n1 ≤ n2 →
      (prevchain (s4.positions.length + 1) s4
        (some pr))[n1]? = some a1 →
      (prevchain (s4.positions.length + 1) s4
        (some pr))[n2]? = some a2 →
      s4.pos a1 = some p1 → s4.pos a2 = some p2 →
      p1.solutionsize ≠ 0 →
      p2.solutionsize ≠ 0 ∧ p2.solutionsize ≤ p1.solutionsize := by
    intro n1 n2 a1 a2 p1 p2 h12 h1 h2 hp1 hp2 hnz
    rw [hc_eq] at h1 h2
    have ha1 := List.getElem?_mem h1
    have ha2 := List.getElem?_mem h2
    obtain ⟨qa1, hqa1, hqa1in⟩ := hlive_c a1 ha1
    obtain ⟨qa2, hqa2, hqa2in⟩ := hlive_c a2 ha2
    have hm1 := hmap a1 (hnotdead a1 ha1)
    rw [hp1, hqa1] at hm1
    simp only [Option.map_some', Option.some.injEq] at hm1
    have hf1 := c2skel_eq_fields hm1
    have hm2 := hmap a2 (hnotdead a2 ha2)
    rw [hp2, hqa2] at hm2
    simp only [Option.map_some', Option.some.injEq] at hm2
    have hf2 := c2skel_eq_fields hm2
    have hdrop := chainof_mem_drop s pr a1 n1 (by omega) h1
    have hmm : a2 ∈ chainof s a1 := by
      rw [hdrop]
      have hget : ((chainof s pr).drop n1)[n2 - n1]? = some a2 := by
        rw [List.getElem?_drop]
        rw [show n1 + (n2 - n1) = n2 from by omega]
        exact h2
      exact List.getElem?_mem hget
    have hres := solInv_mono s hwf hinv a1 a2 qa1 qa2 hqa1 hqa1in
      hmm hqa2 (by rw [← hf1.2.2.2.2]; exact hnz)
    constructor
    · rw [hf2.2.2.2.2]
      exact hres.1
    · rw [hf1.2.2.2.2, hf2.2.2.2.2]
      exact hres.2
  obtain ⟨hwalkfr, hwalkmem⟩ := solwalk_min s4
    (s4.positions.length + 1) (some pr) (pp.movecount + 1)
    (by rw [hc_eq]; exact hndpr) hmono
  obtain ⟨w, hw⟩ : ∃ t : redo_session,
      t = solwalk (s4.positions.length + 1) s4 (some pr)
        (pp.movecount + 1) := ⟨_, rfl⟩
  rw [← hw]
  rw [← hw] at hwalkfr hwalkmem
  rw [hc_eq] at hwalkfr hwalkmem
  have hSol : SolOnly s4 w := hw ▸ solwalk_SolOnly _ _ _ _
  have hlenw : w.positions.length = s4.positions.length := by
    rw [hw]
    exact solwalk_length _ _ _ _
  have hmapw : ∀ j, (w.pos j).map wfskel = (s4.pos j).map wfskel :=
    fun j => map_wf_of_solskel (hSol.2 j)
  have hdw : ∀ P, desclist w P = desclist s4 P :=
    desclist_congr_wf s4 w hlenw hmapw
  have hdesc4 : ∀ P D, D ∈ desclist s4 P ↔
      (D ∈ desclist s P ∨ (D = i ∧ P ∈ i :: chainof s pr)) := by
    intro P D
    constructor
    · intro hD
      by_cases hDi : D = i
      · right
        refine ⟨hDi, ?_⟩
        rw [desclist_mem] at hD
        obtain ⟨q', hq', _, _, hch⟩ := hD
        rw [hDi] at hch
        rw [hchain4i] at hch
        exact hch
      · left
        exact (hdesc P D hDi).mp hD
    · intro hD
      rcases hD with hD | ⟨hDi, hP⟩
      · obtain ⟨qD, hqD, hqDin, _, _⟩ := (desclist_mem s P D).mp hD
        have hDi : D ≠ i := by
          intro hDi
          rcases hidead with hd | ⟨q0, h0, h0d⟩
          · rw [hDi, hd] at hqD
            exact absurd hqD (by simp)
          · rw [hDi, h0] at hqD
            rw [Option.some.inj hqD] at h0d
            rw [hqDin] at h0d
            exact absurd h0d (by simp)
        exact (hdesc P D hDi).mpr hD
      · rw [hDi]
        rw [desclist_mem]
        exact ⟨q, hq, hqin, hqep, by rw [hchain4i]; exact hP⟩
  rw [solInv_iff]
  intro P pP1 hP1 hin1
  by_cases hPi : P = i
  · rw [hPi] at hP1 ⊢
    have hwi : w.pos i = some q := by
      rw [hwalkfr i hmem_i]
      exact hq
    have hpq : pP1 = q := by
      rw [hwi] at hP1
      exact (Option.some.inj hP1).symm
    have hdi : ∀ D, D ∈ desclist w i ↔ D = i := by
      intro D
      rw [hdw, hdesc4]
      constructor
      · rintro (hD | ⟨hDi, _⟩)
        · exfalso
          obtain ⟨qD, hqD, hqDin, _, hch⟩ :=
            (desclist_mem s i D).mp hD
          obtain ⟨qc, hqc, hqcin⟩ := prevchain_live s hpl
            (s.positions.length + 1) (some D)
            (fun x hx => ⟨qD, (Option.some.inj hx) ▸ hqD, hqDin⟩)
            i hch
          rcases hidead with hd | ⟨q0, h0, h0d⟩
          · rw [hd] at hqc
            exact absurd hqc (by simp)
          · rw [h0] at hqc
            rw [Option.some.inj hqc] at h0d
            rw [hqcin] at h0d
            exact absurd h0d (by simp)
        · exact hDi
      · intro hDi
        right
        exact ⟨hDi, List.mem_cons_self i _⟩
    have hine : i ∈ desclist w i := (hdi i).mpr rfl
    refine ⟨?_, ?_, ?_⟩
    · intro hemp
      rw [hemp] at hine
      exact absurd hine (List.not_mem_nil i)
    · intro D qD' hD hqD'
      have hDi := (hdi D).mp hD
      rw [hDi] at hqD'
      rw [hwi] at hqD'
      rw [← Option.some.inj hqD', hpq]
      omega
    · intro _
      exact ⟨i, q, hine, hwi, by rw [hpq]; omega⟩
  · have h4 := hSol.2 P
    rw [hP1] at h4
    obtain ⟨pP4, hP4, hsk4⟩ : ∃ p4, s4.pos P = some p4 ∧
        solskel pP1 = solskel p4 := by
      cases h44 : s4.pos P with
      | none => rw [h44] at h4; simp at h4
      | some p4 =>
          rw [h44] at h4
          simp only [Option.map_some', Option.some.injEq] at h4
          exact ⟨p4, rfl, h4⟩
    have hsf := solskel_eq_fields hsk4
    have hmP := hmap P hPi
    rw [hP4] at hmP
    simp only [Option.map_some'] at hmP
    obtain ⟨pP, hP, hskP⟩ := map_c2skel_some hmP.symm
    have hcf := c2skel_eq_fields hskP
    have hinP : pP.inuse = true := by
      rw [hcf.1, ← hsf.2.2.1]
      exact hin1
    obtain ⟨h0P, hlbP, hatP⟩ := (solInv_iff s).mp hinv P pP hP hinP
    have hmcD : ∀ D qD', D ≠ i → D ∈ desclist s P →
        w.pos D = some qD' →
        ∃ qD, s.pos D = some qD ∧ qD'.movecount = qD.movecount := by
      intro D qD' hDi hD hqD'
      have hD4 := hSol.2 D
      rw [hqD'] at hD4
      obtain ⟨qD4, hD44, hskD⟩ : ∃ q4, s4.pos D = some q4 ∧
          solskel qD' = solskel q4 := by
        cases h44 : s4.pos D with
        | none => rw [h44] at hD4; simp at hD4
        | some q4 =>
            rw [h44] at hD4
            simp only [Option.map_some', Option.some.injEq] at hD4
            exact ⟨q4, rfl, hD4⟩
      have hmD := hmap D hDi
      rw [hD44] at hmD
      simp only [Option.map_some'] at hmD
      obtain ⟨qD, hqD, hskD2⟩ := map_c2skel_some hmD.symm
      refine ⟨qD, hqD, ?_⟩
      rw [(solskel_eq_fields hskD).2.2.2.2.2.2.2.2.1,
        ← (c2skel_eq_fields hskD2).2.2.2.1]
    have hDnoti : ∀ D, D ∈ desclist s P → D ≠ i := by
      intro D hD hDi
      obtain ⟨qD, hqD, hqDin, _, _⟩ := (desclist_mem s P D).mp hD
      rcases hidead with hd | ⟨q0, h0, h0d⟩
      · rw [hDi, hd] at hqD
        exact absurd hqD (by simp)
      · rw [hDi, h0] at hqD
        rw [Option.some.inj hqD] at h0d
        rw [hqDin] at h0d
        exact absurd h0d (by simp)
    by_cases hPc : P ∈ chainof s pr
    · obtain ⟨qP, hqP, hqPin⟩ := hlive_c P hPc
      have hw4 := hwalkmem P hPc pP4 hP4
      have hp1rec : pP1 = { pP4 with
          solutionsize := (if pP4.solutionsize = 0 then
            pp.movecount + 1
          else min pP4.solutionsize (pp.movecount + 1)) } := by
        rw [hw4] at hP1
        exact (Option.some.inj hP1).symm
      have hwi : w.pos i = some q := by
        rw [hwalkfr i hmem_i]
        exact hq
      have hmemP : ∀ D, D ∈ desclist w P ↔
          (D ∈ desclist s P ∨ D = i) := by
        intro D
        rw [hdw, hdesc4]
        constructor
        · rintro (h | ⟨hDi, _⟩)
          · exact Or.inl h
          · exact Or.inr hDi
        · rintro (h | hDi)
          · exact Or.inl h
          · exact Or.inr ⟨hDi, List.mem_cons_of_mem i hPc⟩
      have hiw : i ∈ desclist w P := (hmemP i).mpr (Or.inr rfl)
      have hsolval : pP1.solutionsize ≤ pp.movecount + 1 := by
        rw [hp1rec]
        dsimp only
        by_cases h0 : pP4.solutionsize = 0
        · rw [if_pos h0]
        · rw [if_neg h0]
          exact Nat.min_le_right _ _
      refine ⟨?_, ?_, ?_⟩
      · intro hemp
        rw [hemp] at hiw
        exact absurd hiw (List.not_mem_nil i)
      · intro D qD' hD hqD'
        rcases (hmemP D).mp hD with hDs | hDi
        · obtain ⟨qD, hqD, hmceq⟩ := hmcD D qD' (hDnoti D hDs) hDs
            hqD'
          have hlb := hlbP D qD hDs hqD
          by_cases h0 : pP.solutionsize = 0
          · exfalso
            have hempS := solInv_zero_empty s hwf hinv P pP hP hinP
              h0
            rw [hempS] at hDs
            exact absurd hDs (List.not_mem_nil D)
          · rw [hmceq, hp1rec]
            dsimp only
            rw [hcf.2.2.2.2] at h0
            rw [if_neg h0]
            have hm1 : min pP4.solutionsize (pp.movecount + 1) ≤
                pP4.solutionsize := Nat.min_le_left _ _
            have hlb' : pP4.solutionsize ≤ qD.movecount := by
              rw [← hcf.2.2.2.2]
              exact hlb
            omega
        · rw [hDi] at hqD'
          rw [hwi] at hqD'
          rw [← Option.some.inj hqD']
          omega
      · intro _
        by_cases h0 : pP4.solutionsize = 0
        · refine ⟨i, q, hiw, hwi, ?_⟩
          rw [hp1rec]
          dsimp only
          rw [if_pos h0]
          omega
        · rcases le_or_lt (pp.movecount + 1) pP4.solutionsize with
            hle | hlt
          · refine ⟨i, q, hiw, hwi, ?_⟩
            rw [hp1rec]
            dsimp only
            rw [if_neg h0, Nat.min_eq_right hle]
            omega
          · have h0P' : pP.solutionsize ≠ 0 := by
              rw [hcf.2.2.2.2]
              exact h0
            have hneS : desclist s P ≠ [] := by
              intro hemp
              exact h0P' (h0P hemp)
            obtain ⟨D, qD, hD, hqD, hmc⟩ := hatP hneS
            have hDw : D ∈ desclist w P := (hmemP D).mpr (Or.inl hD)
            obtain ⟨qD', hqD', _, _, _⟩ := (desclist_mem w P D).mp hDw
            obtain ⟨qD0, hqD0, hmceq⟩ := hmcD D qD' (hDnoti D hD) hD
              hqD'
            have hqq : qD0 = qD := by
              rw [hqD0] at hqD
              exact Option.some.inj hqD
            refine ⟨D, qD', hDw, hqD', ?_⟩
            rw [hmceq, hqq, hmc, hp1rec]
            dsimp only
            rw [if_neg h0, Nat.min_eq_left (by omega)]
            rw [hcf.2.2.2.2]
    · have hwP : w.pos P = s4.pos P := hwalkfr P hPc
      have hp14 : pP1 = pP4 := by
        rw [hwP, hP4] at hP1
        exact (Option.some.inj hP1).symm
      have hmemP : ∀ D, D ∈ desclist w P ↔ D ∈ desclist s P := by
        intro D
        rw [hdw, hdesc4]
        constructor
        · rintro (h | ⟨hDi, hP'⟩)
          · exact h
          · exfalso
            rcases List.mem_cons.mp hP' with h' | h'
            · exact hPi h'
            · exact hPc h'
        · intro h
          exact Or.inl h
      refine ⟨?_, ?_, ?_⟩
      · intro hemp
        have hempS : desclist s P = [] := by
          rw [List.eq_nil_iff_forall_not_mem] at hemp ⊢
          intro D hD
          exact hemp D ((hmemP D).mpr hD)
        rw [hp14, ← hcf.2.2.2.2]
        exact h0P hempS
      · intro D qD' hD hqD'
        have hDs := (hmemP D).mp hD
        obtain ⟨qD, hqD, hmceq⟩ := hmcD D qD' (hDnoti D hDs) hDs hqD'
        rw [hmceq, hp14, ← hcf.2.2.2.2]
        exact hlbP D qD hDs hqD
      · intro hne
        have hneS : desclist s P ≠ [] := by
          intro hemp
          apply hne
          rw [List.eq_nil_iff_forall_not_mem]
          intro D hD
          have hD' := (hmemP D).mp hD
          rw [hemp] at hD'
          exact absurd hD' (List.not_mem_nil D)
        obtain ⟨D, qD, hD, hqD, hmc⟩ := hatP hneS
        have hDw : D ∈ desclist w P := (hmemP D).mpr hD
        obtain ⟨qD', hqD', _, _, _⟩ := (desclist_mem w P D).mp hDw
        obtain ⟨qD0, hqD0, hmceq⟩ := hmcD D qD' (hDnoti D hD) hD hqD'
        have hqq : qD0 = qD := by
          rw [hqD0] at hqD
          exact Option.some.inj hqD
        refine ⟨D, qD', hDw, hqD', ?_⟩
        rw [hmceq, hqq, hp14, ← hcf.2.2.2.2, hmc]

theorem sethashentry_length (s : redo_session) (v : Nat) :
    (sethashentry s v).positions.length = s.positions.length := rfl

theorem addposition_core_length_ge (s : redo_session)
    (prev : Option Nat) (mv : Int) (st : List Nat) (ep : Nat)
    (flag : Bool) :
    s.positions.length ≤
      (addposition_core s prev mv st ep flag).1.positions.length := by
  unfold addposition_core getpositionstruct
  cases hfl : s.freelist with
  | nil =>
      dsimp only
      cases prev with
      | none =>
          by_cases hep : ep ≠ 0
          · rw [if_pos hep, solwalk_length, modifypos_length,
              sethashentry_length]
            simp
          · rw [if_neg hep, modifypos_length, sethashentry_length]
            simp
      | some pr =>
          by_cases hep : ep ≠ 0
          · rw [if_pos hep, solwalk_length, modifypos_length,
              sethashentry_length, (insertmoveto_spec _ _ _ _).2.2.1]
            simp
          · rw [if_neg hep, modifypos_length, sethashentry_length,
              (insertmoveto_spec _ _ _ _).2.2.1]
            simp
  | cons w rest =>
      dsimp only
      cases prev with
      | none =>
          by_cases hep : ep ≠ 0
          · rw [if_pos hep, solwalk_length, modifypos_length,
              sethashentry_length]
            simp
          · rw [if_neg hep, modifypos_length, sethashentry_length]
            simp
      | some pr =>
          by_cases hep : ep ≠ 0
          · rw [if_pos hep, solwalk_length, modifypos_length,
              sethashentry_length, (insertmoveto_spec _ _ _ _).2.2.1]
            simp
          · rw [if_neg hep, modifypos_length, sethashentry_length,
              (insertmoveto_spec _ _ _ _).2.2.1]
            simp

theorem addposition_core_snd (s : redo_session) (prev : Option Nat)
    (mv : Int) (st : List Nat) (ep : Nat) (flag : Bool) :
    (addposition_core s prev mv st ep flag).2 =
      (getpositionstruct s st ep).2 := rfl

theorem c2wfB_changeflag (t : redo_session) :
    c2wfB { t with changeflag := true } = c2wfB t := by
  cases h : c2wfB t with
  | true => exact c2wf_congr t _ rfl rfl (fun j => rfl) h
  | false =>
      cases h' : c2wfB { t with changeflag := true } with
      | false => rfl
      | true =>
          have h2 := c2wf_congr { t with changeflag := true } t rfl
            rfl (fun j => rfl) h'
          rw [h] at h2
          exact h2.symm

theorem solInvB_changeflag (t : redo_session) :
    solInvB { t with changeflag := true } = solInvB t := by
  cases h : solInvB t with
  | true => exact solInv_congr t _ rfl (fun j => rfl) h
  | false =>
      cases h' : solInvB { t with changeflag := true } with
      | false => rfl
      | true =>
          have h2 := solInv_congr { t with changeflag := true } t rfl
            (fun j => rfl) h'
          rw [h] at h2
          exact h2.symm

/-- The fresh slot's ancestor chain is itself followed by its
parent's old chain. -/
theorem add_slot_chain_i (s s4 : redo_session) (i pr : Nat)
    (pp : redo_position)
    (hwf : c2wfB s = true)
    (hpr : s.pos pr = some pp) (hpplive : pp.inuse = true)
    (hmap : ∀ j, j ≠ i →
      (s4.pos j).map c2skel = (s.pos j).map c2skel)
    (hidead : s.pos i = none ∨
      ∃ q, s.pos i = some q ∧ q.inuse = false)
    (hlen : s.positions.length ≤ s4.positions.length)
    (q : redo_position) (hq : s4.pos i = some q)
    (hqprev : q.prev = some pr) :
    chainof s4 i = i :: chainof s pr ∧ i ∉ chainof s pr ∧
    (chainof s pr).Nodup := by
  have hwfP := (c2wf_iff s).mp hwf
  have hpl : ∀ a p, s.pos a = some p → p.inuse = true →
      ∀ r, p.prev = some r →
        ∃ q0, s.pos r = some q0 ∧ q0.inuse = true :=
    fun a p hp hin r hr => (hwfP.2 a p hp hin).1 r hr
  have hipos : i < s4.positions.length := pos_some_lt hq
  have hndpr : (chainof s pr).Nodup := (hwfP.2 pr pp hpr hpplive).2.2
  have hlenpr : (chainof s pr).length ≤ s.positions.length :=
    chainof_len_le s pr hndpr
  have hlive_c : ∀ a ∈ chainof s pr,
      ∃ qa, s.pos a = some qa ∧ qa.inuse = true := by
    intro a ha
    exact prevchain_live s hpl (s.positions.length + 1) (some pr)
      (fun x hx => ⟨pp, (Option.some.inj hx) ▸ hpr, hpplive⟩) a ha
  have hmem_i : i ∉ chainof s pr := by
    intro h
    obtain ⟨qa, hqa, hqain⟩ := hlive_c i h
    rcases hidead with hd | ⟨q0, h0, h0d⟩
    · rw [hd] at hqa
      exact absurd hqa (by simp)
    · rw [h0] at hqa
      rw [Option.some.inj hqa] at h0d
      rw [hqain] at h0d
      exact absurd h0d (by simp)
  refine ⟨?_, hmem_i, hndpr⟩
  rw [chainof_self s4 i q hq, hqprev]
  congr 1
  rw [prevchain_transfer s s4 i hmap hidead hpl
    s4.positions.length (some pr)
    (fun x hx => ⟨pp, (Option.some.inj hx) ▸ hpr, hpplive⟩)]
  have hup : (chainof s pr).length < s4.positions.length :=
    nodup_lt_bound_erase _ _ i hndpr
      (fun x hx => by
        have := chainof_mem_lt s pr x hx
        omega) hipos hmem_i
  exact chainof_fuel s pr s4.positions.length (by omega) hup

/-- Adding a parentless (necessarily non-endpoint) position keeps the
solution accounting intact. -/
theorem add_core_none_c2 (s : redo_session) (mv : Int)
    (st : List Nat) (flag : Bool)
    (hwf : c2wfB s = true) (hinv : solInvB s = true) :
    c2wfB (addposition_core s none mv st 0 flag).1 = true ∧
    solInvB (addposition_core s none mv st 0 flag).1 = true := by
  have hwfP := (c2wf_iff s).mp hwf
  have hfl : ∀ j ∈ s.freelist, j < s.positions.length :=
    fun j hj => (hwfP.1.2 j hj).1
  have hlen := addposition_core_length_ge s none mv st 0 flag
  obtain ⟨hrec, hcount, hroot, hgraft, hframe, hdead0⟩ :=
    addposition_core_none s mv st 0 flag hfl
  obtain ⟨s', i, hsi⟩ : ∃ t k,
      addposition_core s none mv st 0 flag = (t, k) := ⟨_, _, rfl⟩
  rw [hsi] at hrec hframe hdead0 hlen ⊢
  dsimp only at hrec hframe hdead0 hlen ⊢
  have hidead : s.pos i = none ∨
      ∃ q, s.pos i = some q ∧ q.inuse = false := by
    rcases hdead0 with h | h
    · exact Or.inl h
    · cases hq : s.pos i with
      | none => exact Or.inl rfl
      | some q => exact Or.inr ⟨q, rfl, (hwfP.1.2 i h).2 q hq⟩
  have hmap : ∀ j, j ≠ i →
      (s'.pos j).map c2skel = (s.pos j).map c2skel := by
    intro j hj
    rw [hframe j hj]
  have hfr' : s'.freelist = (getpositionstruct s st 0).1.freelist := by
    have h := addposition_core_freelist_eq s none mv st 0 flag
    rw [hsi] at h
    exact h
  have hi2 : (getpositionstruct s st 0).2 = i := by
    have h := addposition_core_snd s none mv st 0 flag
    rw [hsi] at h
    exact h.symm
  have hfree : s'.freelist = s.freelist ∧ s.freelist = [] ∨
      s.freelist = i :: s'.freelist := by
    rcases getpositionstruct_freelist s st 0 with ⟨h1, h2⟩ | h1
    · exact Or.inl ⟨by rw [hfr', h1], h2⟩
    · right
      rw [hfr', ← hi2]
      exact h1
  have hrecep : ({ freshposition s st 0 with setbetter := flag }
      : redo_position).endpoint = false := rfl
  have hrecsol : ({ freshposition s st 0 with setbetter := flag }
      : redo_position).solutionsize = 0 := rfl
  have hqchain : (chainof s' i).Nodup := by
    have h1 : chainof s' i = [i] := by
      rw [chainof_self s' i _ hrec]
      rw [show ({ freshposition s st 0 with setbetter := flag }
        : redo_position).prev = none from rfl]
      rw [prevchain_none]
    rw [h1]
    exact List.nodup_singleton i
  constructor
  · refine add_slot_wf s s' i hwf hmap hidead hlen hfree _ hrec
      ?_ hqchain (Or.inl rfl)
    intro h
    rw [hrecep] at h
    exact absurd h (by simp)
  · exact add_slot_inv0 s s' i hwf hinv hmap hidead hlen _ hrec
      hrecep hrecsol

set_option maxHeartbeats 1000000 in
/-- Adding a position below a live parent (endpoint or not) keeps the
solution accounting intact. -/
theorem add_core_some_c2 (s : redo_session) (pr : Nat) (mv : Int)
    (st : List Nat) (ep : Nat) (flag : Bool) (pp : redo_position)
    (hpr : s.pos pr = some pp) (hpplive : pp.inuse = true)
    (hwf : c2wfB s = true) (hinv : solInvB s = true)
    (hep : ep ≤ 1) :
    c2wfB (addposition_core s (some pr) mv st ep flag).1 = true ∧
    solInvB (addposition_core s (some pr) mv st ep flag).1 = true := by
  have hwfP := (c2wf_iff s).mp hwf
  have hfl : ∀ j ∈ s.freelist, j < s.positions.length :=
    fun j hj => (hwfP.1.2 j hj).1
  have hfldead : ∀ j ∈ s.freelist, ∀ q, s.pos j = some q →
      q.inuse = false :=
    fun j hj q hq => (hwfP.1.2 j hj).2 q hq
  have hfrel := addposition_core_freelist_eq s (some pr) mv st ep flag
  have hsnd := addposition_core_snd s (some pr) mv st ep flag
  obtain ⟨s4, i, hcoreq, hipr, hrec4, hframe4, hinspr, hdead4, hc4,
    hst4, hlen4, htail4, hgr4⟩ :=
    addposition_core_some_spec s pr mv st ep flag pp hpr hpplive hfl
      hfldead
  rw [hcoreq] at hfrel hsnd ⊢
  dsimp only at hfrel hsnd ⊢
  obtain ⟨rec, hrecdef⟩ : ∃ r : redo_position,
      r = { freshposition s st ep with
        setbetter := flag, prev := some pr,
        movecount := pp.movecount + 1,
        solutionsize := if ep ≠ 0 then pp.movecount + 1 else 0 } :=
    ⟨_, rfl⟩
  rw [← hrecdef] at hrec4
  have hrin : rec.inuse = true := by rw [hrecdef]; rfl
  have hrprev : rec.prev = some pr := by rw [hrecdef]
  have hrmc : rec.movecount = pp.movecount + 1 := by rw [hrecdef]
  have hmap4 : ∀ j, j ≠ i →
      (s4.pos j).map c2skel = (s.pos j).map c2skel := by
    intro j hj
    by_cases hjpr : j = pr
    · rw [hjpr]
      exact map_c2_of_insSkel hinspr
    · rw [hframe4 j hj hjpr]
  have hchaini := add_slot_chain_i s s4 i pr pp hwf hpr hpplive hmap4
    hdead4 hlen4 rec hrec4 hrprev
  have hfr4 : s4.freelist = (getpositionstruct s st ep).1.freelist := by
    by_cases hepz : ep ≠ 0
    · rw [if_pos hepz, solwalk_freelist] at hfrel
      exact hfrel
    · rw [if_neg hepz] at hfrel
      exact hfrel
  have hfree4 : s4.freelist = s.freelist ∧ s.freelist = [] ∨
      s.freelist = i :: s4.freelist := by
    rcases getpositionstruct_freelist s st ep with ⟨h1, h2⟩ | h1
    · exact Or.inl ⟨by rw [hfr4, h1], h2⟩
    · right
      rw [hfr4, hsnd]
      exact h1
  have hwfs4 : c2wfB s4 = true := by
    refine add_slot_wf s s4 i hwf hmap4 hdead4 hlen4 hfree4 rec hrec4
      ?_ ?_ (Or.inr ⟨pr, pp, hrprev, hpr, hpplive⟩)
    · intro _
      rw [hrmc]
      omega
    · rw [hchaini.1]
      exact List.nodup_cons.mpr ⟨hchaini.2.1, hchaini.2.2⟩
  rcases (show ep = 0 ∨ ep = 1 by omega) with rfl | rfl
  · rw [if_neg (show ¬((0 : Nat) ≠ 0) by decide)]
    refine ⟨hwfs4, ?_⟩
    refine add_slot_inv0 s s4 i hwf hinv hmap4 hdead4 hlen4 rec hrec4
      ?_ ?_
    · rw [hrecdef]
      rfl
    · rw [hrecdef]
      simp
  · rw [if_pos (show (1 : Nat) ≠ 0 by decide)]
    constructor
    · refine c2wf_congr_wf s4 _ ?_ ?_ ?_ hwfs4
      · exact solwalk_length _ _ _ _
      · exact solwalk_freelist _ _ _ _
      · exact fun j => map_wf_of_solskel
          ((solwalk_SolOnly _ _ _ _).2 j)
    · refine add_slot_inv1 s s4 i pr pp hwf hinv hpr hpplive hmap4
        hdead4 hlen4 rec hrec4 hrin ?_ hrprev hrmc ?_
      · rw [hrecdef]
        rfl
      · rw [hrecdef]
        simp

/-- An endpoint of value 1 at depth 1 with one child below it. -/
def c2a : redo_session :=
  addNC (addNC base0 (some 0) 1 [1] 1) (some 1) 2 [2] 0

/-- Dropping the endpoint's leaf child: recalcsolutionsize zeroes the
live endpoint's own solutionsize. -/
def c2r : redo_session := (redo_dropposition c2a 2).1

/-- An add with endpoint argument 2: the stored endpoint bit is
false (2 mod 2), yet solutionsize 1 still propagates. -/
def c2b : redo_session := addNC base0 (some 0) 1 [1] 2

theorem solwalk_grafting (f : Nat) (s : redo_session)
    (o : Option Nat) (n : Nat) :
    (solwalk f s o n).grafting = s.grafting :=
  sessSkel_grafting (solwalk_SolOnly f s o n).1

theorem sethashentry_grafting (s : redo_session) (v : Nat) :
    (sethashentry s v).grafting = s.grafting := rfl

theorem addposition_core_grafting (s : redo_session)
    (prev : Option Nat) (mv : Int) (st : List Nat) (ep : Nat)
    (flag : Bool) :
    (addposition_core s prev mv st ep flag).1.grafting =
      s.grafting := by
  unfold addposition_core getpositionstruct
  cases hfl : s.freelist with
  | nil =>
      dsimp only
      cases prev with
      | none =>
          by_cases hep : ep ≠ 0
          · rw [if_pos hep, solwalk_grafting, modifypos_grafting,
              sethashentry_grafting]
          · rw [if_neg hep, modifypos_grafting, sethashentry_grafting]
      | some pr =>
          by_cases hep : ep ≠ 0
          · rw [if_pos hep, solwalk_grafting, modifypos_grafting,
              sethashentry_grafting,
              (insertmoveto_spec _ _ _ _).2.2.2.2.2]
          · rw [if_neg hep, modifypos_grafting, sethashentry_grafting,
              (insertmoveto_spec _ _ _ _).2.2.2.2.2]
  | cons w rest =>
      dsimp only
      cases prev with
      | none =>
          by_cases hep : ep ≠ 0
          · rw [if_pos hep, solwalk_grafting, modifypos_grafting,
              sethashentry_grafting]
          · rw [if_neg hep, modifypos_grafting, sethashentry_grafting]
      | some pr =>
          by_cases hep : ep ≠ 0
          · rw [if_pos hep, solwalk_grafting, modifypos_grafting,
              sethashentry_grafting,
              (insertmoveto_spec _ _ _ _).2.2.2.2.2]
          · rw [if_neg hep, modifypos_grafting, sethashentry_grafting,
              (insertmoveto_spec _ _ _ _).2.2.2.2.2]

/-- Two counterexamples to the claimed invariant I6: dropping the
child of a live endpoint zeroes the endpoint's own solutionsize, and
an endpoint argument of 2 is truncated to a false endpoint bit while
its solutionsize still propagates. -/
theorem C2_drop_and_endpoint_truncation :
    ((c2r.pos 1).map (fun p =>
        (p.inuse, p.endpoint, p.solutionsize, p.movecount)) =
      some (true, true, 0, 1) ∧
     (c2r.pos 0).map (fun p => p.solutionsize) = some 0 ∧
     solInvB c2r = false ∧ c2wfB c2r = true) ∧
    ((c2b.pos 1).map (fun p => (p.endpoint, p.solutionsize)) =
      some (false, 1) ∧
     (c2b.pos 0).map (fun p => p.solutionsize) = some 1 ∧
     solInvB c2b = false ∧ c2wfB c2b = true) := by
  decide

set_option maxHeartbeats 1600000 in
/-- C2 (amended): the solution-size invariant — every live position's
solutionsize is the minimum movecount over its endpoint descendants
and zero exactly when it has none — is preserved by redo_addposition
in redo_nograft mode for endpoint arguments 0 and 1 (parentless adds
non-endpoint, parents live, session well-formed) and by
redo_getnextposition; there is no solutionend field to track endpoint
values, and redo_dropposition or an endpoint argument of 2 can break
the invariant. -/
theorem C2_solution_invariant :
    (∀ (s : redo_session) (prev : Option Nat) (mv : Int)
        (st : List Nat) (ep mode : Nat),
      c2wfB s = true → solInvB s = true →
      s.grafting = redo_nograft → ep ≤ 1 →
      (prev = none → ep = 0) →
      (∀ pr, prev = some pr →
        ∃ pp, s.pos pr = some pp ∧ pp.inuse = true) →
      c2wfB (redo_addposition s prev mv st ep mode).1 = true ∧
      solInvB (redo_addposition s prev mv st ep mode).1 = true) ∧
    (∀ (s : redo_session) (i : Nat) (mv : Int),
      c2wfB s = true → solInvB s = true →
      c2wfB (redo_getnextposition s i mv).1 = true ∧
      solInvB (redo_getnextposition s i mv).1 = true) := by
  constructor
  · intro s prev mv st ep mode hwf hinv hg hep hpe hprev
    unfold redo_addposition
    cases prev with
    | none =>
        have hep0 : ep = 0 := hpe rfl
        subst hep0
        dsimp only
        obtain ⟨hwfc, hinvc⟩ := add_core_none_c2 s mv st
          (decide (mode = redo_checklater)) hwf hinv
        have hcoregraft := addposition_core_grafting s none mv st 0
          (decide (mode = redo_checklater))
        obtain ⟨cS, hCs⟩ : ∃ t : redo_session,
            t = (addposition_core s none mv st 0
              (decide (mode = redo_checklater))).1 := ⟨_, rfl⟩
        obtain ⟨iS, hIs⟩ : ∃ k : Nat,
            k = (addposition_core s none mv st 0
              (decide (mode = redo_checklater))).2 := ⟨_, rfl⟩
        rw [← hCs, ← hIs]
        rw [← hCs] at hwfc hinvc hcoregraft
        by_cases hck : mode = redo_check ∧ 0 = 0
        · rw [if_pos hck]
          cases hcfe : checkforequiv s st with
          | none =>
              dsimp only
              rw [c2wfB_changeflag, solInvB_changeflag]
              exact ⟨hwfc, hinvc⟩
          | some e =>
              dsimp only
              cases hpi : cS.pos iS with
              | none =>
                  dsimp only
                  rw [c2wfB_changeflag, solInvB_changeflag]
                  exact ⟨hwfc, hinvc⟩
              | some pi =>
                  cases hpe2 : cS.pos e with
                  | none =>
                      dsimp only
                      rw [c2wfB_changeflag, solInvB_changeflag]
                      exact ⟨hwfc, hinvc⟩
                  | some pe =>
                      dsimp only
                      by_cases hge : pi.movecount ≥ pe.movecount
                      · rw [if_pos hge]
                        rw [c2wfB_changeflag, solInvB_changeflag]
                        constructor
                        · refine c2wf_congr cS _ ?_ ?_ ?_ hwfc
                          · exact modifypos_length _ _ _
                          · exact modifypos_freelist _ _ _
                          · exact fun k => c2skel_modify cS iS
                              (fun q => { q with better := some e })
                              (fun q => rfl) k
                        · refine solInv_congr cS _ ?_ ?_ hinvc
                          · exact modifypos_length _ _ _
                          · exact fun k => c2skel_modify cS iS
                              (fun q => { q with better := some e })
                              (fun q => rfl) k
                      · rw [if_neg hge]
                        have hsAg : (modifypos cS e (fun q =>
                            { q with better := some iS })).grafting =
                            redo_nograft := by
                          rw [modifypos_grafting, hcoregraft, hg]
                        have hnc1 : ¬ ((modifypos cS e (fun q =>
                            { q with better := some iS })).grafting =
                            redo_copypath) := by
                          rw [hsAg]
                          decide
                        have hnc2 : ¬ ((modifypos cS e (fun q =>
                            { q with better := some iS })).grafting ≠
                            redo_nograft) := by
                          rw [hsAg]
                          decide
                        rw [if_neg hnc1, if_neg hnc2]
                        rw [c2wfB_changeflag, solInvB_changeflag]
                        constructor
                        · refine c2wf_congr cS _ ?_ ?_ ?_ hwfc
                          · exact modifypos_length _ _ _
                          · exact modifypos_freelist _ _ _
                          · exact fun k => c2skel_modify cS e
                              (fun q => { q with better := some iS })
                              (fun q => rfl) k
                        · refine solInv_congr cS _ ?_ ?_ hinvc
                          · exact modifypos_length _ _ _
                          · exact fun k => c2skel_modify cS e
                              (fun q => { q with better := some iS })
                              (fun q => rfl) k
        · rw [if_neg hck]
          dsimp only
          rw [c2wfB_changeflag, solInvB_changeflag]
          exact ⟨hwfc, hinvc⟩
    | some pr =>
        dsimp only
        cases hE : (redo_getnextposition s pr mv).2 with
        | some t =>
            dsimp only
            obtain ⟨hl, hf, hm⟩ := getnext_c2 s pr mv
            exact ⟨c2wf_congr s _ hl hf hm hwf,
              solInv_congr s _ hl hm hinv⟩
        | none =>
            dsimp only
            obtain ⟨pp, hpr, hpplive⟩ := hprev pr rfl
            obtain ⟨hwfc, hinvc⟩ := add_core_some_c2 s pr mv st ep
              (decide (mode = redo_checklater)) pp hpr hpplive hwf
              hinv hep
            have hcoregraft := addposition_core_grafting s (some pr)
              mv st ep (decide (mode = redo_checklater))
            obtain ⟨cS, hCs⟩ : ∃ t2 : redo_session,
                t2 = (addposition_core s (some pr) mv st ep
                  (decide (mode = redo_checklater))).1 := ⟨_, rfl⟩
            obtain ⟨iS, hIs⟩ : ∃ k : Nat,
                k = (addposition_core s (some pr) mv st ep
                  (decide (mode = redo_checklater))).2 := ⟨_, rfl⟩
            rw [← hCs, ← hIs]
            rw [← hCs] at hwfc hinvc hcoregraft
            by_cases hck : mode = redo_check ∧ ep = 0
            · rw [if_pos hck]
              cases hcfe : checkforequiv s st with
              | none =>
                  dsimp only
                  rw [c2wfB_changeflag, solInvB_changeflag]
                  exact ⟨hwfc, hinvc⟩
              | some e =>
                  dsimp only
                  cases hpi : cS.pos iS with
                  | none =>
                      dsimp only
                      rw [c2wfB_changeflag, solInvB_changeflag]
                      exact ⟨hwfc, hinvc⟩
                  | some pi =>
                      cases hpe2 : cS.pos e with
                      | none =>
                          dsimp only
                          rw [c2wfB_changeflag, solInvB_changeflag]
                          exact ⟨hwfc, hinvc⟩
                      | some pe =>
                          dsimp only
                          by_cases hge : pi.movecount ≥ pe.movecount
                          · rw [if_pos hge]
                            rw [c2wfB_changeflag, solInvB_changeflag]
                            constructor
                            · refine c2wf_congr cS _ ?_ ?_ ?_ hwfc
                              · exact modifypos_length _ _ _
                              · exact modifypos_freelist _ _ _
                              · exact fun k => c2skel_modify cS iS
                                  (fun q =>
                                    { q with better := some e })
                                  (fun q => rfl) k
                            · refine solInv_congr cS _ ?_ ?_ hinvc
                              · exact modifypos_length _ _ _
                              · exact fun k => c2skel_modify cS iS
                                  (fun q =>
                                    { q with better := some e })
                                  (fun q => rfl) k
                          · rw [if_neg hge]
                            have hsAg : (modifypos cS e (fun q =>
                                { q with
                                    better := some iS })).grafting =
                                redo_nograft := by
                              rw [modifypos_grafting, hcoregraft, hg]
                            have hnc1 : ¬ ((modifypos cS e (fun q =>
                                { q with
                                    better := some iS })).grafting =
                                redo_copypath) := by
                              rw [hsAg]
                              decide
                            have hnc2 : ¬ ((modifypos cS e (fun q =>
                                { q with
                                    better := some iS })).grafting ≠
                                redo_nograft) := by
                              rw [hsAg]
                              decide
                            rw [if_neg hnc1, if_neg hnc2]
                            rw [c2wfB_changeflag, solInvB_changeflag]
                            constructor
                            · refine c2wf_congr cS _ ?_ ?_ ?_ hwfc
                              · exact modifypos_length _ _ _
                              · exact modifypos_freelist _ _ _
                              · exact fun k => c2skel_modify cS e
                                  (fun q =>
                                    { q with better := some iS })
                                  (fun q => rfl) k
                            · refine solInv_congr cS _ ?_ ?_ hinvc
                              · exact modifypos_length _ _ _
                              · exact fun k => c2skel_modify cS e
                                  (fun q =>
                                    { q with better := some iS })
                                  (fun q => rfl) k
            · rw [if_neg hck]
              dsimp only
              rw [c2wfB_changeflag, solInvB_changeflag]
              exact ⟨hwfc, hinvc⟩
  · intro s i mv hwf hinv
    obtain ⟨hl, hf, hm⟩ := getnext_c2 s i mv
    exact ⟨c2wf_congr s _ hl hf hm hwf, solInv_congr s _ hl hm hinv⟩

theorem C2_solution_invariant_witness :
    c2wfB (redo_addposition
      (redo_setgraftbehavior base0 redo_nograft).1
      (some 0) 1 [1] 1 redo_nocheck).1 = true ∧
    solInvB (redo_addposition
      (redo_setgraftbehavior base0 redo_nograft).1
      (some 0) 1 [1] 1 redo_nocheck).1 = true :=
  C2_solution_invariant.1 (redo_setgraftbehavior base0 redo_nograft).1
    (some 0) 1 [1] 1 redo_nocheck
    (by decide) (by decide) (by decide) (by decide)
    (fun h => Option.noConfusion h)
    (fun pr hpr => by
      cases Option.some.inj hpr
      exact ⟨_, rfl, by decide⟩)

end LibRedo
